import Mathlib

/-!
# FK20 single-proof generation (fk20_single.go)

A shallow embedding of the Toeplitz multiplier and the FK20 proof generators of
`fk20_single.go`, and theorems about them.

* Scalars (`Big`) are elements of a type `F`, group elements (`G1`) of a type `G`;
  `mulG1` is the scalar action of `F` on `G`.
* A Go slice handed to a function is a `List`; where the code re-extends a slice over
  its capacity (`h = h[:ks.width]`) the slice is a `Slice`: the underlying array up to
  the capacity, and the length.
* A `panic`, explicit or raised by a bound check, is an `Except.error` carrying a `Panic`.
* The transforms `ks.FFT` and `ks.FFTG1` live in other files of the package; they are
  fields of `KateSettings`, and theorems that depend on what they compute say so in
  their hypotheses.
-/

namespace Kate

/-! ## Failures -/

/-- The panics of `fk20_single.go`, one constructor per `panic` site, and the two
run-time bound failures of Go. -/
inductive Panic where
  /-- toeplitzPart1: "expected width %d (half of settings), got %d". -/
  | part1Length (half got : Nat)
  /-- toeplitzPart1: "FFT G1 failed in toeplitz part 1: %v". -/
  | part1FFT (err : String)
  /-- ToeplitzPart2: "expected toeplitz coeffs to match the width". -/
  | part2CoeffsLength
  /-- ToeplitzPart2: "expected xExtFFT to match width". -/
  | part2XExtLength
  /-- ToeplitzPart2: "FFT failed in toeplitz part 2: %v". -/
  | part2FFT (err : String)
  /-- ToeplitzPart3: "expected hExtFFT to match the width". -/
  | part3Length
  /-- ToeplitzPart3: "toeplitz part 3 err: %v". -/
  | part3FFT (err : String)
  /-- toeplitzCoeffsStep: "bad polynomial length". -/
  | badPolynomialLength
  /-- FK20SingleDAOptimized: "expected input of length %d (incl half of zeroes) to match
  precomputed settings length %d". -/
  | daInputLength (got width : Nat)
  /-- FK20SingleDAOptimized: "bad input, second half should be zeroed". -/
  | secondHalfNotZeroed
  /-- FK20Single and FK20SingleDAOptimized: `panic(err)` after the last transform. -/
  | finalFFT (err : String)
  /-- DAUsingFK20: "expected poly contents half the size of the Kate settings". -/
  | daPolyLength
  /-- Go run time: index out of range [idx] with length len. -/
  | indexOutOfRange (idx len : Nat)
  /-- Go run time: slice bounds out of range [:hi] with capacity cap. -/
  | sliceBoundsOutOfRange (hi cap : Nat)
  deriving DecidableEq, Repr

deriving instance DecidableEq for Except

/-! ## Machine integers, slices, loops -/

/-- Subtraction of `uint64` values: it wraps around. -/
def u64Sub (a b : Nat) : Nat := (a + 2 ^ 64 - b % 2 ^ 64) % 2 ^ 64

/-- `Copy(&dst[i], &src[j])`: both index expressions are bound-checked, the
destination first. -/
def copyElem {α : Type} (dst : List α) (i : Nat) (src : List α) (j : Nat) :
    Except Panic (List α) :=
  if i < dst.length then
    match src[j]? with
    | some v => .ok (dst.set i v)
    | none => .error (.indexOutOfRange j src.length)
  else .error (.indexOutOfRange i dst.length)

/-- `Copy(&dst[i], &v)` for a value `v` that is not an element of a slice. -/
def setElem {α : Type} (dst : List α) (i : Nat) (v : α) : Except Panic (List α) :=
  if i < dst.length then .ok (dst.set i v) else .error (.indexOutOfRange i dst.length)

/-- A Go slice whose capacity matters: `array` is the underlying array from the first
element of the slice up to its capacity, `len` the length of the slice. -/
structure Slice (α : Type) where
  array : List α
  len : Nat
  deriving DecidableEq, Repr

/-- The elements of a slice. -/
def Slice.toList {α : Type} (s : Slice α) : List α := s.array.take s.len

/-- The slice expression `s[:hi]`: allowed up to the capacity. -/
def Slice.reslice {α : Type} (s : Slice α) (hi : Nat) : Except Panic (Slice α) :=
  if hi ≤ s.array.length then .ok ⟨s.array, hi⟩
  else .error (.sliceBoundsOutOfRange hi s.array.length)

/-- `Copy(&s[i], &v)` on a slice: the index is checked against the length. -/
def Slice.setElem {α : Type} (s : Slice α) (i : Nat) (v : α) : Except Panic (Slice α) :=
  if i < s.len then .ok ⟨s.array.set i v, s.len⟩ else .error (.indexOutOfRange i s.len)

/-- The loop `for i := lo; ...; i++ { body }` run for `count` iterations from `lo`. -/
def forLoop {σ : Type} : Nat → Nat → (Nat → σ → Except Panic σ) → σ → Except Panic σ
  | 0, _, _, s => .ok s
  | count + 1, lo, body, s =>
    match body lo s with
    | .ok s1 => forLoop count (lo + 1) body s1
    | .error e => .error e

/-- The loop `for i := lo; i < hi; i++ { body }`. -/
def forRange {σ : Type} (lo hi : Nat) (body : Nat → σ → Except Panic σ) (s : σ) :
    Except Panic σ :=
  forLoop (hi - lo) lo body s

/-! ## Settings -/

/-- The part of `KateSettings` that `fk20_single.go` uses: the width (a `uint64`), the
cached transform `xExtFFT`, and the two transforms `FFT` (scalars) and `FFTG1` (group
elements), each taking the values and the `inv` flag and returning values or an error.
The slice a transform returns is freshly allocated: its capacity is its length. -/
structure KateSettings (F G : Type) where
  width : Nat
  width_lt : width < 2 ^ 64
  xExtFFT : List G
  FFT : List F → Bool → Except String (List F)
  FFTG1 : List G → Bool → Except String (List G)

section Code

variable {F G : Type} [Zero F] [Zero G] [SMul F G]

/-- `mulG1(&dst[i], &a[i], &b[i])`: the three index expressions are bound-checked in
order, then `dst[i] = b[i] • a[i]`. -/
def mulElem (dst : List G) (i : Nat) (a : List G) (b : List F) : Except Panic (List G) :=
  if i < dst.length then
    match a[i]? with
    | some p =>
      match b[i]? with
      | some c => .ok (dst.set i (c • p))
      | none => .error (.indexOutOfRange i b.length)
    | none => .error (.indexOutOfRange i a.length)
  else .error (.indexOutOfRange i dst.length)

/-- The Go function `toeplitzPart1`: extend x with zeros and transform. -/
def toeplitzPart1 (ks : KateSettings F G) (x : List G) : Except Panic (List G) :=
  let half := ks.width / 2
  if x.length ≠ half then .error (.part1Length half x.length)
  else
    -- xExt := make([]G1, ks.width, ks.width)
    let xExt := List.replicate ks.width (0 : G)
    match forRange 0 half (fun i xExt => copyElem xExt i x i) xExt with
    | .error e => .error e
    | .ok xExt =>
      match forRange half ks.width (fun i xExt => setElem xExt i 0) xExt with
      | .error e => .error e
      | .ok xExt =>
        match ks.FFTG1 xExt false with
        | .error err => .error (.part1FFT err)
        | .ok xExtFFT => .ok xExtFFT

/-- The Go function `ToeplitzPart2`: transform the coefficients and multiply pointwise. -/
def ToeplitzPart2 (ks : KateSettings F G) (toeplitzCoeffs : List F) (xExtFFT : List G) :
    Except Panic (List G) :=
  if toeplitzCoeffs.length ≠ ks.width then .error .part2CoeffsLength
  else if xExtFFT.length ≠ ks.width then .error .part2XExtLength
  else
    match ks.FFT toeplitzCoeffs false with
    | .error err => .error (.part2FFT err)
    | .ok toeplitzCoeffsFFT =>
      forRange 0 ks.width (fun i hExtFFT => mulElem hExtFFT i xExtFFT toeplitzCoeffsFFT)
        (List.replicate ks.width (0 : G))

/-- The Go function `ToeplitzPart3`: transform back and return `out[:ks.width/2]`, a
slice of the array that the inverse transform returned. -/
def ToeplitzPart3 (ks : KateSettings F G) (hExtFFT : List G) : Except Panic (Slice G) :=
  if hExtFFT.length ≠ ks.width then .error .part3Length
  else
    match ks.FFTG1 hExtFFT true with
    | .error err => .error (.part3FFT err)
    | .ok out => Slice.reslice ⟨out, out.length⟩ (ks.width / 2)

/-- The Go function `toeplitzCoeffsStep`. -/
def toeplitzCoeffsStep (ks : KateSettings F G) (polynomial : List F) :
    Except Panic (List F) :=
  let n := ks.width / 2
  if polynomial.length ≠ n then .error .badPolynomialLength
  else
    let toeplitzCoeffs := List.replicate ks.width (0 : F)
    match copyElem toeplitzCoeffs 0 polynomial (u64Sub n 1) with
    | .error e => .error e
    | .ok toeplitzCoeffs =>
      match forRange 0 (n + 1) (fun i tc => setElem tc (i + 1) 0) toeplitzCoeffs with
      | .error e => .error e
      | .ok toeplitzCoeffs =>
        forRange (n + 1) ks.width (fun i tc => copyElem tc i polynomial (i - n))
          toeplitzCoeffs

/-- The Go function `FK20Single`. -/
def FK20Single (ks : KateSettings F G) (polynomial : List F) : Except Panic (List G) :=
  match toeplitzCoeffsStep ks polynomial with
  | .error e => .error e
  | .ok toeplitzCoeffs =>
    match ToeplitzPart2 ks toeplitzCoeffs ks.xExtFFT with
    | .error e => .error e
    | .ok hExtFFT =>
      match ToeplitzPart3 ks hExtFFT with
      | .error e => .error e
      | .ok h =>
        match ks.FFTG1 h.toList false with
        | .error err => .error (.finalFFT err)
        | .ok out => .ok out

/-- The check `if !equalZero(&polynomial[i]) { panic(...) }` of one loop iteration. -/
def checkZero [DecidableEq F] (polynomial : List F) (i : Nat) (_ : Unit) :
    Except Panic Unit :=
  match polynomial[i]? with
  | some v => if v = 0 then .ok () else .error .secondHalfNotZeroed
  | none => .error (.indexOutOfRange i polynomial.length)

/-- The Go function `FK20SingleDAOptimized`. -/
def FK20SingleDAOptimized [DecidableEq F] (ks : KateSettings F G) (polynomial : List F) :
    Except Panic (List G) :=
  if polynomial.length ≠ ks.width then
    .error (.daInputLength polynomial.length ks.width)
  else
    let n := ks.width / 2
    match forRange n ks.width (checkZero polynomial) () with
    | .error e => .error e
    | .ok _ =>
      -- reducedPoly := polynomial[:n], within the length since n ≤ ks.width
      let reducedPoly := polynomial.take n
      match toeplitzCoeffsStep ks reducedPoly with
      | .error e => .error e
      | .ok toeplitzCoeffs =>
        match ToeplitzPart2 ks toeplitzCoeffs ks.xExtFFT with
        | .error e => .error e
        | .ok hExtFFT =>
          match ToeplitzPart3 ks hExtFFT with
          | .error e => .error e
          | .ok h =>
            -- h = h[:ks.width]
            match h.reslice ks.width with
            | .error e => .error e
            | .ok h =>
              match forRange n ks.width (fun i h => Slice.setElem h i 0) h with
              | .error e => .error e
              | .ok h =>
                match ks.FFTG1 h.toList false with
                | .error err => .error (.finalFFT err)
                | .ok out => .ok out

/-- Reverse the lowest `bits` binary digits of `i`. -/
def bitReverse : Nat → Nat → Nat
  | 0, _ => 0
  | bits + 1, i => (i % 2) * 2 ^ bits + bitReverse bits (i / 2)

/-- Binary logarithm, rounded down, by repeated halving, at most `fuel` times. -/
def log2Aux : Nat → Nat → Nat
  | 0, _ => 0
  | fuel + 1, n => if n ≤ 1 then 0 else log2Aux fuel (n / 2) + 1

/-- The number of binary digits of the indices of a sequence of length `len`, a power
of two: the binary logarithm of `len`. -/
def indexBits (len : Nat) : Nat := log2Aux len len

/-- Modelled from the spec: `reverseBitOrderG1` is called by `DAUsingFK20` and is not
defined in fk20_single.go. Per the glossary (bit-reversed order: reordering an indexed
sequence by reversing the binary representation of each index), entry `i` of the
result is the entry of the input at the index `i` with its binary digits reversed; an
entry whose reversed index falls outside the sequence, which cannot happen when the
length is a power of two, stays in place. -/
def reverseBitOrderG1 (values : List G) : List G :=
  List.zipWith (fun i v => (values[bitReverse (indexBits values.length) i]?).getD v)
    (List.range values.length) values

/-- The Go function `DAUsingFK20`. The length of a Go slice is below 2^63, so `n*2`
does not wrap around. -/
def DAUsingFK20 [DecidableEq F] (ks : KateSettings F G) (polynomial : List F) :
    Except Panic (List G) :=
  let n := polynomial.length
  if n * 2 ≠ ks.width then .error .daPolyLength
  else
    let extendedPolynomial := List.replicate ks.width (0 : F)
    match forRange 0 n (fun i ext => copyElem ext i polynomial i) extendedPolynomial with
    | .error e => .error e
    | .ok extendedPolynomial =>
      match forRange n ks.width (fun i ext => setElem ext i 0) extendedPolynomial with
      | .error e => .error e
      | .ok extendedPolynomial =>
        match FK20SingleDAOptimized ks extendedPolynomial with
        | .error e => .error e
        | .ok allProofs => .ok (reverseBitOrderG1 allProofs)

/-- The pointwise product of the transformed coefficients `cf` with `xExtFFT`, the
vector that `ToeplitzPart2` computes against the cached transform. -/
def pointwise (ks : KateSettings F G) (cf : List F) : List G :=
  (List.range ks.width).map (fun i => cf.getD i 0 • ks.xExtFFT.getD i 0)

/-- The layout that the comment in `toeplitzCoeffsStep` announces: the last item, then
`n + 1` zeros, then the items except the first and the last. -/
def commentLayout (polynomial : List F) : List F :=
  let n := polynomial.length
  [polynomial.getD (n - 1) 0] ++ List.replicate (n + 1) 0 ++ (polynomial.drop 1).take (n - 2)

/-- The transforms succeed on inputs of length `width` and `width / 2` and return as
many values as they are given. -/
def TransformsSucceed (ks : KateSettings F G) : Prop :=
  (∀ v inv, v.length = ks.width ∨ v.length = ks.width / 2 →
    ∃ r, ks.FFT v inv = .ok r ∧ r.length = v.length) ∧
  (∀ v inv, v.length = ks.width ∨ v.length = ks.width / 2 →
    ∃ r, ks.FFTG1 v inv = .ok r ∧ r.length = v.length)

/-- The two panics with which `FK20SingleDAOptimized` rejects its input: the length
check and the check that the second half is zeroed. -/
def Panic.isInputCheck : Panic → Bool
  | .daInputLength _ _ => true
  | .secondHalfNotZeroed => true
  | _ => false

end Code

/-! ## The discrete Fourier transform -/

section Reference

variable {F G : Type} [Field F] [AddCommGroup G] [Module F G]

/-- The sum `f 0 + ... + f (n - 1)`. -/
def sumTo {M : Type} [AddCommMonoid M] : Nat → (Nat → M) → M
  | 0, _ => 0
  | n + 1, f => sumTo n f + f n

/-- The discrete Fourier transform of `v` over the root `ω`: entry `k` is the sum over
`j` of `ω ^ (j * k) • v[j]`. -/
def dft (ω : F) (v : List G) : List G :=
  (List.range v.length).map (fun k => sumTo v.length (fun j => ω ^ (j * k) • v.getD j 0))

/-- The inverse transform: the transform over `ω⁻¹`, scaled by the inverse of the
length. -/
def idft (ω : F) (v : List G) : List G :=
  (dft ω⁻¹ v).map (fun g => ((v.length : F))⁻¹ • g)

/-- The transforms compute the discrete Fourier transform over the root `ω` on inputs of
length `width`, the inverse one scaling by the inverse of the width. -/
def ComputesDFT (ks : KateSettings F G) (ω : F) : Prop :=
  (∀ v : List F, v.length = ks.width → ks.FFT v false = .ok (dft ω v)) ∧
  (∀ v : List G, v.length = ks.width → ks.FFTG1 v false = .ok (dft ω v)) ∧
  (∀ v : List G, v.length = ks.width → ks.FFTG1 v true = .ok (idft ω v))

/-- The forward transform of group elements computes, on inputs of length `width / 2`,
the discrete Fourier transform over the root `ω ^ 2`. -/
def ComputesHalfDFT (ks : KateSettings F G) (ω : F) : Prop :=
  ∀ v : List G, v.length = ks.width / 2 → ks.FFTG1 v false = .ok (dft (ω ^ 2) v)

/-- The transforms are linear: the transform of an entrywise sum of two inputs of the
same length is the entrywise sum of their transforms, and the transform of an input
scaled by `a` is the transform scaled by `a`. -/
def TransformsLinear (ks : KateSettings F G) : Prop :=
  (∀ (u v tu tv : List F) (inv : Bool), u.length = v.length →
    ks.FFT u inv = .ok tu → ks.FFT v inv = .ok tv →
    ks.FFT (List.zipWith (· + ·) u v) inv = .ok (List.zipWith (· + ·) tu tv)) ∧
  (∀ (a : F) (u tu : List F) (inv : Bool), ks.FFT u inv = .ok tu →
    ks.FFT (u.map (a * ·)) inv = .ok (tu.map (a * ·))) ∧
  (∀ (u v tu tv : List G) (inv : Bool), u.length = v.length →
    ks.FFTG1 u inv = .ok tu → ks.FFTG1 v inv = .ok tv →
    ks.FFTG1 (List.zipWith (· + ·) u v) inv = .ok (List.zipWith (· + ·) tu tv)) ∧
  (∀ (a : F) (u tu : List G) (inv : Bool), ks.FFTG1 u inv = .ok tu →
    ks.FFTG1 (u.map (a • ·)) inv = .ok (tu.map (a • ·)))

/-- The coefficient vector `[t_0, t_1, ..., t_(n-1), 0, t_(1-n), ..., t_(-1)]` that
determines the `n` by `n` Toeplitz matrix with entries `t_(i-j)`. -/
def toeplitzVector (t : ℤ → F) (n : Nat) : List F :=
  (List.range n).map (fun (i : Nat) => t (i : ℤ)) ++ [0]
    ++ (List.range (n - 1)).map (fun (j : Nat) => t ((j : ℤ) + 1 - (n : ℤ)))

/-- Entry `i` of the product of the Toeplitz matrix with entries `t_(i-j)` and the
vector `x`: the sum over `j` of `t_(i-j) • x[j]`. -/
def toeplitzProduct (t : ℤ → F) (x : List G) (i : Nat) : G :=
  sumTo x.length (fun (j : Nat) => t ((i : ℤ) - (j : ℤ)) • x.getD j 0)

/-- Modelled from the spec: `FFT` and `FFTG1` are defined in other files of the package.
Per section 4.2 the forward transform is the discrete Fourier transform over the roots
of unity and the inverse one the transform over the inverse roots, scaled by the
inverse of the length. The domain is given by the root `ω`, its inverse `ωInv` and the
inverse `twoInv` of 2. An input of length `m` dividing the width is transformed over
the root `ω ^ (width / m)`, which is how the final transform of `FK20Single`, on
`width / 2` values, is defined; other lengths are an error. -/
def modelFFT (ω ωInv twoInv : F) (width : Nat) (vals : List G) (inv : Bool) :
    Except String (List G) :=
  if vals.length = 0 ∨ width % vals.length ≠ 0 then .error "length mismatch"
  else if inv then
    .ok ((dft (ωInv ^ (width / vals.length)) vals).map
      (fun g => twoInv ^ indexBits vals.length • g))
  else .ok (dft (ω ^ (width / vals.length)) vals)

/-- Settings whose transforms are `modelFFT`. -/
def modelSettings (ω ωInv twoInv : F) (width : Nat) (h : width < 2 ^ 64)
    (xExtFFT : List G) : KateSettings F G :=
  ⟨width, h, xExtFFT, modelFFT ω ωInv twoInv width, modelFFT ω ωInv twoInv width⟩

/-! ### The spec's transform and recoverer -/

/-- The error kinds of section 7 of the spec. -/
inductive SpecError where
  | invalidWidth
  | lengthMismatch
  | invalidInput
  | insufficientData
  deriving DecidableEq, Repr

/-- Modelled from the spec: the `EvaluationDomain` of section 3, which is not defined
in the source files at hand: the width, the roots of unity `ω ^ i` in order, and the
inverse roots. -/
structure EvaluationDomain (F : Type) where
  width : Nat
  rootsOfUnity : List F
  inverseRoots : List F

/-- Modelled from the spec: `Build(width)` of section 4.1, which is not defined in the
source files at hand. The width must be a power of two, otherwise the result is
`InvalidWidth`; the tables hold the powers of the primitive root and of its inverse.
The primitive `width`-th root `ω`, which the spec derives from a generator of the
field, is an argument. -/
def buildDomain (ω : F) (width : Nat) : Except SpecError (EvaluationDomain F) :=
  if width = 2 ^ indexBits width then
    .ok ⟨width, (List.range width).map (fun i => ω ^ i),
      (List.range width).map (fun i => ω⁻¹ ^ i)⟩
  else .error .invalidWidth

/-- The entries at the even indices. -/
def evens {α : Type} : List α → List α
  | [] => []
  | [a] => [a]
  | a :: _ :: t => a :: evens t

/-- The entries at the odd indices. -/
def odds {α : Type} : List α → List α
  | [] => []
  | [_] => []
  | _ :: b :: t => b :: odds t

/-- Modelled from the spec: the radix-2 decimation of section 4.2 (`FFT` and `FFTG1` are
not defined in the source files at hand), on `2 ^ levels` values. The input is split
into its even-indexed and odd-indexed halves, each half is transformed over the
squared-root domain (every second root), and the halves are combined by
`out[i] = even[i] + ω^i · odd[i]`, `out[i + n/2] = even[i] − ω^i · odd[i]`, the powers
`ω^i` being read from the table `roots`. A single value is returned unchanged. -/
def fftRec : Nat → List F → List G → List G
  | 0, _, vals => vals
  | levels + 1, roots, vals =>
    let even := fftRec levels (evens roots) (evens vals)
    let odd := fftRec levels (evens roots) (odds vals)
    (List.range (2 ^ levels)).map (fun i => even.getD i 0 + roots.getD i 0 • odd.getD i 0)
      ++ (List.range (2 ^ levels)).map
        (fun i => even.getD i 0 - roots.getD i 0 • odd.getD i 0)

/-- Modelled from the spec: `Transform(values, inverse)` of section 4.2 (`FFT` and
`FFTG1` are not defined in the source files at hand). The length of the values must
be the width of the domain, otherwise the result is `LengthMismatch`. The forward
transform is the decimation over the roots of unity; the inverse one is the decimation
over the inverse roots, every element scaled by the inverse of the width. -/
def transform (d : EvaluationDomain F) (values : List G) (inverse : Bool) :
    Except SpecError (List G) :=
  if values.length ≠ d.width then .error .lengthMismatch
  else if inverse then
    .ok ((fftRec (indexBits d.width) d.inverseRoots values).map
      (fun g => (d.width : F)⁻¹ • g))
  else .ok (fftRec (indexBits d.width) d.rootsOfUnity values)

/-- The value at `x` of the polynomial with the coefficients `p`, lowest first. -/
def evalPoly : List F → F → F
  | [], _ => 0
  | a :: t, x => a + x * evalPoly t x

/-- The coefficients of `carry + (x - r) * p`. -/
def mulLinearAux (r : F) : F → List F → List F
  | carry, [] => [carry]
  | carry, a :: t => (carry - r * a) :: mulLinearAux r a t

/-- The coefficients of the product of the factors `x - r`, for `r` in `roots`, and the
polynomial `p`. -/
def mulRoots : List F → List F → List F
  | [], p => p
  | r :: roots, p => mulLinearAux r 0 (mulRoots roots p)

/-- Division of the polynomial `q` by `x - r`, by the rule of Ruffini: the quotient,
with a zero leading coefficient kept so that the length stays, and the remainder. -/
def synthDiv (r : F) : List F → List F × F
  | [] => ([], 0)
  | a :: t => ((synthDiv r t).2 :: (synthDiv r t).1, a + (synthDiv r t).2 * r)

/-- Division of the polynomial `q` by the factors `x - r`, for `r` in `roots`, one after
the other. -/
def divRoots : List F → List F → List F
  | [], q => q
  | r :: roots, q => divRoots roots (synthDiv r q).1

/-- The roots of unity at the positions of the missing samples. -/
def missingRoots : List (Option F) → List F → List F
  | [], _ => []
  | _, [] => []
  | none :: samples, r :: roots => r :: missingRoots samples roots
  | some _ :: samples, _ :: roots => missingRoots samples roots

/-- Modelled from the spec: `Recover` of section 4.5 (`ErasureCodeRecover` is not defined
in the source files at hand). With fewer than `width / 2` known samples the result is
`InsufficientData`. Otherwise: the zero polynomial is the product of the factors
`x - root` over the missing positions; the samples, missing ones filled with zero, are
multiplied pointwise with the evaluations of the zero polynomial; the product is
transformed back into coefficient form; the zero polynomial is divided out in
coefficient form, factor by factor; and the quotient is transformed forward. -/
def recover (d : EvaluationDomain F) (samples : List (Option F)) :
    Except SpecError (List F) :=
  if samples.length ≠ d.width then .error .lengthMismatch
  else if samples.countP Option.isSome < d.width / 2 then .error .insufficientData
  else
    let missing := missingRoots samples d.rootsOfUnity
    let zeroPoly := mulRoots missing [1]
    let zeroEvals := d.rootsOfUnity.map (evalPoly zeroPoly)
    let product := List.zipWith (fun s z => s.getD 0 * z) samples zeroEvals
    match transform d product true with
    | .error e => .error e
    | .ok productCoeffs => transform d (divRoots missing productCoeffs) false

end Reference

/-! ## Example settings: the integers modulo 5 -/

instance fact_prime_five : Fact (Nat.Prime 5) := ⟨by norm_num⟩

/-- Settings of width 1 over `ZMod 5`: the root of unity is 1; `xExtFFT` is
`toeplitzPart1` of the empty setup vector. -/
def ks1 : KateSettings (ZMod 5) (ZMod 5) :=
  modelSettings 1 1 3 1 (by norm_num) [0]

/-- Settings of width 2 over `ZMod 5`: the root of unity is 4, its own inverse;
`xExtFFT` is `toeplitzPart1` of the setup vector `[1]`. -/
def ks2 : KateSettings (ZMod 5) (ZMod 5) :=
  modelSettings 4 4 3 2 (by norm_num) [1, 1]

instance fact_prime_seventeen : Fact (Nat.Prime 17) := ⟨by norm_num⟩

/-- Settings of width 8 over `ZMod 17`: the root of unity is 2, its inverse 9, and 9 is
also the inverse of 2; `xExtFFT` is `toeplitzPart1` of the setup vector `[1, 3, 2, 5]`. -/
def ks8 : KateSettings (ZMod 17) (ZMod 17) :=
  modelSettings 2 9 9 8 (by norm_num) [11, 4, 8, 10, 12, 14, 7, 10]

/-- The domain of width 16 over `ZMod 17` that `buildDomain` returns for the root of
unity 3. -/
def domain16 : EvaluationDomain (ZMod 17) :=
  ⟨2 ^ 4, (List.range (2 ^ 4)).map (fun i => (3 : ZMod 17) ^ i),
    (List.range (2 ^ 4)).map (fun i => (3 : ZMod 17)⁻¹ ^ i)⟩

/-! ## The scalar field of the tests -/

/-- The prime order of the scalar field that the tests of `src/fft_test.go` run over,
the scalar field of BLS12-381. The field arithmetic is not among the sources; the
order is fixed by the vector expected in `TestInvFFT`, whose first entry is `15 / 2`. -/
def scalarModulus : Nat :=
  52435875175126190479447740508185965837690552500527637822603658699938581184513

/-- The power `a ^ e` modulo `m` by repeated squaring, for `e < 2 ^ fuel`; used to
certify that `scalarModulus` is prime. -/
def powMod (m : Nat) : Nat → Nat → Nat → Nat
  | 0, _, _ => 1 % m
  | fuel + 1, a, e =>
    if e = 0 then 1 % m
    else if e % 2 = 0 then powMod m fuel a (e / 2) * powMod m fuel a (e / 2) % m
    else powMod m fuel a (e / 2) * powMod m fuel a (e / 2) % m * a % m

set_option maxRecDepth 100000 in
/-- The order `scalarModulus` is prime: the Lucas test, with `powMod` computing the
powers, applied to the order and to the larger prime factors that the test needs. -/
instance fact_prime_scalarModulus : Fact (Nat.Prime scalarModulus) := ⟨by
  have powMod_eq : ∀ (m fuel a e : Nat), e < 2 ^ fuel → powMod m fuel a e = a ^ e % m := by
    intro m fuel
    induction fuel with
    | zero =>
      intro a e he
      have h0 : e = 0 := by simpa using he
      subst h0
      simp [powMod]
    | succ fuel ih =>
      intro a e he
      rw [powMod]
      by_cases h0 : e = 0
      · subst h0
        simp
      · rw [if_neg h0]
        have hlt : e / 2 < 2 ^ fuel := by
          rw [pow_succ] at he
          omega
        rw [ih a (e / 2) hlt]
        by_cases h2 : e % 2 = 0
        · rw [if_pos h2]
          have hpow : a ^ e = a ^ (e / 2) * a ^ (e / 2) := by
            rw [← pow_add]
            congr 1
            omega
          rw [hpow]
          exact (Nat.mul_mod _ _ _).symm
        · rw [if_neg h2]
          have hpow : a ^ e = a ^ (e / 2) * a ^ (e / 2) * a := by
            rw [← pow_add, ← pow_succ]
            congr 1
            omega
          rw [hpow, ← Nat.mul_mod (a ^ (e / 2)) (a ^ (e / 2)) m, Nat.mod_mul_mod]
  have lucas : ∀ (p a : Nat) (L : List (Nat × Nat)), 1 < p → p < 2 ^ 256 →
      (∀ x ∈ L, x.1.Prime) → (L.map (fun x => x.1 ^ x.2)).prod = p - 1 →
      powMod p 256 a (p - 1) = 1 → (∀ x ∈ L, powMod p 256 a ((p - 1) / x.1) ≠ 1) →
      p.Prime := by
    intro p a L h1 hlt hL hprod hfull hpart
    have cast_pow : ∀ e : Nat, e < p → ((a : ℕ) : ZMod p) ^ e
        = ((powMod p 256 a e : ℕ) : ZMod p) := by
      intro e he
      rw [powMod_eq p 256 a e (by omega), ZMod.natCast_mod, Nat.cast_pow]
    refine lucas_primality p ((a : ℕ) : ZMod p) ?_ ?_
    · rw [cast_pow _ (by omega), hfull]
      simp
    · intro q hq hdvd
      rw [← hprod] at hdvd
      obtain ⟨y, hy, hqy⟩ := (Prime.dvd_prod_iff hq.prime).1 hdvd
      obtain ⟨x, hx, rfl⟩ := List.mem_map.1 hy
      have hqx : q = x.1 :=
        (Nat.prime_dvd_prime_iff_eq hq (hL x hx)).1 (hq.dvd_of_dvd_pow hqy)
      subst hqx
      have he : (p - 1) / x.1 < p := lt_of_le_of_lt (Nat.div_le_self _ _) (by omega)
      intro h
      rw [cast_pow _ he] at h
      have h2 : ((powMod p 256 a ((p - 1) / x.1) : ℕ) : ZMod p) = ((1 : ℕ) : ZMod p) := by
        rw [h]
        simp
      rw [ZMod.natCast_eq_natCast_iff'] at h2
      have hlt2 : powMod p 256 a ((p - 1) / x.1) < p := by
        rw [powMod_eq p 256 a _ (by omega)]
        exact Nat.mod_lt _ (by omega)
      rw [Nat.mod_eq_of_lt hlt2, Nat.mod_eq_of_lt h1] at h2
      exact hpart x hx h2
  have h125527 : Nat.Prime 125527 :=
    lucas 125527 5 [(2, 1), (3, 1), (20921, 1)] (by decide) (by decide)
      (by intro x hx; fin_cases hx <;> dsimp only <;> first | assumption | norm_num)
      (by decide) (by decide) (by decide)
  have h859267 : Nat.Prime 859267 :=
    lucas 859267 2 [(2, 1), (3, 2), (47737, 1)] (by decide) (by decide)
      (by intro x hx; fin_cases hx <;> dsimp only <;> first | assumption | norm_num)
      (by decide) (by decide) (by decide)
  have h906349 : Nat.Prime 906349 :=
    lucas 906349 2 [(2, 2), (3, 1), (47, 1), (1607, 1)] (by decide) (by decide)
      (by intro x hx; fin_cases hx <;> dsimp only <;> first | assumption | norm_num)
      (by decide) (by decide) (by decide)
  have h2508409 : Nat.Prime 2508409 :=
    lucas 2508409 11 [(2, 3), (3, 4), (7, 2), (79, 1)] (by decide) (by decide)
      (by intro x hx; fin_cases hx <;> dsimp only <;> first | assumption | norm_num)
      (by decide) (by decide) (by decide)
  have h2529403 : Nat.Prime 2529403 :=
    lucas 2529403 2 [(2, 1), (3, 1), (23, 1), (18329, 1)] (by decide) (by decide)
      (by intro x hx; fin_cases hx <;> dsimp only <;> first | assumption | norm_num)
      (by decide) (by decide) (by decide)
  have h609743 : Nat.Prime 609743 :=
    lucas 609743 5 [(2, 1), (7, 1), (97, 1), (449, 1)] (by decide) (by decide)
      (by intro x hx; fin_cases hx <;> dsimp only <;> first | assumption | norm_num)
      (by decide) (by decide) (by decide)
  have h52437899 : Nat.Prime 52437899 :=
    lucas 52437899 2 [(2, 1), (43, 1), (609743, 1)] (by decide) (by decide)
      (by intro x hx; fin_cases hx <;> dsimp only <;> first | assumption | norm_num)
      (by decide) (by decide) (by decide)
  have h110573 : Nat.Prime 110573 :=
    lucas 110573 3 [(2, 2), (7, 1), (11, 1), (359, 1)] (by decide) (by decide)
      (by intro x hx; fin_cases hx <;> dsimp only <;> first | assumption | norm_num)
      (by decide) (by decide) (by decide)
  have h2653753 : Nat.Prime 2653753 :=
    lucas 2653753 5 [(2, 3), (3, 1), (110573, 1)] (by decide) (by decide)
      (by intro x hx; fin_cases hx <;> dsimp only <;> first | assumption | norm_num)
      (by decide) (by decide) (by decide)
  have h63690073 : Nat.Prime 63690073 :=
    lucas 63690073 7 [(2, 3), (3, 1), (2653753, 1)] (by decide) (by decide)
      (by intro x hx; fin_cases hx <;> dsimp only <;> first | assumption | norm_num)
      (by decide) (by decide) (by decide)
  have h254760293 : Nat.Prime 254760293 :=
    lucas 254760293 2 [(2, 2), (63690073, 1)] (by decide) (by decide)
      (by intro x hx; fin_cases hx <;> dsimp only <;> first | assumption | norm_num)
      (by decide) (by decide) (by decide)
  exact lucas scalarModulus 7
    [(2, 32), (3, 1), (11, 1), (19, 1), (10177, 1), 
      (125527, 1), (859267, 1), (906349, 2), (2508409, 1), 
      (2529403, 1), (52437899, 1), (254760293, 2)]
    (by decide) (by decide)
    (by intro x hx; fin_cases hx <;> dsimp only <;> first | assumption | norm_num)
    (by decide) (by decide) (by decide)⟩

/-- The primitive 16th root of unity of the scalar field for which the inverse
transform of `0, 1, ..., 15` is the vector expected in `TestInvFFT`. -/
def testRoot : Nat :=
  35811073542294463015946892559272836998938171743018714161809767624935956676211

/-- The inverse of `testRoot` modulo `scalarModulus`. -/
def testRootInv : Nat :=
  38476778329304481878022718993882556548812578500290864179952442003245540347252

/-- The inverse of 16 modulo `scalarModulus`. -/
def sixteenInv : Nat :=
  49158632976680803574482256726424342972834892969244660458690930031192419860481

/-- The vector `expected` of `TestInvFFT`. -/
def expectedInvFFT : List Nat :=
  [26217937587563095239723870254092982918845276250263818911301829349969290592264,
   40905488090558605688319636812215252217941835718478251840326926365086504505065,
   10037948829646534413413739647971946522809495755620173630072972432081702959148,
   43571192877568624546930318420751319449039972945062659080199348274630726213098,
   26217937587563095241456442667129809078233411015607690300436955584351971573760,
   23495295218275555727033128776954731040973520495197797376593908347998044220817,
   10037948829646534409948594821898294204033226224932430851802719963316340996140,
   20829590431265536861492157516271359172322844207237904580180981500923098586768,
   26217937587563095239723870254092982918845276250263818911301829349969290592256,
   31606284743860653617955582991914606665367708293289733242422677199015482597744,
   42397926345479656069499145686287671633657326275595206970800938736622240188372,
   28940579956850634752414611731231234796717032005329840446009750351940536963695,
   26217937587563095237991297841056156759457141484919947522166703115586609610752,
   8864682297557565932517422087434646388650579555464978742404310425307854971414,
   42397926345479656066034000860214019314881056744907464192530686267856878225364,
   11530387084567584791128103695970713619748716782049385982276732334852076679447]

/-- The domain of width 16 over the scalar field that `buildDomain` returns for the
root of unity `testRoot`. -/
def scalarDomain16 : EvaluationDomain (ZMod scalarModulus) :=
  ⟨2 ^ 4, (List.range (2 ^ 4)).map (fun i => ((testRoot : ℕ) : ZMod scalarModulus) ^ i),
    (List.range (2 ^ 4)).map (fun i => ((testRoot : ℕ) : ZMod scalarModulus)⁻¹ ^ i)⟩

/-! ## Loops that fill a range of a slice -/

section Loops

variable {α : Type}

/-- A loop whose iteration `i` stores `f i` at index `i + off` succeeds when the
indices stay inside the slice, and changes exactly the entries it writes. -/
theorem forLoop_fill (f : Nat → α) (off : Nat) (body : Nat → List α → Except Panic (List α)) :
    ∀ (k lo : Nat) (xs : List α), lo + off + k ≤ xs.length →
      (∀ i s, lo ≤ i → i < lo + k → s.length = xs.length →
        body i s = .ok (s.set (i + off) (f i))) →
      ∃ r, forLoop k lo body xs = .ok r ∧ r.length = xs.length ∧
        ∀ j, r[j]? = if lo + off ≤ j ∧ j < lo + off + k then some (f (j - off)) else xs[j]? := by
  intro k
  induction k with
  | zero =>
    intro lo xs _ _
    refine ⟨xs, rfl, rfl, fun j => ?_⟩
    have : ¬ (lo + off ≤ j ∧ j < lo + off + 0) := by omega
    rw [if_neg this]
  | succ k ih =>
    intro lo xs hlen hbody
    have h0 : body lo xs = .ok (xs.set (lo + off) (f lo)) :=
      hbody lo xs (le_refl _) (by omega) rfl
    obtain ⟨r, hr, hrlen, hrget⟩ := ih (lo + 1) (xs.set (lo + off) (f lo))
      (by simp only [List.length_set]; omega)
      (fun i s h1 h2 h3 => hbody i s (by omega) (by omega) (by simpa using h3))
    refine ⟨r, ?_, by simpa using hrlen, fun j => ?_⟩
    · simp only [forLoop, h0]
      exact hr
    · rw [hrget j, List.getElem?_set]
      by_cases hj : lo + off = j
      · subst hj
        have h1 : ¬ (lo + 1 + off ≤ lo + off ∧ lo + off < lo + 1 + off + k) := by omega
        have h2 : lo + off ≤ lo + off ∧ lo + off < lo + off + (k + 1) := by omega
        have h3 : lo + off < xs.length := by omega
        simp [h1, h2, h3]
      · by_cases hin : lo + 1 + off ≤ j ∧ j < lo + 1 + off + k
        · have h2 : lo + off ≤ j ∧ j < lo + off + (k + 1) := by omega
          simp [hin, h2]
        · have h2 : ¬ (lo + off ≤ j ∧ j < lo + off + (k + 1)) := by omega
          simp [hin, h2, hj]

/-- The range form of `forLoop_fill`. -/
theorem forRange_fill (f : Nat → α) (off : Nat) (body : Nat → List α → Except Panic (List α))
    (lo hi : Nat) (xs : List α) (hle : lo ≤ hi) (hlen : hi + off ≤ xs.length)
    (hbody : ∀ i s, lo ≤ i → i < hi → s.length = xs.length →
      body i s = .ok (s.set (i + off) (f i))) :
    ∃ r, forRange lo hi body xs = .ok r ∧ r.length = xs.length ∧
      ∀ j, r[j]? = if lo + off ≤ j ∧ j < hi + off then some (f (j - off)) else xs[j]? := by
  obtain ⟨r, h1, h2, h3⟩ := forLoop_fill f off body (hi - lo) lo xs (by omega)
    (fun i s a b c => hbody i s a (by omega) c)
  refine ⟨r, h1, h2, fun j => ?_⟩
  rw [h3 j]
  have : lo + off + (hi - lo) = hi + off := by omega
  rw [this]

theorem setElem_ok (s : List α) (i : Nat) (v : α) (h : i < s.length) :
    setElem s i v = .ok (s.set i v) := by
  simp [setElem, h]

theorem copyElem_ok (s : List α) (i : Nat) (src : List α) (j : Nat) (d : α)
    (h : i < s.length) (hj : j < src.length) :
    copyElem s i src j = .ok (s.set i (src.getD j d)) := by
  simp [copyElem, h, List.getElem?_eq_getElem hj, List.getD_eq_getElem _ d hj]

theorem some_getD_eq_getElem? {α : Type} (l : List α) (k : Nat) (d : α) (h : k < l.length) :
    some (l.getD k d) = l[k]? := by
  rw [List.getD_eq_getElem _ d h, List.getElem?_eq_getElem h]

/-- A loop that stores `v` in a range of a slice within its length acts on the
underlying array as the same loop on a plain list. -/
theorem forLoop_slice (v : α) (len : Nat) :
    ∀ (k lo : Nat) (arr : List α), lo + k ≤ len → len ≤ arr.length →
      forLoop k lo (fun i h => Slice.setElem h i v) ⟨arr, len⟩
        = match forLoop k lo (fun i a => setElem a i v) arr with
          | .ok a => .ok ⟨a, len⟩
          | .error e => .error e := by
  intro k
  induction k with
  | zero => intro lo arr _ _; rfl
  | succ k ih =>
    intro lo arr h1 h2
    have a1 : lo < len := by omega
    have a2 : lo < arr.length := by omega
    have e1 : Slice.setElem (⟨arr, len⟩ : Slice α) lo v = .ok ⟨arr.set lo v, len⟩ := by
      simp [Slice.setElem, a1]
    simp only [forLoop, e1, setElem_ok arr lo v a2]
    exact ih (lo + 1) (arr.set lo v) (by omega) (by simpa using h2)

/-- Copying `src` to the front of a zeroed slice of length `w` and storing zeros behind
it yields `src` followed by zeros. -/
theorem zeroExtend_loops [Zero α] (src : List α) (w : Nat) (h : src.length ≤ w) :
    ∃ r1, forRange 0 src.length (fun i e => copyElem e i src i) (List.replicate w (0 : α))
        = .ok r1 ∧
      forRange src.length w (fun i e => setElem e i 0) r1
        = .ok (src ++ List.replicate (w - src.length) 0) := by
  obtain ⟨r1, e1, l1, g1⟩ := forRange_fill (fun i => src.getD i 0) 0
    (fun i e => copyElem e i src i) 0 src.length
    (List.replicate w (0 : α)) (by omega) (by simp; omega)
    (fun i s _ h2 h3 => copyElem_ok _ _ _ _ _ (by simp at h3; omega) (by omega))
  have l1w : r1.length = w := by simpa using l1
  obtain ⟨r2, e2, l2, g2⟩ := forRange_fill (fun _ => (0 : α)) 0
    (fun i e => setElem e i 0) src.length w r1 h (by omega)
    (fun i s _ h2 h3 => setElem_ok _ _ _ (by omega))
  refine ⟨r1, e1, ?_⟩
  rw [e2]
  congr 1
  apply List.ext_getElem?
  intro j
  rw [g2 j, g1 j, List.getElem?_append, List.getElem?_replicate, List.getElem?_replicate]
  simp only [Nat.add_zero, Nat.zero_add, Nat.sub_zero]
  by_cases hj : j < src.length
  · have a1 : ¬ (src.length ≤ j ∧ j < w) := by omega
    have a2 : 0 ≤ j ∧ j < src.length := by omega
    rw [if_neg a1, if_pos a2, if_pos (by omega)]
    exact some_getD_eq_getElem? _ _ _ (by omega)
  · by_cases hj2 : j < w
    · have a1 : src.length ≤ j ∧ j < w := by omega
      rw [if_pos a1, if_neg (by omega), if_pos (by omega)]
    · have a1 : ¬ (src.length ≤ j ∧ j < w) := by omega
      have a2 : ¬ (0 ≤ j ∧ j < src.length) := by omega
      rw [if_neg a1, if_neg a2, if_neg hj2, if_neg (by omega), if_neg (by omega)]

/-- The zero check passes over a range whose entries are all zero. -/
theorem forLoop_checkZero_ok [Zero α] [DecidableEq α] (p : List α) :
    ∀ (k lo : Nat), (∀ i, lo ≤ i → i < lo + k → p[i]? = some 0) →
      forLoop k lo (checkZero p) () = .ok () := by
  intro k
  induction k with
  | zero => intro lo _; rfl
  | succ k ih =>
    intro lo h
    have e : checkZero p lo () = .ok () := by
      simp [checkZero, h lo (le_refl _) (by omega)]
    simp only [forLoop, e]
    exact ih (lo + 1) (fun i h1 h2 => h i (by omega) (by omega))

/-- The zero check panics on a range, inside the slice, that holds a non-zero entry. -/
theorem forLoop_checkZero_fail [Zero α] [DecidableEq α] (p : List α) :
    ∀ (k lo : Nat), lo + k ≤ p.length →
      (∃ i, lo ≤ i ∧ i < lo + k ∧ p.getD i 0 ≠ 0) →
      forLoop k lo (checkZero p) () = .error .secondHalfNotZeroed := by
  intro k
  induction k with
  | zero =>
    intro lo _ h
    obtain ⟨i, h1, h2, _⟩ := h
    omega
  | succ k ih =>
    intro lo hlen h
    obtain ⟨i, h1, h2, h3⟩ := h
    have hlo : lo < p.length := by omega
    by_cases hz : p[lo] = 0
    · have e : checkZero p lo () = .ok () := by
        simp [checkZero, List.getElem?_eq_getElem hlo, hz]
      simp only [forLoop, e]
      refine ih (lo + 1) (by omega) ⟨i, ?_, by omega, h3⟩
      by_contra hc
      have : i = lo := by omega
      subst this
      rw [List.getD_eq_getElem _ _ hlo] at h3
      exact h3 hz
    · have e : checkZero p lo () = .error .secondHalfNotZeroed := by
        simp [checkZero, List.getElem?_eq_getElem hlo, hz]
      simp only [forLoop, e]

end Loops

/-! ## The coefficient vector of `toeplitzCoeffsStep` -/

section Coeffs

variable {F G : Type} [Zero F]

theorem u64Sub_one (n : Nat) (h1 : 0 < n) (h2 : n < 2 ^ 64) : u64Sub n 1 = n - 1 := by
  unfold u64Sub
  omega

/-- On a width `2 * n` with `2 ≤ n` and a polynomial of length `n`, `toeplitzCoeffsStep`
returns a vector of length `2 * n`, described entry by entry. -/
theorem toeplitzCoeffsStep_entries (ks : KateSettings F G) (p : List F) (n : Nat)
    (hw : ks.width = 2 * n) (hn : 2 ≤ n) (hp : p.length = n) :
    ∃ out, toeplitzCoeffsStep ks p = .ok out ∧ out.length = ks.width ∧
      ∀ j, out[j]? =
        if j = 0 then some (p.getD (n - 1) 0)
        else if j ≤ n then some 0
        else if j < ks.width then some (p.getD (j - n) 0)
        else none := by
  have hhalf : ks.width / 2 = n := by omega
  have hlt := ks.width_lt
  have h0 : copyElem (List.replicate ks.width (0 : F)) 0 p (u64Sub n 1)
      = .ok ((List.replicate ks.width (0 : F)).set 0 (p.getD (n - 1) 0)) := by
    rw [u64Sub_one n (by omega) (by omega)]
    exact copyElem_ok _ _ _ _ _ (by simp; omega) (by omega)
  obtain ⟨r1, e1, l1, g1⟩ := forRange_fill (fun _ => (0 : F)) 1
    (fun i tc => setElem tc (i + 1) 0) 0 (n + 1)
    ((List.replicate ks.width (0 : F)).set 0 (p.getD (n - 1) 0)) (by omega)
    (by simp; omega)
    (fun i s _ h2 h3 => setElem_ok _ _ _ (by simp at h3; omega))
  have l1w : r1.length = ks.width := by simpa using l1
  obtain ⟨r2, e2, l2, g2⟩ := forRange_fill (fun i => p.getD (i - n) 0) 0
    (fun i tc => copyElem tc i p (i - n)) (n + 1) ks.width r1 (by omega)
    (by omega)
    (fun i s h1 h2 h3 => copyElem_ok _ _ _ _ _ (by omega) (by omega))
  refine ⟨r2, ?_, l2.trans l1w, fun j => ?_⟩
  · simp only [toeplitzCoeffsStep, hhalf, hp, ne_eq, not_true_eq_false, if_false, h0, e1, e2]
  · rw [g2 j, g1 j, List.getElem?_set, List.getElem?_replicate]
    simp only [Nat.add_zero, Nat.zero_add, Nat.sub_zero, List.length_replicate]
    by_cases hj0 : j = 0
    · subst hj0
      have a1 : ¬ (n + 1 ≤ 0 ∧ 0 < ks.width) := by omega
      have a2 : ¬ (1 ≤ 0 ∧ 0 < n + 1 + 1) := by omega
      have a3 : 0 < ks.width := by omega
      rw [if_neg a1, if_neg a2, if_pos rfl, if_pos a3, if_pos rfl]
    · by_cases hj1 : j ≤ n
      · have a1 : ¬ (n + 1 ≤ j ∧ j < ks.width) := by omega
        have a2 : 1 ≤ j ∧ j < n + 1 + 1 := by omega
        rw [if_neg a1, if_pos a2, if_neg hj0, if_pos hj1]
      · by_cases hj2 : j < ks.width
        · have a1 : n + 1 ≤ j ∧ j < ks.width := by omega
          rw [if_pos a1, if_neg hj0, if_neg hj1, if_pos hj2]
        · have a1 : ¬ (n + 1 ≤ j ∧ j < ks.width) := by omega
          have a2 : ¬ (1 ≤ j ∧ j < n + 1 + 1) := by omega
          have a3 : ¬ (0 = j) := by omega
          rw [if_neg a1, if_neg a2, if_neg a3, if_neg hj2, if_neg hj0, if_neg hj1,
            if_neg hj2]

/-- The vector of `toeplitzCoeffsStep_entries` as a list: the last coefficient, `n`
zeros, then the coefficients from index 1 on. -/
theorem toeplitzCoeffsStep_eq (ks : KateSettings F G) (p : List F) (n : Nat)
    (hw : ks.width = 2 * n) (hn : 2 ≤ n) (hp : p.length = n) :
    toeplitzCoeffsStep ks p
      = .ok (p.getD (n - 1) 0 :: (List.replicate n 0 ++ p.drop 1)) := by
  obtain ⟨out, e, l, g⟩ := toeplitzCoeffsStep_entries ks p n hw hn hp
  rw [e]
  congr 1
  apply List.ext_getElem?
  intro j
  rw [g j]
  by_cases hj0 : j = 0
  · subst hj0
    simp
  · obtain ⟨i, rfl⟩ : ∃ i, j = i + 1 := ⟨j - 1, by omega⟩
    rw [List.getElem?_cons_succ, List.getElem?_append, List.length_replicate,
      List.getElem?_replicate, List.getElem?_drop, if_neg hj0]
    by_cases hj1 : i + 1 ≤ n
    · have h5 : i < n := by omega
      rw [if_pos hj1, if_pos h5, if_pos h5]
    · have h5 : ¬ (i < n) := by omega
      have h4 : 1 + (i - n) = i + 1 - n := by omega
      rw [if_neg hj1, if_neg h5, h4]
      by_cases hj2 : i + 1 < ks.width
      · rw [if_pos hj2]
        exact some_getD_eq_getElem? _ _ _ (by omega)
      · rw [if_neg hj2, List.getElem?_eq_none (by omega)]

end Coeffs

/-! ## The three stages of the Toeplitz product -/

section Stages

variable {F G : Type} [Zero F] [Zero G] [SMul F G]

omit [Zero F] [SMul F G] in
/-- The vector that `toeplitzPart1` hands to the transform: x followed by zeros up to
the width. -/
theorem toeplitzPart1_eq (ks : KateSettings F G) (x : List G)
    (hx : x.length = ks.width / 2) :
    toeplitzPart1 ks x =
      match ks.FFTG1 (x ++ List.replicate (ks.width - ks.width / 2) 0) false with
      | .error err => .error (.part1FFT err)
      | .ok xExtFFT => .ok xExtFFT := by
  obtain ⟨r1, e1, e2⟩ := zeroExtend_loops x ks.width (by omega)
  rw [hx] at e1 e2
  simp only [toeplitzPart1, hx, ne_eq, not_true_eq_false, if_false, e1, e2]

/-- The pointwise product that `ToeplitzPart2` returns when the scalar transform
returns at least `width` values. -/
theorem ToeplitzPart2_eq (ks : KateSettings F G) (c : List F) (xf : List G) (cf : List F)
    (hc : c.length = ks.width) (hxf : xf.length = ks.width)
    (hfft : ks.FFT c false = .ok cf) (hcf : ks.width ≤ cf.length) :
    ToeplitzPart2 ks c xf
      = .ok ((List.range ks.width).map (fun i => cf.getD i 0 • xf.getD i 0)) := by
  obtain ⟨r, e, l, g⟩ := forRange_fill (fun i => cf.getD i 0 • xf.getD i 0) 0
    (fun i hExtFFT => mulElem hExtFFT i xf cf) 0 ks.width
    (List.replicate ks.width (0 : G)) (by omega) (by simp)
    (fun i s _ h2 h3 => by
      have a1 : i < s.length := by simp at h3; omega
      have a2 : i < xf.length := by omega
      have a3 : i < cf.length := by omega
      simp [mulElem, a1, List.getElem?_eq_getElem a2, List.getElem?_eq_getElem a3,
        List.getD_eq_getElem _ _ a2, List.getD_eq_getElem _ _ a3])
  have hr : r = (List.range ks.width).map (fun i => cf.getD i 0 • xf.getD i 0) := by
    apply List.ext_getElem?
    intro j
    rw [g j, List.getElem?_map, List.getElem?_replicate]
    simp only [Nat.add_zero, Nat.zero_add, Nat.sub_zero]
    by_cases hj : j < ks.width
    · rw [if_pos ⟨by omega, hj⟩, List.getElem?_range hj]
      rfl
    · rw [if_neg (by omega), if_neg hj, List.getElem?_eq_none (by simpa using hj)]
      rfl
  simp only [ToeplitzPart2, hc, hxf, ne_eq, not_true_eq_false, if_false, hfft, e, hr]

omit [Zero F] [Zero G] [SMul F G] in
/-- The slice that `ToeplitzPart3` returns when the inverse transform returns at
least `width / 2` values. -/
theorem ToeplitzPart3_eq (ks : KateSettings F G) (hf : List G) (out : List G)
    (hhf : hf.length = ks.width) (hfft : ks.FFTG1 hf true = .ok out)
    (hout : ks.width / 2 ≤ out.length) :
    ToeplitzPart3 ks hf = .ok ⟨out, ks.width / 2⟩ := by
  simp [ToeplitzPart3, hhf, hfft, Slice.reslice, hout]

end Stages

/-! ## The proof generators in terms of the transforms -/

section Generators

variable {F G : Type} [Zero F] [Zero G] [SMul F G]

/-- `FK20Single` applies the final transform to the first half of the inverse
transform `out` of the pointwise product. -/
theorem FK20Single_eq (ks : KateSettings F G) (p c cf : List F) (out : List G)
    (hc : toeplitzCoeffsStep ks p = .ok c) (hcl : c.length = ks.width)
    (hx : ks.xExtFFT.length = ks.width)
    (hcf : ks.FFT c false = .ok cf) (hcfl : ks.width ≤ cf.length)
    (hout : ks.FFTG1 (pointwise ks cf) true = .ok out) (houtl : ks.width / 2 ≤ out.length) :
    FK20Single ks p =
      match ks.FFTG1 (out.take (ks.width / 2)) false with
      | .error err => .error (.finalFFT err)
      | .ok r => .ok r := by
  have e2 := ToeplitzPart2_eq ks c ks.xExtFFT cf hcl hx hcf hcfl
  have e3 := ToeplitzPart3_eq ks (pointwise ks cf) out (by simp [pointwise]) hout houtl
  simp only [FK20Single, hc, e2]
  rw [show (List.map (fun i => cf.getD i 0 • ks.xExtFFT.getD i 0) (List.range ks.width))
      = pointwise ks cf from rfl, e3]
  rfl

/-- `FK20SingleDAOptimized` applies the final transform to the first half of the
inverse transform `out` of the pointwise product, followed by zeros up to the width. -/
theorem FK20SingleDAOptimized_eq [DecidableEq F] (ks : KateSettings F G) (p c cf : List F)
    (out : List G) (hlen : p.length = ks.width)
    (hzero : ∀ i, ks.width / 2 ≤ i → i < ks.width → p[i]? = some 0)
    (hc : toeplitzCoeffsStep ks (p.take (ks.width / 2)) = .ok c) (hcl : c.length = ks.width)
    (hx : ks.xExtFFT.length = ks.width)
    (hcf : ks.FFT c false = .ok cf) (hcfl : ks.width ≤ cf.length)
    (hout : ks.FFTG1 (pointwise ks cf) true = .ok out) (houtl : ks.width ≤ out.length) :
    FK20SingleDAOptimized ks p =
      match ks.FFTG1 (out.take (ks.width / 2)
          ++ List.replicate (ks.width - ks.width / 2) 0) false with
      | .error err => .error (.finalFFT err)
      | .ok r => .ok r := by
  have e0 : forRange (ks.width / 2) ks.width (checkZero p) () = .ok () :=
    forLoop_checkZero_ok p _ _ (fun i h1 h2 => hzero i h1 (by omega))
  have e2 := ToeplitzPart2_eq ks c ks.xExtFFT cf hcl hx hcf hcfl
  have e3 := ToeplitzPart3_eq ks (pointwise ks cf) out (by simp [pointwise]) hout
    (by omega)
  have e4 : Slice.reslice (⟨out, ks.width / 2⟩ : Slice G) ks.width = .ok ⟨out, ks.width⟩ := by
    simp [Slice.reslice, houtl]
  obtain ⟨r, e5, l5, g5⟩ := forRange_fill (fun _ => (0 : G)) 0
    (fun i a => setElem a i 0) (ks.width / 2) ks.width out (by omega) (by omega)
    (fun i s _ h2 h3 => setElem_ok _ _ _ (by omega))
  have e6 : forRange (ks.width / 2) ks.width (fun i h => Slice.setElem h i 0)
      (⟨out, ks.width⟩ : Slice G) = .ok ⟨r, ks.width⟩ := by
    unfold forRange at e5 ⊢
    rw [forLoop_slice 0 ks.width _ _ out (by omega) houtl, e5]
  have e7 : (⟨r, ks.width⟩ : Slice G).toList
      = out.take (ks.width / 2) ++ List.replicate (ks.width - ks.width / 2) 0 := by
    apply List.ext_getElem?
    intro j
    rw [Slice.toList, List.getElem?_take, g5 j, List.getElem?_append, List.getElem?_take,
      List.getElem?_replicate]
    simp only [Nat.add_zero, Nat.sub_zero, List.length_take]
    have hmin : min (ks.width / 2) out.length = ks.width / 2 := by omega
    rw [hmin]
    by_cases hj : j < ks.width / 2
    · rw [if_pos (by omega), if_neg (by omega), if_pos hj, if_pos hj]
    · by_cases hj2 : j < ks.width
      · rw [if_pos hj2, if_pos ⟨by omega, hj2⟩, if_neg hj, if_pos (by omega)]
      · rw [if_neg hj2, if_neg hj, if_neg (by omega)]
  simp only [FK20SingleDAOptimized, hlen, ne_eq, not_true_eq_false, if_false, e0, hc, e2]
  rw [show (List.map (fun i => cf.getD i 0 • ks.xExtFFT.getD i 0) (List.range ks.width))
      = pointwise ks cf from rfl, e3]
  simp only [e4, e6, e7]

/-- `DAUsingFK20` hands the polynomial followed by zeros to `FK20SingleDAOptimized` and
reorders the proofs. -/
theorem DAUsingFK20_eq [DecidableEq F] (ks : KateSettings F G) (p : List F)
    (hp : p.length * 2 = ks.width) :
    DAUsingFK20 ks p =
      match FK20SingleDAOptimized ks (p ++ List.replicate p.length 0) with
      | .error e => .error e
      | .ok allProofs => .ok (reverseBitOrderG1 allProofs) := by
  obtain ⟨r1, e1, e2⟩ := zeroExtend_loops p ks.width (by omega)
  have hsub : ks.width - p.length = p.length := by omega
  rw [hsub] at e2
  simp only [DAUsingFK20, hp, ne_eq, not_true_eq_false, if_false, e1, e2]

end Generators

/-! ## Layout of the coefficient vector -/

section Layout

variable {F G : Type} [Zero F]

/-- C3: on a width `W = 2 * n` with `n ≥ 2` and a polynomial `p` of length `n`,
`toeplitzCoeffsStep` returns a vector `out` of length `W` with `out[0] = p[n-1]`,
`out[i] = 0` for `1 ≤ i < n + 1`, and `out[i] = p[i-n]` for `n + 1 ≤ i < W`. -/
theorem toeplitzCoeffsStep_layout (ks : KateSettings F G) (p : List F) (n : Nat)
    (hw : ks.width = 2 * n) (hn : 2 ≤ n) (hp : p.length = n) :
    ∃ out, toeplitzCoeffsStep ks p = .ok out ∧ out.length = ks.width ∧
      out[0]? = p[n - 1]? ∧
      (∀ i, 1 ≤ i → i < n + 1 → out[i]? = some 0) ∧
      (∀ i, n + 1 ≤ i → i < ks.width → out[i]? = p[i - n]?) := by
  obtain ⟨out, e, l, g⟩ := toeplitzCoeffsStep_entries ks p n hw hn hp
  refine ⟨out, e, l, ?_, fun i h1 h2 => ?_, fun i h1 h2 => ?_⟩
  · rw [g 0, if_pos rfl]
    exact some_getD_eq_getElem? _ _ _ (by omega)
  · rw [g i, if_neg (by omega), if_pos (by omega)]
  · rw [g i, if_neg (by omega), if_neg (by omega), if_pos h2]
    exact some_getD_eq_getElem? _ _ _ (by omega)

/-- C3 at width 8 over `ZMod 17`, polynomial `[1, 2, 3, 4]`: the vector is
`[4, 0, 0, 0, 0, 2, 3, 4]`. -/
theorem toeplitzCoeffsStep_layout_witness :
    ∃ out, toeplitzCoeffsStep ks8 [1, 2, 3, 4] = .ok out ∧ out.length = ks8.width ∧
      out[0]? = ([1, 2, 3, 4] : List (ZMod 17))[4 - 1]? ∧
      (∀ i, 1 ≤ i → i < 4 + 1 → out[i]? = some 0) ∧
      (∀ i, 4 + 1 ≤ i → i < ks8.width → out[i]? = ([1, 2, 3, 4] : List (ZMod 17))[i - 4]?) :=
  toeplitzCoeffsStep_layout ks8 [1, 2, 3, 4] 4 rfl (by decide) rfl

/-- C4, the code at width 8 and polynomial `[1, 2, 3, 4]`: `toeplitzCoeffsStep` returns
`[4, 0, 0, 0, 0, 2, 3, 4]`, while the layout of its comment is
`[4, 0, 0, 0, 0, 0, 2, 3]`: the entry at index `n + 1 = 5` is `p[1]`, not zero, and
the last entry is `p[3]`, the last item, which the comment leaves out. -/
theorem toeplitzCoeffsStep_differs_from_comment :
    toeplitzCoeffsStep ks8 [1, 2, 3, 4] = .ok [4, 0, 0, 0, 0, 2, 3, 4] ∧
      commentLayout ([1, 2, 3, 4] : List (ZMod 17)) = [4, 0, 0, 0, 0, 0, 2, 3] ∧
      toeplitzCoeffsStep ks8 [1, 2, 3, 4] ≠ .ok (commentLayout [1, 2, 3, 4]) := by
  decide

end Layout

/-! ## Rejected inputs -/

section Rejection

variable {F G : Type} [Zero F] [Zero G] [SMul F G] [DecidableEq F]

/-- C6: `FK20SingleDAOptimized` panics on every input whose length differs from the
width, with the length panic whatever the entries are (the length is checked first),
and on every input of length `width` with a non-zero scalar at an index `i` with
`width / 2 ≤ i < width`, with the panic "second half should be zeroed". -/
theorem FK20SingleDAOptimized_rejects (ks : KateSettings F G) (p : List F) :
    (p.length ≠ ks.width →
      FK20SingleDAOptimized ks p = .error (.daInputLength p.length ks.width)) ∧
    (p.length = ks.width →
      (∃ i, ks.width / 2 ≤ i ∧ i < ks.width ∧ p.getD i 0 ≠ 0) →
      FK20SingleDAOptimized ks p = .error .secondHalfNotZeroed) := by
  constructor
  · intro h
    simp [FK20SingleDAOptimized, h]
  · intro h hex
    have e0 : forRange (ks.width / 2) ks.width (checkZero p) ()
        = .error .secondHalfNotZeroed := by
      obtain ⟨i, h1, h2, h3⟩ := hex
      exact forLoop_checkZero_fail p _ _ (by omega) ⟨i, h1, by omega, h3⟩
    simp [FK20SingleDAOptimized, h, e0]

/-- C6 at width 8: an input of 7 scalars with a non-zero entry in the upper half gets
the length panic, an input of 8 scalars with a non-zero entry at index 6 the zero
panic. -/
theorem FK20SingleDAOptimized_rejects_witness :
    FK20SingleDAOptimized ks8 [1, 2, 3, 4, 0, 0, 1] = .error (.daInputLength 7 8) ∧
    FK20SingleDAOptimized ks8 [1, 2, 3, 4, 0, 0, 1, 0] = .error .secondHalfNotZeroed :=
  ⟨(FK20SingleDAOptimized_rejects ks8 [1, 2, 3, 4, 0, 0, 1]).1 (by decide),
   (FK20SingleDAOptimized_rejects ks8 [1, 2, 3, 4, 0, 0, 1, 0]).2 rfl
     ⟨6, by decide, by decide, by decide⟩⟩

/-- C7: `FK20Single` panics ("bad polynomial length") on every polynomial whose length
is not `width / 2`, and `DAUsingFK20` panics on every polynomial whose length `n` does
not satisfy `2 * n = width`; neither returns a result. -/
theorem missized_polynomial_rejected (ks : KateSettings F G) (p : List F) :
    (p.length ≠ ks.width / 2 → FK20Single ks p = .error .badPolynomialLength) ∧
    (2 * p.length ≠ ks.width → DAUsingFK20 ks p = .error .daPolyLength) := by
  constructor
  · intro h
    simp [FK20Single, toeplitzCoeffsStep, h]
  · intro h
    have h2 : p.length * 2 ≠ ks.width := by omega
    simp [DAUsingFK20, h2]

/-- C7 at width 8: polynomials of 3 and of 5 scalars are rejected by both operations. -/
theorem missized_polynomial_rejected_witness :
    FK20Single ks8 [1, 2, 3] = .error .badPolynomialLength ∧
    DAUsingFK20 ks8 [1, 2, 3] = .error .daPolyLength ∧
    FK20Single ks8 [1, 2, 3, 4, 5] = .error .badPolynomialLength ∧
    DAUsingFK20 ks8 [1, 2, 3, 4, 5] = .error .daPolyLength :=
  ⟨(missized_polynomial_rejected ks8 [1, 2, 3]).1 (by decide),
   (missized_polynomial_rejected ks8 [1, 2, 3]).2 (by decide),
   (missized_polynomial_rejected ks8 [1, 2, 3, 4, 5]).1 (by decide),
   (missized_polynomial_rejected ks8 [1, 2, 3, 4, 5]).2 (by decide)⟩

end Rejection

/-! ## The model transforms -/

section Model

variable {F G : Type} [Field F] [AddCommGroup G] [Module F G]

theorem dft_length (ω : F) (v : List G) : (dft ω v).length = v.length := by
  simp [dft]

/-- The model transform succeeds on a non-empty input whose length divides the width,
and returns as many values as it is given. -/
theorem modelFFT_length (ω ωInv twoInv : F) (width : Nat) (v : List G) (inv : Bool)
    (h0 : v.length ≠ 0) (hdvd : width % v.length = 0) :
    ∃ r, modelFFT ω ωInv twoInv width v inv = .ok r ∧ r.length = v.length := by
  have hc : ¬ (v.length = 0 ∨ width % v.length ≠ 0) := by
    rintro (h | h)
    · exact h0 h
    · exact h hdvd
  cases inv
  · refine ⟨dft (ω ^ (width / v.length)) v, ?_, dft_length _ v⟩
    simp only [modelFFT, if_neg hc, Bool.false_eq_true, if_false]
  · refine ⟨(dft (ωInv ^ (width / v.length)) v).map
      (fun g => twoInv ^ indexBits v.length • g), ?_, ?_⟩
    · simp only [modelFFT, if_neg hc, if_true]
    · rw [List.length_map]
      exact dft_length _ v

/-- The transforms of model settings of an even width succeed. -/
theorem modelSettings_transformsSucceed (ω ωInv twoInv : F) (width : Nat)
    (h : width < 2 ^ 64) (xf : List G) (h2 : 2 ≤ width) (heven : width % 2 = 0) :
    TransformsSucceed (modelSettings ω ωInv twoInv width h xf : KateSettings F G) := by
  have key : ∀ (m : Nat), m = width ∨ m = width / 2 → m ≠ 0 ∧ width % m = 0 := by
    intro m hm
    rcases hm with hm | hm
    · subst hm
      exact ⟨by omega, Nat.mod_self _⟩
    · subst hm
      refine ⟨by omega, Nat.mod_eq_zero_of_dvd ⟨2, ?_⟩⟩
      omega
  refine ⟨fun v inv hv => ?_, fun v inv hv => ?_⟩
  all_goals
    obtain ⟨a, b⟩ := key _ hv
    exact modelFFT_length ω ωInv twoInv width v inv a b

end Model

/-! ## Stage lengths and absence of failure -/

section Success

variable {F G : Type} [Zero F] [Zero G] [SMul F G]

/-- C8: with transforms that succeed, `toeplitzPart1` panics exactly when the length of
`x` is not `width / 2`; `ToeplitzPart2` panics when either input has a length other than
`width`; `ToeplitzPart3` panics when its input has a length other than `width`; and
with the right lengths the stages return `width`, `width` and `width / 2` values. -/
theorem toeplitz_stage_lengths (ks : KateSettings F G) (hT : TransformsSucceed ks)
    (x xf hf : List G) (c : List F) :
    ((∃ e, toeplitzPart1 ks x = .error e) ↔ x.length ≠ ks.width / 2) ∧
    (c.length ≠ ks.width → ToeplitzPart2 ks c xf = .error .part2CoeffsLength) ∧
    (c.length = ks.width → xf.length ≠ ks.width →
      ToeplitzPart2 ks c xf = .error .part2XExtLength) ∧
    (hf.length ≠ ks.width → ToeplitzPart3 ks hf = .error .part3Length) ∧
    (x.length = ks.width / 2 → ∃ r, toeplitzPart1 ks x = .ok r ∧ r.length = ks.width) ∧
    (c.length = ks.width → xf.length = ks.width →
      ∃ r, ToeplitzPart2 ks c xf = .ok r ∧ r.length = ks.width) ∧
    (hf.length = ks.width →
      ∃ s, ToeplitzPart3 ks hf = .ok s ∧ s.toList.length = ks.width / 2) := by
  have p1 : x.length = ks.width / 2 →
      ∃ r, toeplitzPart1 ks x = .ok r ∧ r.length = ks.width := by
    intro hx
    have hl : (x ++ List.replicate (ks.width - ks.width / 2) (0 : G)).length = ks.width := by
      simp only [List.length_append, List.length_replicate]
      omega
    obtain ⟨r, e, l⟩ := hT.2 _ false (Or.inl hl)
    refine ⟨r, ?_, l.trans hl⟩
    rw [toeplitzPart1_eq ks x hx, e]
  refine ⟨⟨?_, ?_⟩, ?_, ?_, ?_, p1, ?_, ?_⟩
  · rintro ⟨e, he⟩ hx
    obtain ⟨r, hr, _⟩ := p1 hx
    rw [hr] at he
    cases he
  · intro hx
    exact ⟨.part1Length (ks.width / 2) x.length, by simp [toeplitzPart1, hx]⟩
  · intro h
    simp [ToeplitzPart2, h]
  · intro h1 h2
    simp [ToeplitzPart2, h1, h2]
  · intro h
    simp [ToeplitzPart3, h]
  · intro hc hxf
    obtain ⟨cf, e, l⟩ := hT.1 c false (Or.inl hc)
    refine ⟨_, ToeplitzPart2_eq ks c xf cf hc hxf e (by omega), by simp⟩
  · intro hhf
    obtain ⟨out, e, l⟩ := hT.2 hf true (Or.inl hhf)
    refine ⟨_, ToeplitzPart3_eq ks hf out hhf e (by omega), ?_⟩
    simp only [Slice.toList, List.length_take]
    omega

/-- With transforms that succeed and a cached `xExtFFT` of length `width`,
`FK20Single` returns once `toeplitzCoeffsStep` has returned `width` coefficients: as
many proofs as the final transform is given, `width / 2`. -/
theorem FK20Single_returns (ks : KateSettings F G)
    (hT : TransformsSucceed ks) (hx : ks.xExtFFT.length = ks.width) (p c : List F)
    (hc : toeplitzCoeffsStep ks p = .ok c) (hcl : c.length = ks.width) :
    ∃ r, FK20Single ks p = .ok r ∧ r.length = ks.width / 2 := by
  obtain ⟨cf, ecf, lcf⟩ := hT.1 c false (Or.inl hcl)
  have hpw : (pointwise ks cf).length = ks.width := by simp [pointwise]
  obtain ⟨out, eout, lout⟩ := hT.2 (pointwise ks cf) true (Or.inl hpw)
  have hl : (out.take (ks.width / 2)).length = ks.width / 2 := by
    simp only [List.length_take]
    omega
  obtain ⟨r, er, lr⟩ := hT.2 (out.take (ks.width / 2)) false (Or.inr hl)
  refine ⟨r, ?_, lr.trans hl⟩
  rw [FK20Single_eq ks p c cf out hc hcl hx ecf (by omega) eout (by omega), er]

/-- With transforms that succeed and a cached `xExtFFT` of length `width`,
`FK20SingleDAOptimized` returns `width` proofs on an input of length `width` with a
zero upper half, once `toeplitzCoeffsStep` has returned `width` coefficients. -/
theorem FK20SingleDAOptimized_returns [DecidableEq F] (ks : KateSettings F G)
    (hT : TransformsSucceed ks) (hx : ks.xExtFFT.length = ks.width) (p c : List F)
    (hlen : p.length = ks.width)
    (hzero : ∀ i, ks.width / 2 ≤ i → i < ks.width → p[i]? = some 0)
    (hc : toeplitzCoeffsStep ks (p.take (ks.width / 2)) = .ok c)
    (hcl : c.length = ks.width) :
    ∃ r, FK20SingleDAOptimized ks p = .ok r ∧ r.length = ks.width := by
  obtain ⟨cf, ecf, lcf⟩ := hT.1 c false (Or.inl hcl)
  have hpw : (pointwise ks cf).length = ks.width := by simp [pointwise]
  obtain ⟨out, eout, lout⟩ := hT.2 (pointwise ks cf) true (Or.inl hpw)
  have hl : (out.take (ks.width / 2)
      ++ List.replicate (ks.width - ks.width / 2) (0 : G)).length = ks.width := by
    simp only [List.length_append, List.length_take, List.length_replicate]
    omega
  obtain ⟨r, er, lr⟩ := hT.2 _ false (Or.inl hl)
  refine ⟨r, ?_, lr.trans hl⟩
  rw [FK20SingleDAOptimized_eq ks p c cf out hlen hzero hc hcl hx ecf (by omega) eout
    (by omega), er]

theorem pow_two_even (w k : Nat) (hk : w = 2 ^ k) (h4 : 4 ≤ w) :
    w = 2 * (w / 2) ∧ 2 ≤ w / 2 := by
  cases k with
  | zero => simp at hk; omega
  | succ k =>
    rw [pow_succ] at hk
    omega

/-- On a width `2 * n` with `2 ≤ n`, `FK20SingleDAOptimized` returns `width` proofs on
every input of length `width` with a zero upper half, when the transforms succeed and
the cached `xExtFFT` has length `width`. -/
theorem FK20SingleDAOptimized_returns_valid [DecidableEq F] (ks : KateSettings F G)
    (p : List F) (n : Nat) (hw : ks.width = 2 * n) (hn : 2 ≤ n) (hlen : p.length = ks.width)
    (hzero : ∀ i, ks.width / 2 ≤ i → i < ks.width → p.getD i 0 = 0)
    (hT : TransformsSucceed ks) (hx : ks.xExtFFT.length = ks.width) :
    ∃ r, FK20SingleDAOptimized ks p = .ok r ∧ r.length = ks.width := by
  have hhalf : ks.width / 2 = n := by omega
  obtain ⟨c, hc, hcl, _⟩ := toeplitzCoeffsStep_entries ks (p.take (ks.width / 2))
    n hw hn (by rw [List.length_take]; omega)
  refine FK20SingleDAOptimized_returns ks hT hx p c hlen (fun i h1 h2 => ?_) hc hcl
  rw [← hzero i h1 h2]
  exact (some_getD_eq_getElem? _ _ _ (by omega)).symm

/-- C8 at width 8 over `ZMod 17`: the transforms of the example settings succeed, part 1
returns 8 values on a vector of 4, and part 3 panics on a vector of 3. -/
theorem toeplitz_stage_lengths_witness :
    TransformsSucceed ks8 ∧
    (∃ r, toeplitzPart1 ks8 [1, 3, 2, 5] = .ok r ∧ r.length = ks8.width) ∧
    ToeplitzPart3 ks8 [1, 2, 3] = .error .part3Length :=
  have hT : TransformsSucceed ks8 :=
    modelSettings_transformsSucceed 2 9 9 8 _ _ (by norm_num) (by norm_num)
  have h := toeplitz_stage_lengths ks8 hT [1, 3, 2, 5] ks8.xExtFFT [1, 2, 3] [1, 2]
  ⟨hT, h.2.2.2.2.1 rfl, h.2.2.2.1 (by decide)⟩

/-- C9 as stated fails at the widths 2 and 1, both powers of two: on width 2 and a
polynomial of length 1 the zeroing loop of `toeplitzCoeffsStep` writes index 2 of a
vector of length 2, and on width 1 and the empty polynomial it reads `polynomial[n-1]`
with `n = 0`, index `2^64 - 1`; `FK20Single` fails with the same panic. -/
theorem no_failure_counterexample :
    (ks2.width = 2 ^ 1 ∧ ([1] : List (ZMod 5)).length = ks2.width / 2 ∧
      toeplitzCoeffsStep ks2 [1] = .error (.indexOutOfRange 2 2) ∧
      FK20Single ks2 [1] = .error (.indexOutOfRange 2 2)) ∧
    (ks1.width = 2 ^ 0 ∧ ([] : List (ZMod 5)).length = ks1.width / 2 ∧
      toeplitzCoeffsStep ks1 [] = .error (.indexOutOfRange (2 ^ 64 - 1) 0) ∧
      FK20Single ks1 [] = .error (.indexOutOfRange (2 ^ 64 - 1) 0)) := by
  decide

/-- C9, amended: on every power-of-two width `W ≥ 4` and every polynomial of length
`W / 2`, `toeplitzCoeffsStep` completes without a panic (every index it reads or writes
is checked by the model), returning `W` coefficients, and `FK20Single` returns its
proofs when the transforms succeed and the cached `xExtFFT` has length `W`. -/
theorem no_failure_after_validation (ks : KateSettings F G) (p : List F) (k : Nat)
    (hk : ks.width = 2 ^ k) (h4 : 4 ≤ ks.width) (hp : p.length = ks.width / 2) :
    (∃ c, toeplitzCoeffsStep ks p = .ok c ∧ c.length = ks.width) ∧
    (TransformsSucceed ks → ks.xExtFFT.length = ks.width →
      ∃ r, FK20Single ks p = .ok r) := by
  obtain ⟨hw, hn⟩ := pow_two_even ks.width k hk h4
  obtain ⟨c, hc, hcl, _⟩ := toeplitzCoeffsStep_entries ks p (ks.width / 2) hw hn hp
  refine ⟨⟨c, hc, hcl⟩, fun hT hx => ?_⟩
  obtain ⟨r, hr, _⟩ := FK20Single_returns ks hT hx p c hc hcl
  exact ⟨r, hr⟩

/-- C9, amended, at width 8 over `ZMod 17` and the polynomial `[1, 2, 3, 4]`. -/
theorem no_failure_after_validation_witness :
    (∃ c, toeplitzCoeffsStep ks8 [1, 2, 3, 4] = .ok c ∧ c.length = ks8.width) ∧
    ∃ r, FK20Single ks8 [1, 2, 3, 4] = .ok r :=
  have h := no_failure_after_validation ks8 [1, 2, 3, 4] 3 rfl (by decide) rfl
  ⟨h.1, h.2 (modelSettings_transformsSucceed 2 9 9 8 _ _ (by norm_num) (by norm_num)) rfl⟩

/-- C10 as stated fails: on the valid input `[1, 2, 3, 4, 0, 0, 0, 0]` at width 8, with
transforms that return as many values as they are given, `FK20SingleDAOptimized`
returns 8 group elements, not 4. -/
theorem zero_padded_output_size_counterexample :
    FK20SingleDAOptimized ks8 [1, 2, 3, 4, 0, 0, 0, 0]
      = .ok [13, 0, 13, 2, 5, 16, 12, 8] ∧
    ([13, 0, 13, 2, 5, 16, 12, 8] : List (ZMod 17)).length ≠ ks8.width / 2 := by
  decide

/-- C10, amended: on every power-of-two width `W ≥ 4` and every valid input (length
`W`, upper half all zero), `FK20SingleDAOptimized` returns exactly `W` group elements,
when the transforms succeed, returning as many values as they are given, and the
cached `xExtFFT` has length `W`. -/
theorem zero_padded_output_size [DecidableEq F] (ks : KateSettings F G) (p : List F)
    (k : Nat) (hk : ks.width = 2 ^ k) (h4 : 4 ≤ ks.width) (hlen : p.length = ks.width)
    (hzero : ∀ i, ks.width / 2 ≤ i → i < ks.width → p.getD i 0 = 0)
    (hT : TransformsSucceed ks) (hx : ks.xExtFFT.length = ks.width) :
    ∃ r, FK20SingleDAOptimized ks p = .ok r ∧ r.length = ks.width := by
  obtain ⟨hw, hn⟩ := pow_two_even ks.width k hk h4
  exact FK20SingleDAOptimized_returns_valid ks p (ks.width / 2) hw hn hlen hzero hT hx

/-- C10, amended, at width 8 over `ZMod 17` and the input `[1, 2, 3, 4, 0, 0, 0, 0]`. -/
theorem zero_padded_output_size_witness :
    ∃ r, FK20SingleDAOptimized ks8 [1, 2, 3, 4, 0, 0, 0, 0] = .ok r ∧
      r.length = ks8.width :=
  zero_padded_output_size ks8 [1, 2, 3, 4, 0, 0, 0, 0] 3 rfl (by decide) rfl
    (by decide)
    (modelSettings_transformsSucceed 2 9 9 8 _ _ (by norm_num) (by norm_num)) rfl

end Success

/-! ## Bit-reversed order -/

section BitReversal

theorem bitReverse_lt (k : Nat) : ∀ i, bitReverse k i < 2 ^ k := by
  induction k with
  | zero => intro i; simp [bitReverse]
  | succ k ih =>
    intro i
    have h1 := ih (i / 2)
    have h2 : i % 2 < 2 := Nat.mod_lt _ (by norm_num)
    have h3 : i % 2 * 2 ^ k ≤ 1 * 2 ^ k := Nat.mul_le_mul_right _ (by omega)
    rw [bitReverse, pow_succ]
    omega

/-- Reversing `k + 1` digits of a number whose highest digit is `b` puts `b` last. -/
theorem bitReverse_shift (k : Nat) :
    ∀ r b, r < 2 ^ k → b < 2 → bitReverse (k + 1) (b * 2 ^ k + r) = 2 * bitReverse k r + b := by
  induction k with
  | zero =>
    intro r b hr hb
    have hr0 : r = 0 := by simpa using hr
    subst hr0
    simp only [bitReverse, pow_zero, mul_one, add_zero, mul_zero, zero_add]
    omega
  | succ k ih =>
    intro r b hr hb
    have e0 : b * 2 ^ (k + 1) = 2 * (b * 2 ^ k) := by
      rw [pow_succ]
      ring
    have e1 : (b * 2 ^ (k + 1) + r) % 2 = r % 2 := by
      rw [e0]
      omega
    have e2 : (b * 2 ^ (k + 1) + r) / 2 = b * 2 ^ k + r / 2 := by
      rw [e0]
      omega
    have hr2 : r / 2 < 2 ^ k := by
      rw [pow_succ] at hr
      omega
    rw [bitReverse, e1, e2, ih (r / 2) b hr2 hb]
    conv_rhs => rw [bitReverse]
    ring

/-- Reversing the digits twice gives the index back. -/
theorem bitReverse_involutive (k : Nat) :
    ∀ i, i < 2 ^ k → bitReverse k (bitReverse k i) = i := by
  induction k with
  | zero =>
    intro i hi
    have : i = 0 := by simpa using hi
    simp [bitReverse, this]
  | succ k ih =>
    intro i hi
    have hi2 : i / 2 < 2 ^ k := by
      rw [pow_succ] at hi
      omega
    have hb : i % 2 < 2 := Nat.mod_lt _ (by norm_num)
    have e : bitReverse (k + 1) i = i % 2 * 2 ^ k + bitReverse k (i / 2) := rfl
    rw [e, bitReverse_shift k _ _ (bitReverse_lt k _) hb, ih (i / 2) hi2]
    omega

theorem log2Aux_pow (k : Nat) : ∀ fuel, k ≤ fuel → log2Aux fuel (2 ^ k) = k := by
  induction k with
  | zero =>
    intro fuel _
    cases fuel <;> simp [log2Aux]
  | succ k ih =>
    intro fuel h
    obtain ⟨f, rfl⟩ : ∃ f, fuel = f + 1 := ⟨fuel - 1, by omega⟩
    have h1 : ¬ (2 ^ (k + 1) ≤ 1) := by
      have : 0 < 2 ^ k := pow_pos (by norm_num) k
      rw [pow_succ]
      omega
    have h2 : 2 ^ (k + 1) / 2 = 2 ^ k := by
      rw [pow_succ]
      omega
    rw [log2Aux, if_neg h1, h2, ih f (by omega)]

theorem indexBits_pow (k : Nat) : indexBits (2 ^ k) = k :=
  log2Aux_pow k _ (Nat.lt_two_pow k).le

variable {G : Type}

theorem reverseBitOrderG1_length (xs : List G) : (reverseBitOrderG1 xs).length = xs.length := by
  simp [reverseBitOrderG1]

/-- On a sequence of length `2 ^ k`, entry `i` of the reordered sequence is the entry
at the index `i` with its `k` digits reversed. -/
theorem reverseBitOrderG1_getElem? (xs : List G) (k : Nat) (h : xs.length = 2 ^ k) (i : Nat)
    (hi : i < 2 ^ k) : (reverseBitOrderG1 xs)[i]? = xs[bitReverse k i]? := by
  have h1 : i < xs.length := by omega
  have h2 : bitReverse k i < xs.length := by
    rw [h]
    exact bitReverse_lt k i
  rw [reverseBitOrderG1, List.getElem?_zipWith, List.getElem?_range h1,
    List.getElem?_eq_getElem h1, h, indexBits_pow]
  simp only [List.getElem?_eq_getElem h2, Option.getD_some]

/-- On a sequence of length `2 ^ k` the reordering is a permutation. -/
theorem reverseBitOrderG1_perm (xs : List G) (k : Nat) (h : xs.length = 2 ^ k) :
    (reverseBitOrderG1 xs).Perm xs := by
  have hlt : ∀ i : Fin xs.length, bitReverse k i < xs.length := by
    intro i
    have := bitReverse_lt k i
    omega
  let σ : Fin xs.length → Fin xs.length := fun i => ⟨bitReverse k i, hlt i⟩
  have hσ : Function.Involutive σ := by
    intro i
    apply Fin.ext
    exact bitReverse_involutive k i (by rw [← h]; exact i.2)
  have e : reverseBitOrderG1 xs = List.ofFn (xs.get ∘ hσ.toPerm σ) := by
    apply List.ext_getElem?
    intro j
    by_cases hj : j < xs.length
    · rw [reverseBitOrderG1_getElem? xs k h j (by omega), List.getElem?_ofFn,
        List.ofFnNthVal, dif_pos hj]
      simp [σ, List.getElem?_eq_getElem (hlt ⟨j, hj⟩)]
    · rw [List.getElem?_eq_none (by rw [reverseBitOrderG1_length]; omega),
        List.getElem?_ofFn, List.ofFnNthVal, dif_neg hj]
  rw [e]
  have := Equiv.Perm.ofFn_comp_perm (hσ.toPerm σ) xs.get
  rwa [List.ofFn_get] at this

end BitReversal

/-! ## Proofs in bit-reversed order -/

section DataAvailability

variable {F G : Type} [Zero F] [Zero G] [SMul F G] [DecidableEq F]

/-- C5: on a power-of-two width `W = 2 * n = 2 ^ k` with `n ≥ 2` and a polynomial `p`
of length `n`, with transforms that succeed and a cached `xExtFFT` of length `W`,
`FK20SingleDAOptimized` returns a vector `proofs` of `W` proofs on `p` followed by `n`
zeros, and `DAUsingFK20` returns on `p` a vector `out` of the same length whose entry
`i` is entry `bitReverse k i` of `proofs`; `out` is a permutation of `proofs`, nothing
else is changed. -/
theorem DAUsingFK20_bit_reversed (ks : KateSettings F G) (p : List F) (n k : Nat)
    (hk : ks.width = 2 ^ k) (hw : ks.width = 2 * n) (hn : 2 ≤ n) (hp : p.length = n)
    (hT : TransformsSucceed ks) (hx : ks.xExtFFT.length = ks.width) :
    ∃ proofs out, FK20SingleDAOptimized ks (p ++ List.replicate n 0) = .ok proofs ∧
      DAUsingFK20 ks p = .ok out ∧ proofs.length = ks.width ∧ out.length = ks.width ∧
      (∀ i, i < ks.width → bitReverse k i < ks.width ∧ out[i]? = proofs[bitReverse k i]?) ∧
      out.Perm proofs := by
  have hzero : ∀ i, ks.width / 2 ≤ i → i < ks.width →
      (p ++ List.replicate n (0 : F)).getD i 0 = 0 := by
    intro i h1 h2
    have a1 : ¬ (i < p.length) := by omega
    have a2 : i - p.length < n := by omega
    rw [List.getD_eq_getElem?_getD, List.getElem?_append, if_neg a1,
      List.getElem?_replicate, if_pos a2]
    rfl
  obtain ⟨proofs, e, l⟩ := FK20SingleDAOptimized_returns_valid ks
    (p ++ List.replicate n 0) n hw hn (by simp; omega) hzero hT hx
  have e2 : DAUsingFK20 ks p = .ok (reverseBitOrderG1 proofs) := by
    rw [DAUsingFK20_eq ks p (by omega), hp, e]
  have l2 : proofs.length = 2 ^ k := by omega
  refine ⟨proofs, reverseBitOrderG1 proofs, e, e2, l, ?_, fun i hi => ⟨?_, ?_⟩, ?_⟩
  · rw [reverseBitOrderG1_length, l]
  · rw [hk]
    exact bitReverse_lt k i
  · exact reverseBitOrderG1_getElem? proofs k l2 i (by omega)
  · exact reverseBitOrderG1_perm proofs k l2

/-- C5 at width 8 over `ZMod 17` and the polynomial `[1, 2, 3, 4]`: the proofs
`[13, 0, 13, 2, 5, 16, 12, 8]` of the zero-padded variant come out of `DAUsingFK20`
as `[13, 5, 13, 12, 0, 16, 2, 8]`. -/
theorem DAUsingFK20_bit_reversed_witness :
    FK20SingleDAOptimized ks8 [1, 2, 3, 4, 0, 0, 0, 0] = .ok [13, 0, 13, 2, 5, 16, 12, 8] ∧
    DAUsingFK20 ks8 [1, 2, 3, 4] = .ok [13, 5, 13, 12, 0, 16, 2, 8] ∧
    ∃ proofs out, FK20SingleDAOptimized ks8 ([1, 2, 3, 4] ++ List.replicate 4 0) = .ok proofs ∧
      DAUsingFK20 ks8 [1, 2, 3, 4] = .ok out ∧ proofs.length = ks8.width ∧
      out.length = ks8.width ∧
      (∀ i, i < ks8.width → bitReverse 3 i < ks8.width ∧ out[i]? = proofs[bitReverse 3 i]?) ∧
      out.Perm proofs :=
  ⟨by decide, by decide,
    DAUsingFK20_bit_reversed ks8 [1, 2, 3, 4] 4 3 rfl rfl (by decide) rfl
      (modelSettings_transformsSucceed 2 9 9 8 _ _ (by norm_num) (by norm_num)) rfl⟩

end DataAvailability

/-! ## The convolution theorem -/

section Convolution

open Finset

variable {F G : Type} [Field F] [AddCommGroup G] [Module F G]

theorem width_ne_zero (ω : F) (w : ℕ) (hw : 0 < w) (hω : IsPrimitiveRoot ω w) : (w : F) ≠ 0 := by
  haveI : NeZero w := ⟨hw.ne'⟩
  exact (hω.neZero').out

/-- Orthogonality of the powers of a root of unity. -/
theorem root_orthogonality (ω : F) (w : ℕ) (hw : 0 < w) (hω : IsPrimitiveRoot ω w) (m i : ℕ) :
    (ω ^ m = ω ^ i → ∑ k in range w, (ω⁻¹) ^ (k * i) * ω ^ (m * k) = (w : F)) ∧
    (ω ^ m ≠ ω ^ i → ∑ k in range w, (ω⁻¹) ^ (k * i) * ω ^ (m * k) = 0) := by
  have hω0 : ω ≠ 0 := hω.ne_zero hw.ne'
  have hterm : ∀ k, (ω⁻¹) ^ (k * i) * ω ^ (m * k) = (ω ^ m * (ω ^ i)⁻¹) ^ k := by
    intro k
    rw [mul_pow, ← pow_mul, inv_pow, inv_pow, ← pow_mul]
    ring
  simp_rw [hterm]
  constructor
  · intro h
    rw [h, mul_inv_cancel₀ (pow_ne_zero _ hω0)]
    simp
  · intro h
    have h1 : ω ^ m * (ω ^ i)⁻¹ - 1 ≠ 0 := by
      intro hc
      apply h
      have h5 := sub_eq_zero.mp hc
      have h6 : ω ^ m * (ω ^ i)⁻¹ * ω ^ i = 1 * ω ^ i := by rw [h5]
      rwa [mul_assoc, inv_mul_cancel₀ (pow_ne_zero _ hω0), mul_one, one_mul] at h6
    have h2 : (ω ^ m * (ω ^ i)⁻¹) ^ w = 1 := by
      rw [mul_pow, inv_pow, ← pow_mul, ← pow_mul, mul_comm m w, mul_comm i w, pow_mul, pow_mul,
        hω.pow_eq_one]
      simp
    have h3 := mul_geom_sum (ω ^ m * (ω ^ i)⁻¹) w
    rw [h2, sub_self] at h3
    exact (mul_eq_zero.mp h3).resolve_left h1

/-- Two powers of a primitive root with exponents `a + b` and `i` agree. -/
theorem root_pow_eq_iff (ω : F) (w : ℕ) (hω : IsPrimitiveRoot ω w) (a b i : ℕ)
    (ha : a < w) (hb : b < w) (hi : i < w) :
    ω ^ (a + b) = ω ^ i ↔ (a + b = i ∨ a + b = i + w) := by
  have hw : 0 < w := by omega
  have hω0 : ω ≠ 0 := hω.ne_zero hw.ne'
  constructor
  · intro h
    by_cases hle : i ≤ a + b
    · have h1 : ω ^ (a + b - i) = 1 := by
        have : ω ^ (a + b - i) * ω ^ i = 1 * ω ^ i := by
          rw [← pow_add, Nat.sub_add_cancel hle, one_mul, h]
        exact mul_right_cancel₀ (pow_ne_zero _ hω0) this
      obtain ⟨q, hq⟩ := (hω.pow_eq_one_iff_dvd _).mp h1
      have hq2 : q < 2 := by
        by_contra hc
        have : w * 2 ≤ w * q := Nat.mul_le_mul_left _ (by omega)
        omega
      interval_cases q
      · left; omega
      · right; omega
    · have h1 : ω ^ (i - (a + b)) = 1 := by
        have : ω ^ (i - (a + b)) * ω ^ (a + b) = 1 * ω ^ (a + b) := by
          rw [← pow_add, Nat.sub_add_cancel (by omega), one_mul, h]
        exact mul_right_cancel₀ (pow_ne_zero _ hω0) this
      obtain ⟨q, hq⟩ := (hω.pow_eq_one_iff_dvd _).mp h1
      have hq2 : q < 1 := by
        by_contra hc
        have : w * 1 ≤ w * q := Nat.mul_le_mul_left _ (by omega)
        omega
      interval_cases q
      omega
  · rintro (h | h)
    · rw [h]
    · rw [h, pow_add, hω.pow_eq_one, mul_one]

/-- The inverse transform of the pointwise product of two transforms is the circular
convolution. -/
theorem convolution_core (ω : F) (w : ℕ) (hw : 0 < w) (hω : IsPrimitiveRoot ω w)
    (c : ℕ → F) (xe : ℕ → G) (i : ℕ) (hi : i < w) :
    (w : F)⁻¹ • ∑ k in range w, (ω⁻¹) ^ (k * i) •
        ((∑ a in range w, ω ^ (a * k) • c a) • ∑ b in range w, ω ^ (b * k) • xe b)
      = ∑ b in range w,
          (∑ a in range w, if a + b = i ∨ a + b = i + w then c a else 0) • xe b := by
  have hW := width_ne_zero ω w hw hω
  have step1 : ∀ k, (ω⁻¹) ^ (k * i) •
        ((∑ a in range w, ω ^ (a * k) • c a) • ∑ b in range w, ω ^ (b * k) • xe b)
      = ∑ b in range w, ∑ a in range w,
          ((ω⁻¹) ^ (k * i) * ω ^ ((a + b) * k) * c a) • xe b := by
    intro k
    rw [Finset.smul_sum, Finset.smul_sum]
    refine Finset.sum_congr rfl (fun b _ => ?_)
    rw [Finset.sum_smul, Finset.smul_sum]
    refine Finset.sum_congr rfl (fun a _ => ?_)
    rw [smul_smul, smul_smul, smul_eq_mul]
    congr 1
    rw [add_mul, pow_add]
    ring
  simp_rw [step1]
  rw [Finset.sum_comm, Finset.smul_sum]
  refine Finset.sum_congr rfl (fun b hb => ?_)
  rw [Finset.sum_comm, Finset.smul_sum, Finset.sum_smul]
  refine Finset.sum_congr rfl (fun a ha => ?_)
  rw [← Finset.sum_smul, smul_smul]
  congr 1
  have e : ∑ k in range w, (ω⁻¹) ^ (k * i) * ω ^ ((a + b) * k) * c a
      = (∑ k in range w, (ω⁻¹) ^ (k * i) * ω ^ ((a + b) * k)) * c a := by
    rw [Finset.sum_mul]
  have hiff := root_pow_eq_iff ω w hω a b i (Finset.mem_range.mp ha) (Finset.mem_range.mp hb) hi
  rw [e]
  by_cases h : a + b = i ∨ a + b = i + w
  · rw [if_pos h, (root_orthogonality ω w hw hω (a + b) i).1 (hiff.mpr h), ← mul_assoc,
      inv_mul_cancel₀ hW, one_mul]
  · rw [if_neg h, (root_orthogonality ω w hw hω (a + b) i).2 (fun hc => h (hiff.mp hc)),
      zero_mul, mul_zero]

end Convolution

/-! ## The Toeplitz product -/

section Product

open Finset

variable {F G : Type} [Field F] [AddCommGroup G] [Module F G]

theorem sumTo_eq_sum {M : Type} [AddCommMonoid M] (n : Nat) (f : Nat → M) :
    sumTo n f = ∑ i in range n, f i := by
  induction n with
  | zero => rfl
  | succ n ih => rw [sumTo, ih, Finset.sum_range_succ]

theorem dft_getElem? (ω : F) (v : List G) (k : Nat) (hk : k < v.length) :
    (dft ω v)[k]? = some (∑ j in range v.length, ω ^ (j * k) • v.getD j 0) := by
  rw [dft, List.getElem?_map, List.getElem?_range hk, Option.map_some', sumTo_eq_sum]

theorem dft_getD (ω : F) (v : List G) (k : Nat) (hk : k < v.length) :
    (dft ω v).getD k 0 = ∑ j in range v.length, ω ^ (j * k) • v.getD j 0 := by
  rw [List.getD_eq_getElem?_getD, dft_getElem? ω v k hk, Option.getD_some]

theorem idft_length (ω : F) (v : List G) : (idft ω v).length = v.length := by
  rw [idft, List.length_map, dft_length]

theorem idft_getElem? (ω : F) (v : List G) (i : Nat) (hi : i < v.length) :
    (idft ω v)[i]?
      = some ((v.length : F)⁻¹ • ∑ k in range v.length, (ω⁻¹) ^ (k * i) • v.getD k 0) := by
  rw [idft, List.getElem?_map, dft_getElem? ω⁻¹ v i hi, Option.map_some']

theorem toeplitzVector_length (t : ℤ → F) (n : Nat) (hn : 1 ≤ n) :
    (toeplitzVector t n).length = 2 * n := by
  simp only [toeplitzVector, List.length_append, List.length_map, List.length_range,
    List.length_singleton]
  omega

theorem toeplitzVector_getD_low (t : ℤ → F) (n a : Nat) (ha : a < n) :
    (toeplitzVector t n).getD a 0 = t (a : ℤ) := by
  have h1 : a < ((List.range n).map (fun (i : Nat) => t (i : ℤ)) ++ [0]).length := by
    simp; omega
  have h2 : a < ((List.range n).map (fun (i : Nat) => t (i : ℤ))).length := by
    simp; omega
  rw [List.getD_eq_getElem?_getD, toeplitzVector, List.getElem?_append, if_pos h1,
    List.getElem?_append, if_pos h2, List.getElem?_map, List.getElem?_range ha]
  rfl

theorem toeplitzVector_getD_high (t : ℤ → F) (n a : Nat) (h1 : n < a) (h2 : a < 2 * n) :
    (toeplitzVector t n).getD a 0 = t ((a : ℤ) - 2 * (n : ℤ)) := by
  have e1 : ((List.range n).map (fun (i : Nat) => t (i : ℤ)) ++ [0]).length = n + 1 := by simp
  have h3 : ¬ (a < ((List.range n).map (fun (i : Nat) => t (i : ℤ)) ++ [0]).length) := by
    rw [e1]; omega
  rw [List.getD_eq_getElem?_getD, toeplitzVector, List.getElem?_append, if_neg h3, e1,
    List.getElem?_map, List.getElem?_range (by omega)]
  simp only [Option.map_some', Option.getD_some]
  congr 1
  omega

theorem getD_append_zeros (x : List G) (m b : Nat) :
    (x ++ List.replicate m (0 : G)).getD b 0 = x.getD b 0 := by
  rw [List.getD_eq_getElem?_getD, List.getD_eq_getElem?_getD, List.getElem?_append]
  by_cases hb : b < x.length
  · rw [if_pos hb]
  · rw [if_neg hb, List.getElem?_replicate, List.getElem?_eq_none (by omega)]
    by_cases h2 : b - x.length < m
    · rw [if_pos h2]; rfl
    · rw [if_neg h2]

/-- The entry of the circular convolution, for a Toeplitz coefficient vector and a
vector extended with zeros, is the entry of the Toeplitz product. -/
theorem convolution_toeplitz (t : ℤ → F) (x : List G) (n i : Nat) (hn : 1 ≤ n)
    (hx : x.length = n) (hi : i < n) :
    ∑ b in range (2 * n),
        (∑ a in range (2 * n), if a + b = i ∨ a + b = i + 2 * n
          then (toeplitzVector t n).getD a 0 else 0)
          • (x ++ List.replicate n (0 : G)).getD b 0
      = ∑ j in range n, t ((i : ℤ) - (j : ℤ)) • x.getD j 0 := by
  have hsub : range n ⊆ range (2 * n) := by
    intro j hj
    rw [Finset.mem_range] at hj ⊢
    omega
  rw [← Finset.sum_subset hsub]
  · refine Finset.sum_congr rfl (fun b hb => ?_)
    rw [Finset.mem_range] at hb
    rw [getD_append_zeros]
    congr 1
    by_cases hbi : b ≤ i
    · rw [Finset.sum_eq_single (i - b)]
      · rw [if_pos (Or.inl (by omega)), toeplitzVector_getD_low t n (i - b) (by omega)]
        congr 1
        omega
      · intro a ha hne
        rw [Finset.mem_range] at ha
        rw [if_neg (by omega)]
      · intro h
        exact absurd (Finset.mem_range.mpr (by omega)) h
    · rw [Finset.sum_eq_single (i + 2 * n - b)]
      · rw [if_pos (Or.inr (by omega)),
          toeplitzVector_getD_high t n (i + 2 * n - b) (by omega) (by omega)]
        congr 1
        omega
      · intro a ha hne
        rw [Finset.mem_range] at ha
        rw [if_neg (by omega)]
      · intro h
        exact absurd (Finset.mem_range.mpr (by omega)) h
  · intro b hb hnb
    rw [Finset.mem_range] at hb hnb
    rw [getD_append_zeros, List.getD_eq_default _ _ (by omega), smul_zero]

/-- C1: on a width `W = 2 * n` with a primitive `W`-th root of unity `ω`, when `FFT`
and `FFTG1` compute the discrete Fourier transform over `ω` (the inverse one scaling
by `1 / W`), for every coefficient vector `[t_0, ..., t_(n-1), 0, t_(1-n), ..., t_(-1)]`
and every vector `x` of `n` group elements the three stages return, the result of
`ToeplitzPart3(ToeplitzPart2(c, toeplitzPart1(x)))` has length `n`, and its entry `i`
is the sum over `j < n` of `t_(i-j) • x[j]`: the product of the Toeplitz matrix
`T[i][j] = t_(i-j)` with `x`. -/
theorem toeplitz_product (ks : KateSettings F G) (ω : F) (n : Nat)
    (hw : ks.width = 2 * n) (hn : 1 ≤ n) (hω : IsPrimitiveRoot ω ks.width)
    (hdft : ComputesDFT ks ω) (t : ℤ → F) (x : List G) (hx : x.length = n) :
    ∃ xf hf out, toeplitzPart1 ks x = .ok xf ∧
      ToeplitzPart2 ks (toeplitzVector t n) xf = .ok hf ∧
      ToeplitzPart3 ks hf = .ok out ∧ out.toList.length = n ∧
      ∀ i, i < n → out.toList[i]? = some (toeplitzProduct t x i) := by
  have hhalf : ks.width / 2 = n := by omega
  have hsub : ks.width - ks.width / 2 = n := by omega
  have hxe : (x ++ List.replicate n (0 : G)).length = ks.width := by
    simp only [List.length_append, List.length_replicate]
    omega
  have hc : (toeplitzVector t n).length = ks.width := by
    rw [toeplitzVector_length t n hn, hw]
  have e1 : toeplitzPart1 ks x = .ok (dft ω (x ++ List.replicate n (0 : G))) := by
    rw [toeplitzPart1_eq ks x (by omega), hsub, hdft.2.1 _ hxe]
  have hxf : (dft ω (x ++ List.replicate n (0 : G))).length = ks.width := by
    rw [dft_length, hxe]
  have e2 := ToeplitzPart2_eq ks (toeplitzVector t n) _ (dft ω (toeplitzVector t n)) hc hxf
    (hdft.1 _ hc) (by rw [dft_length, hc])
  have hhf : ((List.range ks.width).map (fun i => (dft ω (toeplitzVector t n)).getD i 0
      • (dft ω (x ++ List.replicate n (0 : G))).getD i 0)).length = ks.width := by
    simp
  have e3 := ToeplitzPart3_eq ks _ _ hhf (hdft.2.2 _ hhf)
    (by rw [idft_length, hhf]; omega)
  refine ⟨_, _, _, e1, e2, e3, ?_, fun i hi => ?_⟩
  · simp only [Slice.toList, List.length_take, idft_length, hhf]
    omega
  · have hiw : i < ks.width := by omega
    simp only [Slice.toList]
    rw [List.getElem?_take, if_pos (by omega), idft_getElem? _ _ _ (by rw [hhf]; exact hiw),
      hhf, toeplitzProduct, sumTo_eq_sum, hx, ← convolution_toeplitz t x n i hn hx hi, ← hw,
      ← convolution_core ω ks.width (by omega) hω _ _ i hiw]
    congr 2
    refine Finset.sum_congr rfl (fun k hk => ?_)
    rw [Finset.mem_range] at hk
    congr 1
    rw [List.getD_eq_getElem?_getD, List.getElem?_map, List.getElem?_range hk,
      Option.map_some', Option.getD_some, dft_getD _ _ _ (by rw [hc]; exact hk),
      dft_getD _ _ _ (by rw [hxe]; exact hk), hc, hxe]

/-- The model transforms over a root `ω` with inverse `ωInv`, on a power-of-two width,
compute the discrete Fourier transform: over `ω` on `width` values, the inverse one
scaled by the inverse of the width, and over `ω ^ 2` on `width / 2` values. -/
theorem modelSettings_computesDFT (ω ωInv twoInv : F) (width k : Nat) (h : width < 2 ^ 64)
    (xf : List G) (hk : width = 2 ^ k) (hk1 : 1 ≤ k) (h1 : ω * ωInv = 1)
    (h2 : 2 * twoInv = 1) :
    ComputesDFT (modelSettings ω ωInv twoInv width h xf : KateSettings F G) ω ∧
    ComputesHalfDFT (modelSettings ω ωInv twoInv width h xf : KateSettings F G) ω := by
  have hpos : 0 < 2 ^ k := pow_pos (by norm_num) k
  have hwpos : 0 < width := by omega
  have hinv : ωInv = ω⁻¹ := (inv_eq_of_mul_eq_one_right h1).symm
  have htwo : twoInv ^ k = ((width : ℕ) : F)⁻¹ := by
    have e : ((width : ℕ) : F) * twoInv ^ k = 1 := by
      rw [hk, Nat.cast_pow, Nat.cast_ofNat, ← mul_pow, h2, one_pow]
    exact (inv_eq_of_mul_eq_one_right e).symm
  have hfwd : ∀ {M : Type} [AddCommGroup M] [Module F M] (v : List M), v.length = width →
      modelFFT ω ωInv twoInv width v false = .ok (dft ω v) := by
    intro M _ _ v hv
    have hc : ¬ (width = 0 ∨ width % width ≠ 0) := by
      rw [Nat.mod_self]
      omega
    simp only [modelFFT, hv, if_neg hc, Bool.false_eq_true, if_false, Nat.div_self hwpos,
      pow_one]
  refine ⟨⟨fun v hv => hfwd v hv, fun v hv => hfwd v hv, fun v hv => ?_⟩, fun v hv => ?_⟩
  · have hv2 : v.length = width := hv
    have hc : ¬ (width = 0 ∨ width % width ≠ 0) := by
      rw [Nat.mod_self]
      omega
    have hb : indexBits width = k := by
      rw [hk, indexBits_pow]
    show modelFFT ω ωInv twoInv width v true = .ok (idft ω v)
    simp only [modelFFT, hv2, if_neg hc, if_true, hb, htwo, idft, hinv, Nat.div_self hwpos,
      pow_one]
  · have hv2 : v.length = width / 2 := hv
    obtain ⟨j, rfl⟩ : ∃ j, k = j + 1 := ⟨k - 1, by omega⟩
    have hw2 : width = 2 * (width / 2) := by
      rw [pow_succ] at hk
      omega
    have hdiv : width / (width / 2) = 2 :=
      Nat.div_eq_of_eq_mul_left (by omega) hw2
    have hc : ¬ (width / 2 = 0 ∨ width % (width / 2) ≠ 0) := by
      have : width % (width / 2) = 0 := Nat.mod_eq_zero_of_dvd ⟨2, by omega⟩
      omega
    show modelFFT ω ωInv twoInv width v false = .ok (dft (ω ^ 2) v)
    simp only [modelFFT, hv2, if_neg hc, Bool.false_eq_true, if_false, hdiv]

theorem primitiveRoot_two_mod_seventeen : IsPrimitiveRoot (2 : ZMod 17) 8 := by
  refine IsPrimitiveRoot.mk_of_lt _ (by decide) (by decide) ?_
  intro l h0 h8
  interval_cases l <;> decide

/-- C1 at width 8 over `ZMod 17`, for the Toeplitz matrix with entries `t_d = d + 3`
and the vector `[1, 3, 2, 5]`: the stages return the product `[11, 5, 16, 10]`. -/
theorem toeplitz_product_witness :
    (∃ xf hf, toeplitzPart1 ks8 [1, 3, 2, 5] = .ok xf ∧
      ToeplitzPart2 ks8 [3, 4, 5, 6, 0, 0, 1, 2] xf = .ok hf ∧
      ToeplitzPart3 ks8 hf = .ok ⟨[11, 5, 16, 10, 14, 3, 14, 5], 4⟩) ∧
    ∃ xf hf out, toeplitzPart1 ks8 [1, 3, 2, 5] = .ok xf ∧
      ToeplitzPart2 ks8 (toeplitzVector (fun d => ((d + 3).toNat : ZMod 17)) 4) xf = .ok hf ∧
      ToeplitzPart3 ks8 hf = .ok out ∧ out.toList.length = 4 ∧
      ∀ i, i < 4 → out.toList[i]? =
        some (toeplitzProduct (fun d => ((d + 3).toNat : ZMod 17)) [1, 3, 2, 5] i) :=
  ⟨⟨[11, 4, 8, 10, 12, 14, 7, 10], [10, 15, 1, 15, 15, 12, 6, 14], by decide, by decide,
      by decide⟩,
    toeplitz_product ks8 2 4 rfl (by decide) primitiveRoot_two_mod_seventeen
      (modelSettings_computesDFT 2 9 9 8 3 _ _ rfl (by decide) (by decide) (by decide)).1
      (fun d => ((d + 3).toNat : ZMod 17)) [1, 3, 2, 5] rfl⟩

end Product

/-! ## The two proof variants -/

section Variants

open Finset

variable {F G : Type} [Field F] [AddCommGroup G] [Module F G] [DecidableEq F]

omit [DecidableEq F] in
/-- Entry `2 * i` of the transform over `ω` of a vector followed by zeros is entry `i`
of the transform over `ω ^ 2` of the vector. -/
theorem dft_padded_even (ω : F) (h : List G) (m i : Nat) (hm : m = h.length) (hi : i < m) :
    (dft ω (h ++ List.replicate m (0 : G)))[2 * i]? = (dft (ω ^ 2) h)[i]? := by
  have hlen : (h ++ List.replicate m (0 : G)).length = 2 * m := by
    simp only [List.length_append, List.length_replicate]
    omega
  have hsub : range h.length ⊆ range (2 * m) := by
    intro j hj
    rw [Finset.mem_range] at hj ⊢
    omega
  rw [dft_getElem? _ _ _ (by omega), dft_getElem? _ _ _ (by omega), hlen,
    ← Finset.sum_subset hsub]
  · congr 1
    refine Finset.sum_congr rfl (fun j _ => ?_)
    rw [getD_append_zeros, ← pow_mul]
    congr 2
    ring
  · intro j _ hj
    rw [Finset.mem_range] at hj
    rw [getD_append_zeros, List.getD_eq_default _ _ (by omega), smul_zero]

omit [Field F] [Module F G] [DecidableEq F] in
theorem take_append_zeros {α : Type} (p z : List α) : (p ++ z).take p.length = p := by
  simp

/-- When the transforms compute the discrete Fourier transform (over `ω` on `width`
values, over `ω ^ 2` on `width / 2` values), `FK20Single` returns `n` proofs,
`FK20SingleDAOptimized` returns `2 * n` proofs on the polynomial followed by `n` zeros,
and the proofs of `FK20Single` are the even-indexed ones of the zero-padded variant. -/
theorem proofs_even_entries (ks : KateSettings F G) (ω : F) (n : Nat) (p : List F)
    (hw : ks.width = 2 * n) (hn : 2 ≤ n) (hp : p.length = n)
    (hx : ks.xExtFFT.length = ks.width)
    (hdft : ComputesDFT ks ω) (hhalf : ComputesHalfDFT ks ω) :
    ∃ a b, FK20Single ks p = .ok a ∧
      FK20SingleDAOptimized ks (p ++ List.replicate n 0) = .ok b ∧
      a.length = n ∧ b.length = ks.width ∧ ∀ i, i < n → b[2 * i]? = a[i]? := by
  have hhalfw : ks.width / 2 = n := by omega
  have hsub : ks.width - n = n := by omega
  obtain ⟨c, hc, hcl, _⟩ := toeplitzCoeffsStep_entries ks p n hw hn hp
  have ecf := hdft.1 c hcl
  have hpw : (pointwise ks (dft ω c)).length = ks.width := by simp [pointwise]
  have eout := hdft.2.2 _ hpw
  have hol : (idft ω (pointwise ks (dft ω c))).length = ks.width := by
    rw [idft_length, hpw]
  have hh : ((idft ω (pointwise ks (dft ω c))).take n).length = n := by
    rw [List.length_take, hol]
    omega
  have e1 := FK20Single_eq ks p c _ _ hc hcl hx ecf (by rw [dft_length, hcl]) eout
    (by rw [hol]; omega)
  rw [hhalfw, hhalf _ (by rw [hh, hhalfw])] at e1
  have hq : (p ++ List.replicate n (0 : F)).length = ks.width := by
    simp only [List.length_append, List.length_replicate]
    omega
  have htake : (p ++ List.replicate n (0 : F)).take (ks.width / 2) = p := by
    rw [hhalfw, ← hp]
    exact take_append_zeros p _
  have hzero : ∀ i, ks.width / 2 ≤ i → i < ks.width →
      (p ++ List.replicate n (0 : F))[i]? = some 0 := by
    intro i h1 h2
    rw [List.getElem?_append, if_neg (by omega), List.getElem?_replicate, if_pos (by omega)]
  have e2 := FK20SingleDAOptimized_eq ks (p ++ List.replicate n 0) c _ _ hq hzero
    (by rw [htake]; exact hc) hcl hx ecf (by rw [dft_length, hcl]) eout (by rw [hol])
  rw [hhalfw, hsub, hdft.2.1 _ (by
    simp only [List.length_append, List.length_replicate, hh]
    omega)] at e2
  refine ⟨_, _, e1, e2, by rw [dft_length, hh], ?_, fun i hi => ?_⟩
  · rw [dft_length]
    simp only [List.length_append, List.length_replicate, hh]
    omega
  · exact dft_padded_even ω _ n i hh.symm hi

/-- C2 as stated fails: at width 8 over `ZMod 17`, for the polynomial `[1, 2, 3, 4]` and
the same cached `xExtFFT`, `FK20Single` returns the 4 proofs `[13, 13, 5, 12]` and
`FK20SingleDAOptimized`, on the polynomial followed by 4 zeros, the 8 proofs
`[13, 0, 13, 2, 5, 16, 12, 8]`. -/
theorem toeplitz_consistency_counterexample :
    FK20Single ks8 [1, 2, 3, 4] = .ok [13, 13, 5, 12] ∧
    FK20SingleDAOptimized ks8 ([1, 2, 3, 4] ++ List.replicate 4 0)
      = .ok [13, 0, 13, 2, 5, 16, 12, 8] ∧
    FK20Single ks8 [1, 2, 3, 4]
      ≠ FK20SingleDAOptimized ks8 ([1, 2, 3, 4] ++ List.replicate 4 0) := by
  decide

/-- C2, amended: on a width `W = 2 * n` with `n ≥ 2` and a polynomial `p` of `n`
scalars, with transforms that compute the discrete Fourier transform (`FFTG1` over `ω`
on `W` values and over `ω ^ 2` on `n` values) and the same cached `xExtFFT`,
`FK20Single(p)` returns `n` proofs, `FK20SingleDAOptimized(p followed by n zeros)`
returns `W` proofs, and entry `2 * i` of the latter equals entry `i` of the former
for every `i < n`. -/
theorem toeplitz_consistency (ks : KateSettings F G) (ω : F) (n : Nat) (p : List F)
    (hw : ks.width = 2 * n) (hn : 2 ≤ n) (hp : p.length = n)
    (hx : ks.xExtFFT.length = ks.width)
    (hdft : ComputesDFT ks ω) (hhalf : ComputesHalfDFT ks ω) :
    ∃ a b, FK20Single ks p = .ok a ∧
      FK20SingleDAOptimized ks (p ++ List.replicate n 0) = .ok b ∧
      a.length = n ∧ b.length = ks.width ∧ ∀ i, i < n → b[2 * i]? = a[i]? :=
  proofs_even_entries ks ω n p hw hn hp hx hdft hhalf

/-- C2, amended, at width 8 over `ZMod 17` and the polynomial `[1, 2, 3, 4]`. -/
theorem toeplitz_consistency_witness :
    ∃ a b, FK20Single ks8 [1, 2, 3, 4] = .ok a ∧
      FK20SingleDAOptimized ks8 ([1, 2, 3, 4] ++ List.replicate 4 0) = .ok b ∧
      a.length = 4 ∧ b.length = ks8.width ∧ ∀ i, i < 4 → b[2 * i]? = a[i]? :=
  toeplitz_consistency ks8 2 4 [1, 2, 3, 4] rfl (by decide) rfl rfl
    (modelSettings_computesDFT 2 9 9 8 3 _ _ rfl (by decide) (by decide) (by decide)).1
    (modelSettings_computesDFT 2 9 9 8 3 _ _ rfl (by decide) (by decide) (by decide)).2

end Variants

/-! ## Independence from the constant coefficient -/

section Independence

variable {F G : Type} [Zero F] [Zero G] [SMul F G]

/-- C17: on a width `W = 2 * n` with `n ≥ 2`, two polynomials `p`, `q` of length `n`
that agree at every index except possibly index 0 get the same coefficient vector from
`toeplitzCoeffsStep`, and `FK20Single` gives the same result on both: the coefficient
`p[0]` does not influence the proofs. -/
theorem constant_coefficient_independence (ks : KateSettings F G) (p q : List F) (n : Nat)
    (hw : ks.width = 2 * n) (hn : 2 ≤ n) (hp : p.length = n) (hq : q.length = n)
    (h : ∀ i, 1 ≤ i → i < n → p[i]? = q[i]?) :
    (∃ c, toeplitzCoeffsStep ks p = .ok c ∧ toeplitzCoeffsStep ks q = .ok c) ∧
    FK20Single ks p = FK20Single ks q := by
  have e1 : p.getD (n - 1) 0 = q.getD (n - 1) 0 := by
    rw [List.getD_eq_getElem?_getD, List.getD_eq_getElem?_getD, h (n - 1) (by omega) (by omega)]
  have e2 : p.drop 1 = q.drop 1 := by
    apply List.ext_getElem?
    intro j
    rw [List.getElem?_drop, List.getElem?_drop]
    by_cases hj : 1 + j < n
    · exact h (1 + j) (by omega) hj
    · rw [List.getElem?_eq_none (by omega), List.getElem?_eq_none (by omega)]
  have ep := toeplitzCoeffsStep_eq ks p n hw hn hp
  have eq := toeplitzCoeffsStep_eq ks q n hw hn hq
  rw [← e1, ← e2] at eq
  refine ⟨⟨_, ep, eq⟩, ?_⟩
  simp only [FK20Single, ep, eq]

/-- C17 at width 8 over `ZMod 17`: the polynomials `[1, 2, 3, 4]` and `[9, 2, 3, 4]`
differ in the constant coefficient only. -/
theorem constant_coefficient_independence_witness :
    (∃ c, toeplitzCoeffsStep ks8 [1, 2, 3, 4] = .ok c ∧
      toeplitzCoeffsStep ks8 [9, 2, 3, 4] = .ok c) ∧
    FK20Single ks8 [1, 2, 3, 4] = FK20Single ks8 [9, 2, 3, 4] :=
  constant_coefficient_independence ks8 [1, 2, 3, 4] [9, 2, 3, 4] 4 rfl (by decide) rfl rfl
    (by decide)

end Independence

/-! ## The inner validations on the path of `DAUsingFK20` -/

section InnerChecks

variable {F G : Type} [Zero F] [Zero G] [SMul F G]

omit [Zero F] [Zero G] [SMul F G] in
/-- A failing loop fails with a panic of one of its iterations. -/
theorem forLoop_error {σ : Type} (P : Panic → Prop) (body : Nat → σ → Except Panic σ)
    (hb : ∀ i s e, body i s = .error e → P e) :
    ∀ (k lo : Nat) (s : σ) (e : Panic), forLoop k lo body s = .error e → P e := by
  intro k
  induction k with
  | zero =>
    intro lo s e h
    simp [forLoop] at h
  | succ k ih =>
    intro lo s e h
    rw [forLoop] at h
    cases hbody : body lo s with
    | error e1 =>
      rw [hbody] at h
      simp only [Except.error.injEq] at h
      subst h
      exact hb lo s e1 hbody
    | ok s1 =>
      rw [hbody] at h
      exact ih (lo + 1) s1 e h

omit [Zero F] [Zero G] [SMul F G] in
theorem copyElem_error {α : Type} (dst : List α) (i : Nat) (src : List α) (j : Nat)
    (e : Panic) (h : copyElem dst i src j = .error e) : e.isInputCheck = false := by
  unfold copyElem at h
  split at h
  · split at h
    · simp at h
    · simp only [Except.error.injEq] at h
      subst h
      rfl
  · simp only [Except.error.injEq] at h
    subst h
    rfl

omit [Zero F] [Zero G] [SMul F G] in
theorem setElem_error {α : Type} (dst : List α) (i : Nat) (v : α)
    (e : Panic) (h : setElem dst i v = .error e) : e.isInputCheck = false := by
  unfold setElem at h
  split at h
  · simp at h
  · simp only [Except.error.injEq] at h
    subst h
    rfl

omit [Zero F] [Zero G] in
theorem mulElem_error (dst : List G) (i : Nat) (a : List G) (b : List F)
    (e : Panic) (h : mulElem dst i a b = .error e) : e.isInputCheck = false := by
  unfold mulElem at h
  split at h
  · split at h
    · split at h
      · simp at h
      · simp only [Except.error.injEq] at h
        subst h
        rfl
    · simp only [Except.error.injEq] at h
      subst h
      rfl
  · simp only [Except.error.injEq] at h
    subst h
    rfl

omit [Zero G] [SMul F G] in
/-- `toeplitzCoeffsStep` never raises one of the two input-check panics. -/
theorem toeplitzCoeffsStep_error (ks : KateSettings F G) (p : List F) (e : Panic)
    (h : toeplitzCoeffsStep ks p = .error e) : e.isInputCheck = false := by
  unfold toeplitzCoeffsStep at h
  simp only at h
  split at h
  · simp only [Except.error.injEq] at h
    subst h
    rfl
  · split at h
    · rename_i e1 h1
      simp only [Except.error.injEq] at h
      subst h
      exact copyElem_error _ _ _ _ _ h1
    · split at h
      · rename_i e1 h1
        simp only [Except.error.injEq] at h
        subst h
        exact forLoop_error (fun e => e.isInputCheck = false) _
          (fun i s e he => setElem_error _ _ _ e he) _ _ _ _ h1
      · exact forLoop_error (fun e => e.isInputCheck = false) _
          (fun i s e he => copyElem_error _ _ _ _ e he) _ _ _ _ h

omit [Zero F] in
/-- `ToeplitzPart2` never raises one of the two input-check panics. -/
theorem ToeplitzPart2_error (ks : KateSettings F G) (c : List F) (xf : List G) (e : Panic)
    (h : ToeplitzPart2 ks c xf = .error e) : e.isInputCheck = false := by
  unfold ToeplitzPart2 at h
  split at h
  · simp only [Except.error.injEq] at h
    subst h
    rfl
  · split at h
    · simp only [Except.error.injEq] at h
      subst h
      rfl
    · split at h
      · simp only [Except.error.injEq] at h
        subst h
        rfl
      · exact forLoop_error (fun e => e.isInputCheck = false) _
          (fun i s e he => mulElem_error _ _ _ _ e he) _ _ _ _ h

omit [Zero F] [Zero G] [SMul F G] in
/-- `ToeplitzPart3` never raises one of the two input-check panics. -/
theorem ToeplitzPart3_error (ks : KateSettings F G) (hf : List G) (e : Panic)
    (h : ToeplitzPart3 ks hf = .error e) : e.isInputCheck = false := by
  unfold ToeplitzPart3 at h
  split at h
  · simp only [Except.error.injEq] at h
    subst h
    rfl
  · split at h
    · simp only [Except.error.injEq] at h
      subst h
      rfl
    · unfold Slice.reslice at h
      split at h
      · simp at h
      · simp only [Except.error.injEq] at h
        subst h
        rfl

omit [Zero F] [Zero G] [SMul F G] in
theorem sliceSetElem_error {α : Type} (s : Slice α) (i : Nat) (v : α)
    (e : Panic) (h : Slice.setElem s i v = .error e) : e.isInputCheck = false := by
  unfold Slice.setElem at h
  split at h
  · simp at h
  · simp only [Except.error.injEq] at h
    subst h
    rfl

/-- On an input that passes its two checks, `FK20SingleDAOptimized` raises neither of
the two input-check panics later on. -/
theorem FK20SingleDAOptimized_error_valid [DecidableEq F] (ks : KateSettings F G)
    (p : List F) (e : Panic) (hlen : p.length = ks.width)
    (hchk : forRange (ks.width / 2) ks.width (checkZero p) () = .ok ())
    (h : FK20SingleDAOptimized ks p = .error e) : e.isInputCheck = false := by
  unfold FK20SingleDAOptimized at h
  simp only [hlen, ne_eq, not_true_eq_false, if_false, hchk] at h
  split at h
  · rename_i e1 h1
    simp only [Except.error.injEq] at h
    subst h
    exact toeplitzCoeffsStep_error ks _ _ h1
  · split at h
    · rename_i e1 h1
      simp only [Except.error.injEq] at h
      subst h
      exact ToeplitzPart2_error ks _ _ _ h1
    · split at h
      · rename_i e1 h1
        simp only [Except.error.injEq] at h
        subst h
        exact ToeplitzPart3_error ks _ _ h1
      · split at h
        · rename_i e1 h1
          simp only [Except.error.injEq] at h
          subst h
          unfold Slice.reslice at h1
          split at h1
          · simp at h1
          · simp only [Except.error.injEq] at h1
            subst h1
            rfl
        · split at h
          · rename_i e1 h1
            simp only [Except.error.injEq] at h
            subst h
            exact forLoop_error (fun e => e.isInputCheck = false) _
              (fun i s e he => sliceSetElem_error _ _ _ e he) _ _ _ _ h1
          · split at h
            · simp only [Except.error.injEq] at h
              subst h
              rfl
            · simp at h

/-- C15: for every width `W` and every polynomial `p` with `2 * len(p) = W`,
`DAUsingFK20` passes `p` followed by `len(p)` zeros to `FK20SingleDAOptimized`; this
extended polynomial has length `W`, has `p` as its first half and zeros in its second
half, it passes the length check and the zero check, and neither
`FK20SingleDAOptimized` on it nor `DAUsingFK20` on `p` raises one of the two
input-check panics. -/
theorem DAUsingFK20_passes_inner_checks [DecidableEq F] (ks : KateSettings F G)
    (p : List F) (hp : 2 * p.length = ks.width) :
    (DAUsingFK20 ks p =
      match FK20SingleDAOptimized ks (p ++ List.replicate p.length 0) with
      | .error e => .error e
      | .ok allProofs => .ok (reverseBitOrderG1 allProofs)) ∧
    (p ++ List.replicate p.length (0 : F)).length = ks.width ∧
    (p ++ List.replicate p.length (0 : F)).take p.length = p ∧
    (∀ i, p.length ≤ i → i < ks.width →
      (p ++ List.replicate p.length (0 : F))[i]? = some 0) ∧
    forRange (ks.width / 2) ks.width (checkZero (p ++ List.replicate p.length 0)) ()
      = .ok () ∧
    (∀ e, FK20SingleDAOptimized ks (p ++ List.replicate p.length 0) = .error e →
      e.isInputCheck = false) ∧
    (∀ e, DAUsingFK20 ks p = .error e → e.isInputCheck = false) := by
  have hlen : (p ++ List.replicate p.length (0 : F)).length = ks.width := by
    simp only [List.length_append, List.length_replicate]
    omega
  have hz : ∀ i, p.length ≤ i → i < ks.width →
      (p ++ List.replicate p.length (0 : F))[i]? = some 0 := by
    intro i h1 h2
    rw [List.getElem?_append, if_neg (by omega), List.getElem?_replicate, if_pos (by omega)]
  have hchk : forRange (ks.width / 2) ks.width
      (checkZero (p ++ List.replicate p.length 0)) () = .ok () :=
    forLoop_checkZero_ok _ _ _ (fun i h1 h2 => hz i (by omega) (by omega))
  have hda := DAUsingFK20_eq ks p (by omega)
  have herr : ∀ e, FK20SingleDAOptimized ks (p ++ List.replicate p.length 0) = .error e →
      e.isInputCheck = false :=
    fun e he => FK20SingleDAOptimized_error_valid ks _ e hlen hchk he
  refine ⟨hda, hlen, by simp, hz, hchk, herr, fun e he => ?_⟩
  rw [hda] at he
  split at he
  · rename_i e1 h1
    simp only [Except.error.injEq] at he
    subst he
    exact herr _ h1
  · simp at he

/-- C15 at width 8 over `ZMod 17` and the polynomial `[1, 2, 3, 4]`: the extended
polynomial `[1, 2, 3, 4, 0, 0, 0, 0]` passes the zero check. -/
theorem DAUsingFK20_passes_inner_checks_witness :
    ([1, 2, 3, 4] ++ List.replicate 4 (0 : ZMod 17)).length = ks8.width ∧
    forRange (ks8.width / 2) ks8.width
      (checkZero ([1, 2, 3, 4] ++ List.replicate 4 (0 : ZMod 17))) () = .ok () ∧
    (∀ e, DAUsingFK20 ks8 [1, 2, 3, 4] = .error e → e.isInputCheck = false) :=
  have h := DAUsingFK20_passes_inner_checks ks8 [1, 2, 3, 4] rfl
  ⟨h.2.1, h.2.2.2.2.1, h.2.2.2.2.2.2⟩

end InnerChecks

/-! ## Re-padding in the zero-padded variant -/

section Repadding

variable {F G : Type} [Zero F] [Zero G] [SMul F G] [DecidableEq F]

/-- C14: on a width `W = 2 * n` with `n ≥ 2` and a valid input `p` (length `W`, upper
half zero), with transforms that succeed and a cached `xExtFFT` of length `W`, the
three steps `toeplitzCoeffsStep(p[0..n))`, `ToeplitzPart2(·, xExtFFT)`, `ToeplitzPart3`
return a slice `h` of `n` elements, and `FK20SingleDAOptimized(p)` is the forward
`FFTG1` of `h` followed by `n` zero elements of the group: the entries of the inverse
transform behind the first `n` do not enter the result. -/
theorem repadding (ks : KateSettings F G) (p : List F) (n : Nat)
    (hw : ks.width = 2 * n) (hn : 2 ≤ n) (hlen : p.length = ks.width)
    (hzero : ∀ i, n ≤ i → i < ks.width → p.getD i 0 = 0)
    (hT : TransformsSucceed ks) (hx : ks.xExtFFT.length = ks.width) :
    ∃ c hf h r, toeplitzCoeffsStep ks (p.take n) = .ok c ∧
      ToeplitzPart2 ks c ks.xExtFFT = .ok hf ∧ ToeplitzPart3 ks hf = .ok h ∧
      h.toList.length = n ∧
      ks.FFTG1 (h.toList ++ List.replicate n 0) false = .ok r ∧
      FK20SingleDAOptimized ks p = .ok r := by
  have hhalf : ks.width / 2 = n := by omega
  have hsub : ks.width - n = n := by omega
  obtain ⟨c, hc, hcl, _⟩ := toeplitzCoeffsStep_entries ks (p.take n) n hw hn
    (by rw [List.length_take]; omega)
  obtain ⟨cf, ecf, lcf⟩ := hT.1 c false (Or.inl hcl)
  have e2 := ToeplitzPart2_eq ks c ks.xExtFFT cf hcl hx ecf (by omega)
  have hpw : (pointwise ks cf).length = ks.width := by simp [pointwise]
  obtain ⟨out, eout, lout⟩ := hT.2 (pointwise ks cf) true (Or.inl hpw)
  have e3 := ToeplitzPart3_eq ks (pointwise ks cf) out hpw eout (by omega)
  have hl : (out.take n ++ List.replicate n (0 : G)).length = ks.width := by
    simp only [List.length_append, List.length_take, List.length_replicate]
    omega
  obtain ⟨r, er, _⟩ := hT.2 _ false (Or.inl hl)
  have hz : ∀ i, ks.width / 2 ≤ i → i < ks.width → p[i]? = some 0 := by
    intro i h1 h2
    rw [← hzero i (by omega) h2]
    exact (some_getD_eq_getElem? _ _ _ (by omega)).symm
  have e4 := FK20SingleDAOptimized_eq ks p c cf out hlen hz (by rw [hhalf]; exact hc) hcl hx
    ecf (by omega) eout (by omega)
  rw [hhalf, hsub, er] at e4
  refine ⟨c, pointwise ks cf, ⟨out, ks.width / 2⟩, r, hc, e2, e3, ?_, ?_, e4⟩
  · simp only [Slice.toList, List.length_take]
    omega
  · simp only [Slice.toList, hhalf]
    exact er

/-- C14 at width 8 over `ZMod 17` and the input `[1, 2, 3, 4, 0, 0, 0, 0]`. -/
theorem repadding_witness :
    ∃ c hf h r, toeplitzCoeffsStep ks8 (([1, 2, 3, 4, 0, 0, 0, 0] : List (ZMod 17)).take 4)
        = .ok c ∧
      ToeplitzPart2 ks8 c ks8.xExtFFT = .ok hf ∧ ToeplitzPart3 ks8 hf = .ok h ∧
      h.toList.length = 4 ∧
      ks8.FFTG1 (h.toList ++ List.replicate 4 0) false = .ok r ∧
      FK20SingleDAOptimized ks8 [1, 2, 3, 4, 0, 0, 0, 0] = .ok r :=
  repadding ks8 [1, 2, 3, 4, 0, 0, 0, 0] 4 rfl (by decide) rfl (by decide)
    (modelSettings_transformsSucceed 2 9 9 8 _ _ (by norm_num) (by norm_num)) rfl

end Repadding

/-! ## The even-index relation -/

section EvenIndex

variable {F G : Type} [Field F] [AddCommGroup G] [Module F G] [DecidableEq F]

omit [DecidableEq F] in
/-- The forward transform of model settings, on a non-empty input whose length `m`
divides the width, is the discrete Fourier transform over `ω ^ (width / m)`. -/
theorem modelSettings_forward (ω ωInv twoInv : F) (width : Nat) (h : width < 2 ^ 64)
    (xf : List G) (v : List G) (h0 : v.length ≠ 0) (hd : width % v.length = 0) :
    (modelSettings ω ωInv twoInv width h xf : KateSettings F G).FFTG1 v false
      = .ok (dft (ω ^ (width / v.length)) v) := by
  have hc : ¬ (v.length = 0 ∨ width % v.length ≠ 0) := by
    rintro (h1 | h1)
    · exact h0 h1
    · exact h1 hd
  show modelFFT ω ωInv twoInv width v false = _
  simp only [modelFFT, if_neg hc, Bool.false_eq_true, if_false]

/-- C16: when `FFTG1` computes, on an input of length `m` (the width or half the
width), the discrete Fourier transform over `ω ^ (W / m)`, and the other transforms
succeed, then on a width `W = 2 * n` with `n ≥ 2` and a polynomial `p` of length `n`
`FK20Single(p)` returns `n` proofs, `FK20SingleDAOptimized(p followed by n zeros)`
returns `W` proofs, and entry `2 * i` of the latter is entry `i` of the former for
every `i < n`. -/
theorem even_index_relation (ks : KateSettings F G) (ω : F) (n : Nat) (p : List F)
    (hw : ks.width = 2 * n) (hn : 2 ≤ n) (hp : p.length = n)
    (hx : ks.xExtFFT.length = ks.width) (hT : TransformsSucceed ks)
    (hfwd : ∀ v : List G, v.length = ks.width ∨ v.length = ks.width / 2 →
      ks.FFTG1 v false = .ok (dft (ω ^ (ks.width / v.length)) v)) :
    ∃ a b, FK20Single ks p = .ok a ∧
      FK20SingleDAOptimized ks (p ++ List.replicate n 0) = .ok b ∧
      a.length = n ∧ b.length = ks.width ∧ ∀ i, i < n → b[2 * i]? = a[i]? := by
  have hhalfw : ks.width / 2 = n := by omega
  have hsub : ks.width - n = n := by omega
  have hd1 : ks.width / ks.width = 1 := Nat.div_self (by omega)
  have hd2 : ks.width / n = 2 := Nat.div_eq_of_eq_mul_left (by omega) hw
  obtain ⟨c, hc, hcl, _⟩ := toeplitzCoeffsStep_entries ks p n hw hn hp
  obtain ⟨cf, ecf, lcf⟩ := hT.1 c false (Or.inl hcl)
  have hpw : (pointwise ks cf).length = ks.width := by simp [pointwise]
  obtain ⟨out, eout, lout⟩ := hT.2 (pointwise ks cf) true (Or.inl hpw)
  have hh : (out.take n).length = n := by
    rw [List.length_take]
    omega
  have hl : (out.take n ++ List.replicate n (0 : G)).length = ks.width := by
    simp only [List.length_append, List.length_replicate, hh]
    omega
  have e1 := FK20Single_eq ks p c cf out hc hcl hx ecf (by omega) eout (by omega)
  rw [hhalfw, hfwd _ (Or.inr (by rw [hh, hhalfw])), hh, hd2] at e1
  have hq : (p ++ List.replicate n (0 : F)).length = ks.width := by
    simp only [List.length_append, List.length_replicate]
    omega
  have htake : (p ++ List.replicate n (0 : F)).take (ks.width / 2) = p := by
    rw [hhalfw, ← hp]
    exact take_append_zeros p _
  have hzero : ∀ i, ks.width / 2 ≤ i → i < ks.width →
      (p ++ List.replicate n (0 : F))[i]? = some 0 := by
    intro i h1 h2
    rw [List.getElem?_append, if_neg (by omega), List.getElem?_replicate, if_pos (by omega)]
  have e2 := FK20SingleDAOptimized_eq ks (p ++ List.replicate n 0) c cf out hq hzero
    (by rw [htake]; exact hc) hcl hx ecf (by omega) eout (by omega)
  rw [hhalfw, hsub, hfwd _ (Or.inl hl), hl, hd1, pow_one] at e2
  refine ⟨_, _, e1, e2, by rw [dft_length, hh], by rw [dft_length, hl], fun i hi => ?_⟩
  exact dft_padded_even ω _ n i hh.symm hi

/-- C16 at width 8 over `ZMod 17` and the polynomial `[1, 2, 3, 4]`: the proofs
`[13, 13, 5, 12]` of `FK20Single` are the entries at the indices 0, 2, 4, 6 of the
proofs `[13, 0, 13, 2, 5, 16, 12, 8]` of the zero-padded variant. -/
theorem even_index_relation_witness :
    FK20Single ks8 [1, 2, 3, 4] = .ok [13, 13, 5, 12] ∧
    FK20SingleDAOptimized ks8 [1, 2, 3, 4, 0, 0, 0, 0] = .ok [13, 0, 13, 2, 5, 16, 12, 8] ∧
    ∃ a b, FK20Single ks8 [1, 2, 3, 4] = .ok a ∧
      FK20SingleDAOptimized ks8 ([1, 2, 3, 4] ++ List.replicate 4 0) = .ok b ∧
      a.length = 4 ∧ b.length = ks8.width ∧ ∀ i, i < 4 → b[2 * i]? = a[i]? :=
  ⟨by decide, by decide,
    even_index_relation ks8 2 4 [1, 2, 3, 4] rfl (by decide) rfl rfl
      (modelSettings_transformsSucceed 2 9 9 8 _ _ (by norm_num) (by norm_num))
      (fun v hv => modelSettings_forward 2 9 9 8 _ _ v
        (by rcases hv with hv | hv <;> rw [hv] <;> decide)
        (by rcases hv with hv | hv <;> rw [hv] <;> decide))⟩

end EvenIndex

/-! ## Linearity of proof generation -/

section Linearity

variable {F G : Type} [Field F] [AddCommGroup G] [Module F G]

omit [Field F] [AddCommGroup G] [Module F G] in
theorem getElem?_zipWith_same {α β γ : Type} (f : α → β → γ) (u : List α) (v : List β)
    (hl : u.length = v.length) (j : Nat) (du : α) (dv : β) :
    (List.zipWith f u v)[j]?
      = if j < u.length then some (f (u.getD j du) (v.getD j dv)) else none := by
  rw [List.getElem?_zipWith]
  by_cases hj : j < u.length
  · have hj2 : j < v.length := by omega
    rw [if_pos hj, List.getElem?_eq_getElem hj, List.getElem?_eq_getElem hj2,
      List.getD_eq_getElem _ _ hj, List.getD_eq_getElem _ _ hj2]
  · rw [if_neg hj, List.getElem?_eq_none (by omega)]

omit [Field F] [AddCommGroup G] [Module F G] in
theorem getD_zipWith_add {M : Type} [AddZeroClass M] (u v : List M)
    (hl : u.length = v.length) (j : Nat) :
    (List.zipWith (· + ·) u v).getD j 0 = u.getD j 0 + v.getD j 0 := by
  rw [List.getD_eq_getElem?_getD, getElem?_zipWith_same _ u v hl j 0 0]
  by_cases hj : j < u.length
  · rw [if_pos hj, Option.getD_some]
  · rw [if_neg hj, List.getD_eq_default _ _ (by omega), List.getD_eq_default _ _ (by omega),
      add_zero]
    rfl

omit [AddCommGroup G] [Module F G] in
theorem getD_map_mul (a : F) (v : List F) (j : Nat) :
    (v.map (a * ·)).getD j 0 = a * v.getD j 0 := by
  rw [List.getD_eq_getElem?_getD, List.getD_eq_getElem?_getD, List.getElem?_map]
  cases v[j]? with
  | none => simp
  | some x => rfl

theorem getD_map_smul (a : F) (v : List G) (j : Nat) :
    (v.map (a • ·)).getD j 0 = a • v.getD j 0 := by
  rw [List.getD_eq_getElem?_getD, List.getD_eq_getElem?_getD, List.getElem?_map]
  cases v[j]? with
  | none => simp
  | some x => rfl

omit [AddCommGroup G] [Module F G] in
/-- The coefficient vector of an entrywise sum is the entrywise sum of the coefficient
vectors, and the coefficient vector of a scaled polynomial is the scaled vector. -/
theorem toeplitzCoeffsStep_linear (ks : KateSettings F G) (p q : List F) (a : F) (n : Nat)
    (hw : ks.width = 2 * n) (hn : 2 ≤ n) (hp : p.length = n) (hq : q.length = n) :
    ∃ cp cq, toeplitzCoeffsStep ks p = .ok cp ∧ toeplitzCoeffsStep ks q = .ok cq ∧
      cp.length = ks.width ∧ cq.length = ks.width ∧
      toeplitzCoeffsStep ks (List.zipWith (· + ·) p q) = .ok (List.zipWith (· + ·) cp cq) ∧
      toeplitzCoeffsStep ks (p.map (a * ·)) = .ok (cp.map (a * ·)) := by
  obtain ⟨cp, ep, lp, gp⟩ := toeplitzCoeffsStep_entries ks p n hw hn hp
  obtain ⟨cq, eq, lq, gq⟩ := toeplitzCoeffsStep_entries ks q n hw hn hq
  obtain ⟨cs, es, ls, gs⟩ := toeplitzCoeffsStep_entries ks (List.zipWith (· + ·) p q) n hw hn
    (by rw [List.length_zipWith]; omega)
  obtain ⟨cm, em, lm, gm⟩ := toeplitzCoeffsStep_entries ks (p.map (a * ·)) n hw hn
    (by rw [List.length_map]; exact hp)
  have hpq : p.length = q.length := by omega
  refine ⟨cp, cq, ep, eq, lp, lq, ?_, ?_⟩
  · rw [es]
    congr 1
    apply List.ext_getElem?
    intro j
    rw [getElem?_zipWith_same _ cp cq (by omega) j 0 0, List.getD_eq_getElem?_getD cp,
      List.getD_eq_getElem?_getD cq, gs j, gp j, gq j, lp]
    by_cases h0 : j = 0
    · rw [if_pos h0, if_pos h0, if_pos h0, if_pos (by omega), getD_zipWith_add p q hpq]
      rfl
    · by_cases h1 : j ≤ n
      · rw [if_neg h0, if_neg h0, if_neg h0, if_pos h1, if_pos h1, if_pos h1,
          if_pos (by omega)]
        simp
      · by_cases h2 : j < ks.width
        · rw [if_neg h0, if_neg h0, if_neg h0, if_neg h1, if_neg h1, if_neg h1, if_pos h2,
            if_pos h2, if_pos h2, if_pos h2, getD_zipWith_add p q hpq]
          rfl
        · rw [if_neg h0, if_neg h1, if_neg h2, if_neg h2]
  · rw [em]
    congr 1
    apply List.ext_getElem?
    intro j
    rw [List.getElem?_map, gm j, gp j]
    by_cases h0 : j = 0
    · rw [if_pos h0, if_pos h0, getD_map_mul]
      rfl
    · by_cases h1 : j ≤ n
      · rw [if_neg h0, if_neg h0, if_pos h1, if_pos h1]
        simp
      · by_cases h2 : j < ks.width
        · rw [if_neg h0, if_neg h0, if_neg h1, if_neg h1, if_pos h2, if_pos h2, getD_map_mul]
          rfl
        · rw [if_neg h0, if_neg h0, if_neg h1, if_neg h1, if_neg h2, if_neg h2]
          rfl

theorem pointwise_getElem? (ks : KateSettings F G) (cf : List F) (j : Nat) :
    (pointwise ks cf)[j]?
      = if j < ks.width then some (cf.getD j 0 • ks.xExtFFT.getD j 0) else none := by
  rw [pointwise, List.getElem?_map]
  by_cases hj : j < ks.width
  · rw [if_pos hj, List.getElem?_range hj]
    rfl
  · rw [if_neg hj, List.getElem?_eq_none (by simpa using hj)]
    rfl

theorem pointwise_getD (ks : KateSettings F G) (cf : List F) (j : Nat) (hj : j < ks.width) :
    (pointwise ks cf).getD j 0 = cf.getD j 0 • ks.xExtFFT.getD j 0 := by
  rw [List.getD_eq_getElem?_getD, pointwise_getElem?, if_pos hj, Option.getD_some]

/-- The pointwise product with `xExtFFT` is linear in the transformed coefficients. -/
theorem pointwise_linear (ks : KateSettings F G) (cf1 cf2 : List F) (a : F)
    (hl : cf1.length = cf2.length) :
    pointwise ks (List.zipWith (· + ·) cf1 cf2)
        = List.zipWith (· + ·) (pointwise ks cf1) (pointwise ks cf2) ∧
      pointwise ks (cf1.map (a * ·)) = (pointwise ks cf1).map (a • ·) := by
  have hlen : ∀ cf : List F, (pointwise ks cf).length = ks.width := by
    intro cf
    simp [pointwise]
  constructor
  · apply List.ext_getElem?
    intro j
    rw [getElem?_zipWith_same _ _ _ ((hlen cf1).trans (hlen cf2).symm) j 0 0,
      pointwise_getElem?, hlen]
    by_cases hj : j < ks.width
    · rw [if_pos hj, if_pos hj, pointwise_getD ks cf1 j hj, pointwise_getD ks cf2 j hj,
        getD_zipWith_add cf1 cf2 hl, add_smul]
    · rw [if_neg hj, if_neg hj]
  · apply List.ext_getElem?
    intro j
    rw [List.getElem?_map, pointwise_getElem?, pointwise_getElem?]
    by_cases hj : j < ks.width
    · rw [if_pos hj, if_pos hj, getD_map_mul, mul_smul]
      rfl
    · rw [if_neg hj, if_neg hj]
      rfl

/-- C18: with transforms that are linear and succeed, and a cached `xExtFFT` of length
`W`, on a width `W = 2 * n` with `n ≥ 2`, for two polynomials `p`, `q` of length `n`
and a scalar `a`: `FK20Single` returns `n` proofs on `p` and on `q`, on the entrywise
sum `p + q` it returns the entrywise sum of these proofs, and on the scaled polynomial
`a * p` the proofs of `p` scaled by `a`. -/
theorem proofs_linear (ks : KateSettings F G) (n : Nat) (p q : List F) (a : F)
    (hw : ks.width = 2 * n) (hn : 2 ≤ n) (hp : p.length = n) (hq : q.length = n)
    (hx : ks.xExtFFT.length = ks.width) (hT : TransformsSucceed ks)
    (hL : TransformsLinear ks) :
    ∃ pp pq, FK20Single ks p = .ok pp ∧ FK20Single ks q = .ok pq ∧
      pp.length = n ∧ pq.length = n ∧
      FK20Single ks (List.zipWith (· + ·) p q) = .ok (List.zipWith (· + ·) pp pq) ∧
      FK20Single ks (p.map (a * ·)) = .ok (pp.map (a • ·)) := by
  have hhalf : ks.width / 2 = n := by omega
  obtain ⟨cp, cq, ep, eq, lp, lq, es, em⟩ := toeplitzCoeffsStep_linear ks p q a n hw hn hp hq
  obtain ⟨fp, efp, lfp⟩ := hT.1 cp false (Or.inl lp)
  obtain ⟨fq, efq, lfq⟩ := hT.1 cq false (Or.inl lq)
  have hpwl : ∀ cf : List F, (pointwise ks cf).length = ks.width := by
    intro cf
    simp [pointwise]
  obtain ⟨op, eop, lop⟩ := hT.2 (pointwise ks fp) true (Or.inl (hpwl fp))
  obtain ⟨oq, eoq, loq⟩ := hT.2 (pointwise ks fq) true (Or.inl (hpwl fq))
  have hlop : op.length = ks.width := by rw [lop, hpwl]
  have hloq : oq.length = ks.width := by rw [loq, hpwl]
  have htp : (op.take n).length = n := by
    rw [List.length_take]
    omega
  have htq : (oq.take n).length = n := by
    rw [List.length_take]
    omega
  obtain ⟨pp, epp, lpp⟩ := hT.2 (op.take n) false (Or.inr (by rw [htp, hhalf]))
  obtain ⟨pq, epq, lpq⟩ := hT.2 (oq.take n) false (Or.inr (by rw [htq, hhalf]))
  have e1 := FK20Single_eq ks p cp fp op ep lp hx efp (by omega) eop (by omega)
  rw [hhalf, epp] at e1
  have e2 := FK20Single_eq ks q cq fq oq eq lq hx efq (by omega) eoq (by omega)
  rw [hhalf, epq] at e2
  -- the sum
  have efs := hL.1 cp cq fp fq false (by omega) efp efq
  have hps := (pointwise_linear ks fp fq a (by omega)).1
  have eos := hL.2.2.1 (pointwise ks fp) (pointwise ks fq) op oq true
    (by rw [hpwl, hpwl]) eop eoq
  rw [← hps] at eos
  have e3 := FK20Single_eq ks (List.zipWith (· + ·) p q) (List.zipWith (· + ·) cp cq)
    (List.zipWith (· + ·) fp fq) (List.zipWith (· + ·) op oq) es
    (by rw [List.length_zipWith]; omega) hx efs (by rw [List.length_zipWith]; omega) eos
    (by rw [List.length_zipWith]; omega)
  rw [hhalf, List.take_zipWith,
    hL.2.2.1 (op.take n) (oq.take n) pp pq false (by rw [htp, htq]) epp epq] at e3
  -- the scaled polynomial
  have efm := hL.2.1 a cp fp false efp
  have hpm := (pointwise_linear ks fp fq a (by omega)).2
  have eom := hL.2.2.2 a (pointwise ks fp) op true eop
  rw [← hpm] at eom
  have e4 := FK20Single_eq ks (p.map (a * ·)) (cp.map (a * ·)) (fp.map (a * ·))
    (op.map (a • ·)) em (by rw [List.length_map]; omega) hx efm
    (by rw [List.length_map]; omega) eom (by rw [List.length_map]; omega)
  rw [hhalf, ← List.map_take, hL.2.2.2 a (op.take n) pp false epp] at e4
  exact ⟨pp, pq, e1, e2, lpp.trans htp, lpq.trans htq, e3, e4⟩

open Finset in
/-- The discrete Fourier transform of an entrywise sum. -/
theorem dft_add (ω : F) (u v : List G) (hl : u.length = v.length) :
    dft ω (List.zipWith (· + ·) u v) = List.zipWith (· + ·) (dft ω u) (dft ω v) := by
  have hz : (List.zipWith (· + ·) u v).length = u.length := by
    rw [List.length_zipWith]
    omega
  apply List.ext_getElem?
  intro j
  rw [getElem?_zipWith_same _ _ _ (by rw [dft_length, dft_length, hl]) j 0 0, dft_length]
  by_cases hj : j < u.length
  · rw [if_pos hj, dft_getElem? _ _ _ (by omega), dft_getD _ _ _ hj,
      dft_getD _ _ _ (by omega), hz, ← hl, ← Finset.sum_add_distrib]
    congr 1
    refine Finset.sum_congr rfl (fun i _ => ?_)
    rw [getD_zipWith_add u v hl, smul_add]
  · rw [if_neg hj, List.getElem?_eq_none (by rw [dft_length]; omega)]

open Finset in
/-- The discrete Fourier transform of a scaled input. -/
theorem dft_smul (ω a : F) (v : List G) :
    dft ω (v.map (a • ·)) = (dft ω v).map (a • ·) := by
  apply List.ext_getElem?
  intro j
  rw [List.getElem?_map]
  by_cases hj : j < v.length
  · rw [dft_getElem? _ _ _ (by rw [List.length_map]; exact hj), dft_getElem? _ _ _ hj,
      List.length_map, Option.map_some', Finset.smul_sum]
    congr 1
    refine Finset.sum_congr rfl (fun i _ => ?_)
    rw [getD_map_smul, smul_comm]
  · rw [List.getElem?_eq_none (by rw [dft_length, List.length_map]; omega),
      List.getElem?_eq_none (by rw [dft_length]; omega)]
    rfl

omit [AddCommGroup G] [Module F G] in
theorem map_zipWith_add {M : Type} [AddCommGroup M] [Module F M] (c : F) (u v : List M) :
    (List.zipWith (· + ·) u v).map (c • ·)
      = List.zipWith (· + ·) (u.map (c • ·)) (v.map (c • ·)) := by
  induction u generalizing v with
  | nil => simp
  | cons x u ih =>
    cases v with
    | nil => simp
    | cons y v => simp [ih, smul_add]

/-- The model transform is linear. -/
theorem modelFFT_linear (ω ωInv twoInv : F) (width : Nat) (inv : Bool) :
    (∀ (u v tu tv : List G), u.length = v.length →
      modelFFT ω ωInv twoInv width u inv = .ok tu →
      modelFFT ω ωInv twoInv width v inv = .ok tv →
      modelFFT ω ωInv twoInv width (List.zipWith (· + ·) u v) inv
        = .ok (List.zipWith (· + ·) tu tv)) ∧
    (∀ (a : F) (u tu : List G), modelFFT ω ωInv twoInv width u inv = .ok tu →
      modelFFT ω ωInv twoInv width (u.map (a • ·)) inv = .ok (tu.map (a • ·))) := by
  constructor
  · intro u v tu tv hl hu hv
    have hz : (List.zipWith (· + ·) u v).length = u.length := by
      rw [List.length_zipWith]
      omega
    unfold modelFFT at hu hv ⊢
    rw [hz]
    rw [← hl] at hv
    by_cases hc : u.length = 0 ∨ width % u.length ≠ 0
    · rw [if_pos hc] at hu
      cases hu
    · rw [if_neg hc] at hu hv ⊢
      cases inv
      · simp only [Bool.false_eq_true, if_false, Except.ok.injEq] at hu hv ⊢
        rw [← hu, ← hv, dft_add _ u v hl]
      · simp only [if_true, Except.ok.injEq] at hu hv ⊢
        rw [← hu, ← hv, dft_add _ u v hl]
        exact map_zipWith_add _ _ _
  · intro a u tu hu
    unfold modelFFT at hu ⊢
    rw [List.length_map]
    by_cases hc : u.length = 0 ∨ width % u.length ≠ 0
    · rw [if_pos hc] at hu
      cases hu
    · rw [if_neg hc] at hu ⊢
      cases inv
      · simp only [Bool.false_eq_true, if_false, Except.ok.injEq] at hu ⊢
        rw [← hu, dft_smul]
      · simp only [if_true, Except.ok.injEq] at hu ⊢
        rw [← hu, dft_smul, List.map_map, List.map_map]
        congr 1
        funext g
        simp only [Function.comp_apply]
        rw [smul_comm]

/-- The transforms of model settings are linear. -/
theorem modelSettings_linear (ω ωInv twoInv : F) (width : Nat) (h : width < 2 ^ 64)
    (xf : List G) :
    TransformsLinear (modelSettings ω ωInv twoInv width h xf : KateSettings F G) :=
  ⟨fun u v tu tv inv hl hu hv =>
      (modelFFT_linear (G := F) ω ωInv twoInv width inv).1 u v tu tv hl hu hv,
    fun a u tu inv hu => (modelFFT_linear (G := F) ω ωInv twoInv width inv).2 a u tu hu,
    fun u v tu tv inv hl hu hv =>
      (modelFFT_linear (G := G) ω ωInv twoInv width inv).1 u v tu tv hl hu hv,
    fun a u tu inv hu => (modelFFT_linear (G := G) ω ωInv twoInv width inv).2 a u tu hu⟩

/-- C18 at width 8 over `ZMod 17`, for `p = [1, 2, 3, 4]`, `q = [5, 6, 7, 8]` and
`a = 3`: the proofs `[13, 13, 5, 12]` and `[9, 7, 0, 16]` add up to the proofs
`[5, 3, 5, 11]` of `p + q`, and the proofs of `3 * p` are `[5, 5, 15, 2]`. -/
theorem proofs_linear_witness :
    (FK20Single ks8 [1, 2, 3, 4] = .ok [13, 13, 5, 12] ∧
      FK20Single ks8 [5, 6, 7, 8] = .ok [9, 7, 0, 16] ∧
      FK20Single ks8 [6, 8, 10, 12] = .ok [5, 3, 5, 11] ∧
      FK20Single ks8 [3, 6, 9, 12] = .ok [5, 5, 15, 2]) ∧
    ∃ pp pq, FK20Single ks8 [1, 2, 3, 4] = .ok pp ∧ FK20Single ks8 [5, 6, 7, 8] = .ok pq ∧
      pp.length = 4 ∧ pq.length = 4 ∧
      FK20Single ks8 (List.zipWith (· + ·) [1, 2, 3, 4] [5, 6, 7, 8])
        = .ok (List.zipWith (· + ·) pp pq) ∧
      FK20Single ks8 (([1, 2, 3, 4] : List (ZMod 17)).map (3 * ·))
        = .ok (pp.map ((3 : ZMod 17) • ·)) :=
  ⟨by decide,
    proofs_linear ks8 4 [1, 2, 3, 4] [5, 6, 7, 8] 3 rfl (by decide) rfl rfl rfl
      (modelSettings_transformsSucceed 2 9 9 8 _ _ (by norm_num) (by norm_num))
      (modelSettings_linear 2 9 9 8 _ _)⟩

end Linearity

/-! ## The decimation is the discrete Fourier transform -/

section Decimation

open Finset

variable {F G : Type} [Field F] [AddCommGroup G] [Module F G]

theorem evens_getElem? {α : Type} : ∀ (l : List α) (m : Nat), (evens l)[m]? = l[2 * m]?
  | [], m => by simp [evens]
  | [a], m => by
    cases m with
    | zero => simp [evens]
    | succ m => simp [evens]; omega
  | a :: b :: t, 0 => by simp [evens]
  | a :: b :: t, m + 1 => by
    have h := evens_getElem? t m
    have e : 2 * (m + 1) = 2 * m + 1 + 1 := by ring
    rw [evens, List.getElem?_cons_succ, h, e, List.getElem?_cons_succ, List.getElem?_cons_succ]

theorem odds_getElem? {α : Type} : ∀ (l : List α) (m : Nat), (odds l)[m]? = l[2 * m + 1]?
  | [], m => by simp [odds]
  | [a], m => by simp [odds]
  | a :: b :: t, 0 => by simp [odds]
  | a :: b :: t, m + 1 => by
    have h := odds_getElem? t m
    have e : 2 * (m + 1) + 1 = 2 * m + 1 + 1 + 1 := by ring
    rw [odds, List.getElem?_cons_succ, h, e, List.getElem?_cons_succ, List.getElem?_cons_succ]

theorem evens_length {α : Type} : ∀ (l : List α), (evens l).length = (l.length + 1) / 2
  | [] => by simp [evens]
  | [a] => by simp [evens]
  | a :: b :: t => by
    have h := evens_length t
    simp only [evens, List.length_cons, h]
    omega

theorem odds_length {α : Type} : ∀ (l : List α), (odds l).length = l.length / 2
  | [] => by simp [odds]
  | [a] => by simp [odds]
  | a :: b :: t => by
    have h := odds_length t
    simp only [odds, List.length_cons, h]
    omega

theorem evens_getD {α : Type} (l : List α) (m : Nat) (d : α) :
    (evens l).getD m d = l.getD (2 * m) d := by
  rw [List.getD_eq_getElem?_getD, List.getD_eq_getElem?_getD, evens_getElem?]

theorem odds_getD {α : Type} (l : List α) (m : Nat) (d : α) :
    (odds l).getD m d = l.getD (2 * m + 1) d := by
  rw [List.getD_eq_getElem?_getD, List.getD_eq_getElem?_getD, odds_getElem?]

/-- Every second entry of a table of powers is the table of the powers of the square. -/
theorem evens_powers (ω : F) (n : Nat) :
    evens ((List.range (2 * n)).map (fun i => ω ^ i)) = (List.range n).map (fun i => (ω ^ 2) ^ i) := by
  apply List.ext_getElem?
  intro j
  rw [evens_getElem?, List.getElem?_map, List.getElem?_map]
  by_cases hj : j < n
  · rw [List.getElem?_range hj, List.getElem?_range (by omega)]
    simp only [Option.map_some', pow_mul]
  · rw [List.getElem?_eq_none (by simpa using hj), List.getElem?_eq_none (by simp; omega)]
    rfl

/-- A sum over `2 * n` indices, split into the even and the odd indices. -/
theorem sum_range_even_odd {M : Type} [AddCommMonoid M] (f : Nat → M) (n : Nat) :
    ∑ j in range (2 * n), f j = ∑ m in range n, f (2 * m) + ∑ m in range n, f (2 * m + 1) := by
  induction n with
  | zero => simp
  | succ n ih =>
    have e : 2 * (n + 1) = 2 * n + 1 + 1 := by ring
    rw [e, Finset.sum_range_succ, Finset.sum_range_succ, ih, Finset.sum_range_succ,
      Finset.sum_range_succ]
    abel

/-- The decimation over the table of the powers of `ω` is the discrete Fourier
transform over `ω`, when `ω ^ (n / 2) = -1` for the length `n = 2 ^ k` of the input. -/
theorem fftRec_eq_dft : ∀ (k : Nat) (ω : F) (v : List G), v.length = 2 ^ k →
    (0 < k → ω ^ (2 ^ (k - 1)) = -1) →
    fftRec k ((List.range (2 ^ k)).map (fun i => ω ^ i)) v = dft ω v := by
  intro k
  induction k with
  | zero =>
    intro ω v hv _
    match v, hv with
    | [a], _ => simp [fftRec, dft, sumTo]
  | succ k ih =>
    intro ω v hv hω
    have hneg : ω ^ (2 ^ k) = -1 := hω (by omega)
    have hn : 2 ^ (k + 1) = 2 * 2 ^ k := by ring
    have hpos : 0 < 2 ^ k := pow_pos (by norm_num) k
    have hle : (evens v).length = 2 ^ k := by rw [evens_length, hv, hn]; omega
    have hlo : (odds v).length = 2 ^ k := by rw [odds_length, hv, hn]; omega
    have hsq : 0 < k → (ω ^ 2) ^ (2 ^ (k - 1)) = -1 := by
      intro hk
      rw [← pow_mul, ← pow_succ', Nat.sub_add_cancel hk, hneg]
    have hroots : evens ((List.range (2 ^ (k + 1))).map (fun i => ω ^ i))
        = (List.range (2 ^ k)).map (fun i => (ω ^ 2) ^ i) := by
      rw [hn, evens_powers]
    rw [fftRec, hroots, ih (ω ^ 2) (evens v) hle hsq, ih (ω ^ 2) (odds v) hlo hsq]
    have hrd : ∀ i, i < 2 ^ k →
        ((List.range (2 ^ (k + 1))).map (fun i => ω ^ i)).getD i 0 = ω ^ i := by
      intro i hi
      rw [List.getD_eq_getElem?_getD, List.getElem?_map, List.getElem?_range (by omega)]
      rfl
    have hone : ω ^ (2 * 2 ^ k) = 1 := by
      rw [mul_comm, pow_mul, hneg]
      norm_num
    apply List.ext_getElem?
    intro j
    rw [List.getElem?_append, List.length_map, List.length_range]
    by_cases hj : j < 2 ^ k
    · rw [if_pos hj, List.getElem?_map, List.getElem?_range hj, Option.map_some',
        hrd j hj, dft_getElem? ω v j (by omega), hv, hn, sum_range_even_odd,
        dft_getD _ _ _ (by rw [hle]; exact hj), dft_getD _ _ _ (by rw [hlo]; exact hj),
        hle, hlo, Finset.smul_sum]
      congr 2
      · refine Finset.sum_congr rfl (fun m _ => ?_)
        rw [evens_getD, ← pow_mul]
        congr 2
        ring
      · refine Finset.sum_congr rfl (fun m _ => ?_)
        rw [odds_getD, smul_smul, ← pow_mul, ← pow_add]
        congr 2
        ring
    · rw [if_neg hj]
      by_cases hj2 : j < 2 ^ (k + 1)
      · obtain ⟨i, rfl⟩ : ∃ i, j = i + 2 ^ k := ⟨j - 2 ^ k, by omega⟩
        have hi : i < 2 ^ k := by omega
        rw [Nat.add_sub_cancel, List.getElem?_map, List.getElem?_range hi, Option.map_some',
          hrd i hi, dft_getElem? ω v _ (by omega), hv, hn, sum_range_even_odd,
          dft_getD _ _ _ (by rw [hle]; exact hi), dft_getD _ _ _ (by rw [hlo]; exact hi),
          hle, hlo, sub_eq_add_neg, ← neg_smul, Finset.smul_sum]
        congr 2
        · refine Finset.sum_congr rfl (fun m _ => ?_)
          have e : ω ^ (2 * m * (i + 2 ^ k)) = (ω ^ 2) ^ (m * i) := by
            have e1 : 2 * m * (i + 2 ^ k) = 2 * (m * i) + 2 * 2 ^ k * m := by ring
            rw [e1, pow_add, pow_mul _ (2 * 2 ^ k), hone, one_pow, mul_one, pow_mul]
          rw [evens_getD, e]
        · refine Finset.sum_congr rfl (fun m _ => ?_)
          have e : ω ^ ((2 * m + 1) * (i + 2 ^ k)) = -ω ^ i * (ω ^ 2) ^ (m * i) := by
            have e1 : (2 * m + 1) * (i + 2 ^ k)
                = i + 2 * (m * i) + 2 * 2 ^ k * m + 2 ^ k := by ring
            rw [e1, pow_add, pow_add, pow_add, pow_mul _ (2 * 2 ^ k), hone, one_pow, mul_one,
              hneg, pow_mul]
            ring
          rw [odds_getD, smul_smul, e]
      · rw [List.getElem?_eq_none (by simp; omega),
          List.getElem?_eq_none (by rw [dft_length]; omega)]

/-- The half-way power of a primitive root of unity of order `2 ^ k` is `-1`. -/
theorem primitiveRoot_half (ω : F) (k : Nat) (hω : IsPrimitiveRoot ω (2 ^ k)) (hk : 0 < k) :
    ω ^ (2 ^ (k - 1)) = -1 := by
  have h2 : 2 ^ k = 2 ^ (k - 1) * 2 := by
    rw [← pow_succ, Nat.sub_add_cancel hk]
  have hp : IsPrimitiveRoot (ω ^ (2 ^ (k - 1))) 2 :=
    hω.pow (pow_pos (by norm_num) k) h2
  exact hp.eq_neg_one_of_two_right

/-- The domain that `buildDomain` returns on a power of two. -/
theorem buildDomain_pow (ω : F) (k : Nat) :
    buildDomain ω (2 ^ k) = .ok ⟨2 ^ k, (List.range (2 ^ k)).map (fun i => ω ^ i),
      (List.range (2 ^ k)).map (fun i => ω⁻¹ ^ i)⟩ := by
  rw [buildDomain, indexBits_pow, if_pos rfl]

/-- On a domain built over a primitive root `ω`, the forward transform is the discrete
Fourier transform over `ω` and the inverse one the inverse transform. -/
theorem transform_eq (ω : F) (k : Nat) (hω : IsPrimitiveRoot ω (2 ^ k))
    (d : EvaluationDomain F) (hd : buildDomain ω (2 ^ k) = .ok d) (v : List G)
    (hv : v.length = 2 ^ k) :
    transform d v false = .ok (dft ω v) ∧ transform d v true = .ok (idft ω v) := by
  rw [buildDomain_pow] at hd
  simp only [Except.ok.injEq] at hd
  subst hd
  have hc : ¬ (v.length ≠ 2 ^ k) := by
    rw [hv]
    exact fun h => h rfl
  constructor
  · simp only [transform, if_neg hc, Bool.false_eq_true, if_false, indexBits_pow]
    rw [fftRec_eq_dft k ω v hv (primitiveRoot_half ω k hω)]
  · simp only [transform, if_neg hc, if_true, indexBits_pow]
    rw [fftRec_eq_dft k ω⁻¹ v hv (primitiveRoot_half ω⁻¹ k hω.inv), idft, hv]

/-- The inverse transform undoes the transform. -/
theorem idft_dft (ω : F) (w : Nat) (hw : 0 < w) (hω : IsPrimitiveRoot ω w) (v : List G)
    (hv : v.length = w) : idft ω (dft ω v) = v := by
  have hW := width_ne_zero ω w hw hω
  apply List.ext_getElem?
  intro j
  by_cases hj : j < w
  · rw [idft_getElem? _ _ _ (by rw [dft_length, hv]; exact hj), dft_length, hv,
      List.getElem?_eq_getElem (by omega)]
    congr 1
    have step : ∀ k ∈ range w, (ω⁻¹) ^ (k * j) • (dft ω v).getD k 0
        = ∑ i in range w, ((ω⁻¹) ^ (k * j) * ω ^ (i * k)) • v.getD i 0 := by
      intro k hk
      rw [dft_getD _ _ _ (by rw [hv]; exact Finset.mem_range.mp hk), hv, Finset.smul_sum]
      refine Finset.sum_congr rfl (fun i _ => ?_)
      rw [smul_smul]
    rw [Finset.sum_congr rfl step, Finset.sum_comm, Finset.sum_eq_single j]
    · rw [← Finset.sum_smul, (root_orthogonality ω w hw hω j j).1 rfl, smul_smul,
        inv_mul_cancel₀ hW, one_smul, List.getD_eq_getElem _ _ (by omega)]
    · intro i hi hne
      rw [← Finset.sum_smul, (root_orthogonality ω w hw hω i j).2
        (fun h => hne (hω.pow_inj (Finset.mem_range.mp hi) hj h)), zero_smul]
    · intro h
      exact absurd (Finset.mem_range.mpr hj) h
  · rw [List.getElem?_eq_none (by rw [idft_length, dft_length, hv]; omega),
      List.getElem?_eq_none (by omega)]

end Decimation

/-! ## Round trip and the inverse transform -/

section TransformClaims

open Finset

variable {F G : Type} [Field F] [AddCommGroup G] [Module F G]

theorem primitiveRoot_three_mod_seventeen : IsPrimitiveRoot (3 : ZMod 17) (2 ^ 4) := by
  refine IsPrimitiveRoot.mk_of_lt _ (by decide) (by decide) ?_
  intro l h0 h8
  have h16 : l < 16 := h8
  interval_cases l <;> decide

/-- C11: on a domain of power-of-two width `W = 2 ^ k` built over a primitive `W`-th
root of unity, for every sequence `v` of `W` values the forward transform succeeds
with some `c` of `W` values, the inverse transform of `c` succeeds, and it returns `v`
exactly. -/
theorem fft_roundtrip (ω : F) (k : Nat) (hω : IsPrimitiveRoot ω (2 ^ k))
    (d : EvaluationDomain F) (hd : buildDomain ω (2 ^ k) = .ok d) (v : List G)
    (hv : v.length = 2 ^ k) :
    ∃ c, transform d v false = .ok c ∧ c.length = 2 ^ k ∧ transform d c true = .ok v := by
  have h1 := (transform_eq ω k hω d hd v hv).1
  have hl : (dft ω v).length = 2 ^ k := by rw [dft_length, hv]
  refine ⟨dft ω v, h1, hl, ?_⟩
  rw [(transform_eq ω k hω d hd (dft ω v) hl).2,
    idft_dft ω (2 ^ k) (pow_pos (by norm_num) k) hω v hv]

/-- C11 at the test's input: width 16 and `v[i] = i`, over `ZMod 17` with the root of
unity 3. -/
theorem fft_roundtrip_witness :
    buildDomain (3 : ZMod 17) (2 ^ 4) = .ok domain16 ∧
    transform domain16 ((List.range 16).map (fun (i : Nat) => (i : ZMod 17))) false
      = .ok [1, 8, 2, 15, 7, 4, 6, 5, 9, 13, 12, 14, 11, 3, 16, 10] ∧
    ∃ c, transform domain16 ((List.range 16).map (fun (i : Nat) => (i : ZMod 17))) false
        = .ok c ∧ c.length = 2 ^ 4 ∧
      transform domain16 c true = .ok ((List.range 16).map (fun (i : Nat) => (i : ZMod 17))) :=
  ⟨buildDomain_pow 3 4, by decide,
    fft_roundtrip 3 4 primitiveRoot_three_mod_seventeen domain16 (buildDomain_pow 3 4) _
      (by decide)⟩

theorem getD_map_range (f : Nat → F) (n j : Nat) (hj : j < n) :
    ((List.range n).map f).getD j 0 = f j := by
  rw [List.getD_eq_getElem?_getD, List.getElem?_map, List.getElem?_range hj]
  rfl

/-- C12: on a domain of width `W = 2 ^ k` built over a primitive `W`-th root of unity
`ω`, the inverse transform of a sequence `v` of `W` scalars succeeds, and its entry `i`
is `W⁻¹` times the sum over `j < W` of `v[j] * ω ^ (-j * i)`; for `W = 16` and
`v[i] = i`, entry 0 is `15 / 2` and entry 8 is `-1 / 2`. -/
theorem inverse_fft_eq_inverse_dft (ω : F) (k : Nat) (hω : IsPrimitiveRoot ω (2 ^ k))
    (d : EvaluationDomain F) (hd : buildDomain ω (2 ^ k) = .ok d) (v : List F)
    (hv : v.length = 2 ^ k) :
    ∃ out, transform d v true = .ok out ∧ out.length = 2 ^ k ∧
      (∀ i, i < 2 ^ k → out[i]? =
        some (((2 ^ k : ℕ) : F)⁻¹ * ∑ j in range (2 ^ k), v.getD j 0 * (ω⁻¹) ^ (j * i))) ∧
      (k = 4 → v = (List.range 16).map (fun (j : Nat) => (j : F)) →
        out[0]? = some ((15 : F) / 2) ∧ out[8]? = some ((-1 : F) / 2)) := by
  have h1 := (transform_eq ω k hω d hd v hv).2
  have hent : ∀ i, i < 2 ^ k → (idft ω v)[i]? =
      some (((2 ^ k : ℕ) : F)⁻¹ * ∑ j in range (2 ^ k), v.getD j 0 * (ω⁻¹) ^ (j * i)) := by
    intro i hi
    rw [idft_getElem? ω v i (by omega), hv, smul_eq_mul]
    congr 2
    refine Finset.sum_congr rfl (fun j _ => ?_)
    rw [smul_eq_mul, mul_comm]
  refine ⟨idft ω v, h1, by rw [idft_length, hv], hent, ?_⟩
  intro hk hvv
  subst hk
  have h16 : ((2 ^ 4 : ℕ) : F) ≠ 0 := width_ne_zero ω (2 ^ 4) (by norm_num) hω
  have h16' : (16 : F) ≠ 0 := by
    have e : ((2 ^ 4 : ℕ) : F) = 16 := by norm_num
    rwa [e] at h16
  have h2 : (2 : F) ≠ 0 := by
    intro h
    apply h16'
    have e : (16 : F) = 2 * 8 := by norm_num
    rw [e, h, zero_mul]
  have hhalf : (ω⁻¹) ^ 8 = -1 := primitiveRoot_half ω⁻¹ 4 hω.inv (by norm_num)
  have hsum : ∀ i, ∑ j in range (2 ^ 4), v.getD j 0 * (ω⁻¹) ^ (j * i)
      = ∑ j in range 16, (j : F) * ((ω⁻¹) ^ i) ^ j := by
    intro i
    refine Finset.sum_congr rfl (fun j hj => ?_)
    rw [hvv, getD_map_range _ _ _ (by simpa using hj), mul_comm j i, pow_mul]
  have e16 : ((2 ^ 4 : ℕ) : F) = 16 := by norm_num
  constructor
  · rw [hent 0 (by norm_num), hsum 0, e16]
    congr 1
    simp only [pow_zero, one_pow, mul_one, Finset.sum_range_succ, Finset.sum_range_zero]
    field_simp
    norm_num
  · rw [hent 8 (by norm_num), hsum 8, e16, hhalf]
    congr 1
    simp only [Finset.sum_range_succ, Finset.sum_range_zero]
    field_simp
    norm_num

/-- C12 at width 16 and `v[i] = i`, over `ZMod 17` with the root of unity 3: entry 0 of
the inverse transform is `15 / 2 = 16` and entry 8 is `-1 / 2 = 8`. -/
theorem inverse_fft_eq_inverse_dft_witness :
    ∃ out, transform domain16 ((List.range 16).map (fun (j : Nat) => (j : ZMod 17))) true
        = .ok out ∧ out[0]? = some 16 ∧ out[8]? = some 8 := by
  obtain ⟨out, h1, _, _, h4⟩ := inverse_fft_eq_inverse_dft 3 4
    primitiveRoot_three_mod_seventeen domain16 (buildDomain_pow 3 4)
    ((List.range 16).map (fun (j : Nat) => (j : ZMod 17))) (by decide)
  obtain ⟨a, b⟩ := h4 rfl rfl
  have e1 : (15 : ZMod 17) / 2 = 16 := by
    rw [div_eq_iff (by decide)]
    decide
  have e2 : (-1 : ZMod 17) / 2 = 8 := by
    rw [div_eq_iff (by decide)]
    decide
  rw [e1] at a
  rw [e2] at b
  exact ⟨out, h1, a, b⟩

/-- The number `testRoot` is a primitive 16th root of unity of the scalar field. -/
theorem primitiveRoot_testRoot :
    IsPrimitiveRoot ((testRoot : ℕ) : ZMod scalarModulus) (2 ^ 4) := by
  refine IsPrimitiveRoot.mk_of_lt _ (by decide) (by decide) ?_
  intro l h0 h8
  have h16 : l < 16 := h8
  interval_cases l <;> decide

set_option maxRecDepth 100000 in
/-- The vector of `TestInvFFT`: over the scalar field of order `scalarModulus`, on the
domain of width 16 built over the primitive root `testRoot`, the inverse transform of
`0, 1, ..., 15` is exactly the vector the test expects; its first entry is `15 / 2`,
that is, twice the entry is the field order plus 15. -/
theorem inverse_fft_test_vector :
    buildDomain ((testRoot : ℕ) : ZMod scalarModulus) (2 ^ 4) = .ok scalarDomain16 ∧
    transform scalarDomain16
        ((List.range 16).map (fun (j : Nat) => (j : ZMod scalarModulus))) true
      = .ok (expectedInvFFT.map (fun (n : Nat) => (n : ZMod scalarModulus))) ∧
    2 * expectedInvFFT.getD 0 0 = scalarModulus + 15 ∧
    2 * expectedInvFFT.getD 8 0 + 1 = scalarModulus := by
  refine ⟨buildDomain_pow _ 4, ?_, by decide, by decide⟩
  have h := (transform_eq ((testRoot : ℕ) : ZMod scalarModulus) 4 primitiveRoot_testRoot
    scalarDomain16 (buildDomain_pow _ 4)
    ((List.range 16).map (fun (j : Nat) => (j : ZMod scalarModulus))) (by decide)).2
  rw [h]
  have hinv : (((testRoot : ℕ) : ZMod scalarModulus))⁻¹ = ((testRootInv : ℕ) : ZMod scalarModulus) :=
    inv_eq_of_mul_eq_one_right (by decide)
  have hlen : ((List.range 16).map (fun (j : Nat) => (j : ZMod scalarModulus))).length = 16 := by
    decide
  have h16 : (((16 : ℕ) : ZMod scalarModulus))⁻¹ = ((sixteenInv : ℕ) : ZMod scalarModulus) :=
    inv_eq_of_mul_eq_one_right (by decide)
  rw [idft, hinv, hlen, h16]
  decide

end TransformClaims

/-! ## Polynomials in coefficient form -/

section Polynomials

open Finset

variable {F : Type} [Field F]

theorem evalPoly_mulLinearAux (r x : F) : ∀ (p : List F) (c : F),
    evalPoly (mulLinearAux r c p) x = c + (x - r) * evalPoly p x
  | [], c => by simp [mulLinearAux, evalPoly]
  | a :: t, c => by
    rw [mulLinearAux, evalPoly, evalPoly_mulLinearAux r x t a, evalPoly]
    ring

theorem evalPoly_mulRoots (x : F) (p : List F) : ∀ (rs : List F),
    evalPoly (mulRoots rs p) x = (rs.map (fun r => x - r)).prod * evalPoly p x
  | [] => by simp [mulRoots]
  | r :: rs => by
    rw [mulRoots, evalPoly_mulLinearAux, evalPoly_mulRoots x p rs, List.map_cons,
      List.prod_cons]
    ring

theorem evalPoly_mulRoots_root (x : F) (p : List F) (rs : List F) (hx : x ∈ rs) :
    evalPoly (mulRoots rs p) x = 0 := by
  rw [evalPoly_mulRoots]
  have h0 : (0 : F) ∈ rs.map (fun r => x - r) :=
    List.mem_map.mpr ⟨x, hx, sub_self x⟩
  rw [List.prod_eq_zero h0, zero_mul]

theorem evalPoly_zeros (x : F) : ∀ (m : Nat), evalPoly (List.replicate m (0 : F)) x = 0
  | 0 => rfl
  | m + 1 => by
    rw [List.replicate_succ, evalPoly, evalPoly_zeros x m]
    ring

theorem evalPoly_append_zeros (x : F) (m : Nat) : ∀ (l : List F),
    evalPoly (l ++ List.replicate m 0) x = evalPoly l x
  | [] => by rw [List.nil_append, evalPoly_zeros, evalPoly]
  | a :: t => by
    rw [List.cons_append, evalPoly, evalPoly_append_zeros x m t, evalPoly]

/-- The value of a polynomial as the sum of its monomials. -/
theorem evalPoly_eq_sum (x : F) : ∀ (l : List F),
    evalPoly l x = ∑ j in range l.length, x ^ j * l.getD j 0
  | [] => by simp [evalPoly]
  | a :: t => by
    rw [evalPoly, evalPoly_eq_sum x t, List.length_cons, Finset.sum_range_succ',
      Finset.mul_sum]
    simp only [List.getD_cons_succ, List.getD_cons_zero, pow_zero, one_mul, pow_succ]
    rw [add_comm]
    congr 1
    refine Finset.sum_congr rfl (fun j _ => ?_)
    ring

theorem mulLinearAux_length (r : F) : ∀ (p : List F) (c : F),
    (mulLinearAux r c p).length = p.length + 1
  | [], c => rfl
  | a :: t, c => by
    rw [mulLinearAux, List.length_cons, mulLinearAux_length r t a, List.length_cons]

theorem mulRoots_length (p : List F) : ∀ (rs : List F),
    (mulRoots rs p).length = rs.length + p.length
  | [] => by simp [mulRoots]
  | r :: rs => by
    rw [mulRoots, mulLinearAux_length, mulRoots_length p rs, List.length_cons]
    omega

theorem synthDiv_zeros (r : F) : ∀ (m : Nat),
    synthDiv r (List.replicate m 0) = (List.replicate m 0, 0)
  | 0 => rfl
  | m + 1 => by
    rw [List.replicate_succ, synthDiv, synthDiv_zeros r m]
    simp

/-- Division by `x - r` undoes the multiplication by `x - r`. -/
theorem synthDiv_mulLinearAux (r : F) (m : Nat) : ∀ (p : List F) (c : F),
    synthDiv r (mulLinearAux r c p ++ List.replicate m 0)
      = (p ++ List.replicate (m + 1) 0, c)
  | [], c => by
    rw [mulLinearAux, List.singleton_append, synthDiv, synthDiv_zeros]
    simp [List.replicate_succ]
  | a :: t, c => by
    rw [mulLinearAux, List.cons_append, synthDiv, synthDiv_mulLinearAux r m t a]
    simp only [List.cons_append, Prod.mk.injEq, true_and]
    ring

/-- Dividing out the factors undoes multiplying them in. -/
theorem divRoots_mulRoots (p : List F) : ∀ (rs : List F) (m : Nat),
    divRoots rs (mulRoots rs p ++ List.replicate m 0)
      = p ++ List.replicate (m + rs.length) 0
  | [], m => by simp [divRoots, mulRoots]
  | r :: rs, m => by
    rw [divRoots, mulRoots, synthDiv_mulLinearAux, divRoots_mulRoots p rs (m + 1),
      List.length_cons]
    congr 2
    omega

omit [Field F] in
theorem missingRoots_length : ∀ (s : List (Option F)) (r : List F), s.length ≤ r.length →
    (missingRoots s r).length + s.countP Option.isSome = s.length
  | [], r, _ => by simp [missingRoots]
  | a :: s, [], h => by simp at h
  | none :: s, b :: r, h => by
    have ih := missingRoots_length s r (by simpa using h)
    simp only [missingRoots, List.length_cons, List.countP_cons, Option.isSome_none]
    simp only [Bool.false_eq_true, if_false]
    omega
  | some a :: s, b :: r, h => by
    have ih := missingRoots_length s r (by simpa using h)
    simp only [missingRoots, List.length_cons, List.countP_cons, Option.isSome_some, if_true]
    omega

theorem mem_missingRoots : ∀ (s : List (Option F)) (r : List F) (i : Nat), i < r.length →
    s[i]? = some none → r.getD i 0 ∈ missingRoots s r
  | [], r, i, _, h => by simp at h
  | a :: s, [], i, h, _ => by simp at h
  | none :: s, b :: r, 0, _, _ => by simp [missingRoots]
  | some a :: s, b :: r, 0, _, h => by simp at h
  | none :: s, b :: r, i + 1, hi, h => by
    have ih := mem_missingRoots s r i (by simpa using hi) (by simpa using h)
    simp only [missingRoots, List.getD_cons_succ, List.mem_cons]
    exact Or.inr ih
  | some a :: s, b :: r, i + 1, hi, h => by
    have ih := mem_missingRoots s r i (by simpa using hi) (by simpa using h)
    simpa only [missingRoots, List.getD_cons_succ] using ih

/-- The transform of a coefficient vector holds the values of the polynomial at the
powers of the root. -/
theorem dft_getElem?_evalPoly (ω : F) (l : List F) (i : Nat) (hi : i < l.length) :
    (dft ω l)[i]? = some (evalPoly l (ω ^ i)) := by
  rw [dft_getElem? ω l i hi, evalPoly_eq_sum]
  congr 1
  refine Finset.sum_congr rfl (fun j _ => ?_)
  rw [smul_eq_mul, ← pow_mul, mul_comm i j]

/-- A vector whose upper half is zero is its lower half followed by zeros. -/
theorem eq_take_append_zeros (data : List F) (w : Nat) (hl : data.length = w)
    (hz : ∀ i, w / 2 ≤ i → i < w → data.getD i 0 = 0) :
    data = data.take (w / 2) ++ List.replicate (w - w / 2) 0 := by
  apply List.ext_getElem?
  intro j
  rw [List.getElem?_append, List.length_take, List.getElem?_take, List.getElem?_replicate]
  have hmin : min (w / 2) data.length = w / 2 := by omega
  rw [hmin]
  by_cases h1 : j < w / 2
  · rw [if_pos h1, if_pos h1]
  · rw [if_neg h1]
    by_cases h2 : j < w
    · rw [if_pos (by omega), ← hz j (by omega) h2]
      exact (some_getD_eq_getElem? _ _ _ (by omega)).symm
    · rw [if_neg (by omega), List.getElem?_eq_none (by omega)]

end Polynomials

/-! ## Erasure recovery -/

section Recovery

variable {F : Type} [Field F]

/-- Recovery on a domain built over a primitive root: the samples of the transform of
a vector with a zero upper half, at least half of them known, give the transform
back. -/
theorem recover_eq (ω : F) (k : Nat) (hω : IsPrimitiveRoot ω (2 ^ k))
    (d : EvaluationDomain F) (hd : buildDomain ω (2 ^ k) = .ok d)
    (data : List F) (hdata : data.length = 2 ^ k)
    (hzero : ∀ i, 2 ^ k / 2 ≤ i → i < 2 ^ k → data.getD i 0 = 0)
    (samples : List (Option F)) (hs : samples.length = 2 ^ k)
    (hagree : ∀ (i : Nat) (v : F), samples[i]? = some (some v) → (dft ω data)[i]? = some v)
    (hknown : 2 ^ k / 2 ≤ samples.countP Option.isSome) :
    recover d samples = .ok (dft ω data) := by
  have hpos : 0 < 2 ^ k := pow_pos (by norm_num) k
  have hd2 := hd
  rw [buildDomain_pow] at hd2
  simp only [Except.ok.injEq] at hd2
  have hwidth : d.width = 2 ^ k := by rw [← hd2]
  have hroots : d.rootsOfUnity = (List.range (2 ^ k)).map (fun i => ω ^ i) := by rw [← hd2]
  have hrl : d.rootsOfUnity.length = 2 ^ k := by rw [hroots]; simp
  have hrd : ∀ i, i < 2 ^ k → d.rootsOfUnity.getD i 0 = ω ^ i := by
    intro i hi
    rw [hroots, List.getD_eq_getElem?_getD, List.getElem?_map, List.getElem?_range hi]
    rfl
  -- the missing roots
  have hml := missingRoots_length samples d.rootsOfUnity (by omega)
  have hdata2 := eq_take_append_zeros data (2 ^ k) hdata hzero
  have hPl : (data.take (2 ^ k / 2)).length = 2 ^ k / 2 := by
    rw [List.length_take]
    omega
  have hQl : (mulRoots (missingRoots samples d.rootsOfUnity) (data.take (2 ^ k / 2))
      ++ List.replicate (2 ^ k - (missingRoots samples d.rootsOfUnity).length - 2 ^ k / 2)
        0).length = 2 ^ k := by
    rw [List.length_append, mulRoots_length, hPl, List.length_replicate]
    omega
  -- the pointwise product is the transform of the product polynomial
  have hprod : List.zipWith (fun (s : Option F) z => s.getD 0 * z) samples
      (d.rootsOfUnity.map (evalPoly (mulRoots (missingRoots samples d.rootsOfUnity) [1])))
      = dft ω (mulRoots (missingRoots samples d.rootsOfUnity) (data.take (2 ^ k / 2))
        ++ List.replicate (2 ^ k - (missingRoots samples d.rootsOfUnity).length - 2 ^ k / 2)
          0) := by
    apply List.ext_getElem?
    intro i
    rw [getElem?_zipWith_same _ _ _ (by rw [List.length_map, hs, hrl]) i none 0, hs]
    by_cases hi : i < 2 ^ k
    · rw [if_pos hi, dft_getElem?_evalPoly _ _ _ (by rw [hQl]; exact hi),
        evalPoly_append_zeros]
      congr 1
      have hz : (d.rootsOfUnity.map
          (evalPoly (mulRoots (missingRoots samples d.rootsOfUnity) [1]))).getD i 0
          = evalPoly (mulRoots (missingRoots samples d.rootsOfUnity) [1]) (ω ^ i) := by
        rw [List.getD_eq_getElem?_getD, List.getElem?_map, hroots, List.getElem?_map,
          List.getElem?_range hi]
        rfl
      rw [hz]
      have hsi : samples[i]? = some (samples.getD i none) :=
        (some_getD_eq_getElem? _ _ _ (by omega)).symm
      cases hcase : samples.getD i none with
      | none =>
        rw [hcase] at hsi
        have hmem := mem_missingRoots samples d.rootsOfUnity i (by omega) hsi
        rw [hrd i hi] at hmem
        rw [evalPoly_mulRoots_root _ (data.take (2 ^ k / 2)) _ hmem]
        simp
      | some v =>
        rw [hcase] at hsi
        have hv := hagree i v hsi
        rw [dft_getElem?_evalPoly _ _ _ (by omega)] at hv
        simp only [Option.some.injEq] at hv
        rw [hdata2, evalPoly_append_zeros] at hv
        rw [evalPoly_mulRoots, evalPoly_mulRoots, hv]
        simp [evalPoly]
        ring
    · rw [if_neg hi, List.getElem?_eq_none (by rw [dft_length, hQl]; omega)]
  have hlen : ¬ (samples.length ≠ d.width) := by
    rw [hs, hwidth]
    exact fun h => h rfl
  have hkn : ¬ (samples.countP Option.isSome < d.width / 2) := by
    rw [hwidth]
    omega
  have hdiv : divRoots (missingRoots samples d.rootsOfUnity)
      (mulRoots (missingRoots samples d.rootsOfUnity) (data.take (2 ^ k / 2))
        ++ List.replicate (2 ^ k - (missingRoots samples d.rootsOfUnity).length - 2 ^ k / 2)
          0) = data := by
    rw [divRoots_mulRoots]
    have e : 2 ^ k - (missingRoots samples d.rootsOfUnity).length - 2 ^ k / 2
        + (missingRoots samples d.rootsOfUnity).length = 2 ^ k - 2 ^ k / 2 := by omega
    rw [e]
    exact hdata2.symm
  simp only [recover, if_neg hlen, if_neg hkn, hprod]
  rw [(transform_eq ω k hω d hd _ (by rw [dft_length, hQl])).2,
    idft_dft ω (2 ^ k) hpos hω _ hQl]
  simp only [hdiv]
  exact (transform_eq ω k hω d hd data hdata).1

/-- C13: on a domain of power-of-two width `W = 2 ^ k` built over a primitive `W`-th
root of unity, for every data vector of `W` scalars with a zero upper half, its
transform `coeffs`, and every vector of `W` samples each of which is missing or is the
entry of `coeffs` at its position, at least `W / 2` of them known, `recover` returns
`coeffs`: every known value unchanged and every missing value regenerated. -/
theorem erasure_recovery (ω : F) (k : Nat) (hω : IsPrimitiveRoot ω (2 ^ k))
    (d : EvaluationDomain F) (hd : buildDomain ω (2 ^ k) = .ok d)
    (data coeffs : List F) (hdata : data.length = 2 ^ k)
    (hzero : ∀ i, 2 ^ k / 2 ≤ i → i < 2 ^ k → data.getD i 0 = 0)
    (hcoeffs : transform d data false = .ok coeffs)
    (samples : List (Option F)) (hs : samples.length = 2 ^ k)
    (hagree : ∀ i, i < 2 ^ k →
      samples.getD i none = none ∨ samples.getD i none = some (coeffs.getD i 0))
    (hknown : 2 ^ k / 2 ≤ samples.countP Option.isSome) :
    recover d samples = .ok coeffs := by
  have hc := (transform_eq ω k hω d hd data hdata).1
  rw [hcoeffs] at hc
  simp only [Except.ok.injEq] at hc
  subst hc
  refine recover_eq ω k hω d hd data hdata hzero samples hs (fun i v hv => ?_) hknown
  have hi : i < 2 ^ k := by
    by_contra hc
    rw [List.getElem?_eq_none (by omega)] at hv
    cases hv
  have hg : samples.getD i none = some v := by
    rw [List.getD_eq_getElem?_getD, hv, Option.getD_some]
  rcases hagree i hi with h | h
  · rw [h] at hg
    cases hg
  · rw [h] at hg
    simp only [Option.some.injEq] at hg
    rw [← hg]
    exact (some_getD_eq_getElem? _ _ _ (by rw [dft_length, hdata]; exact hi)).symm

/-- C13 at width 16 over `ZMod 17` with the root of unity 3, for the data
`[3, 1, 4, 1, 5, 9, 2, 6, 0, ..., 0]`: from 8 known samples at scattered positions, and
from the 8 samples of the upper half (the pattern of the simple test), `recover`
returns all 16 values of the transform. -/
theorem erasure_recovery_witness :
    transform domain16 ([3, 1, 4, 1, 5, 9, 2, 6, 0, 0, 0, 0, 0, 0, 0, 0] : List (ZMod 17))
        false
      = .ok [14, 3, 13, 5, 7, 12, 11, 1, 14, 10, 1, 10, 14, 9, 1, 8] ∧
    recover domain16 [none, some 3, none, some 5, some 7, none, none, some 1, none, some 10,
        some 1, none, none, some 9, some 1, none]
      = .ok [14, 3, 13, 5, 7, 12, 11, 1, 14, 10, 1, 10, 14, 9, 1, 8] ∧
    recover domain16 [none, none, none, none, none, none, none, none, some 14, some 10,
        some 1, some 10, some 14, some 9, some 1, some 8]
      = .ok [14, 3, 13, 5, 7, 12, 11, 1, 14, 10, 1, 10, 14, 9, 1, 8] :=
  ⟨by decide,
    erasure_recovery 3 4 primitiveRoot_three_mod_seventeen domain16 (buildDomain_pow 3 4)
      [3, 1, 4, 1, 5, 9, 2, 6, 0, 0, 0, 0, 0, 0, 0, 0]
      [14, 3, 13, 5, 7, 12, 11, 1, 14, 10, 1, 10, 14, 9, 1, 8] rfl (by decide) (by decide)
      [none, some 3, none, some 5, some 7, none, none, some 1, none, some 10,
        some 1, none, none, some 9, some 1, none] rfl (by decide) (by decide),
    erasure_recovery 3 4 primitiveRoot_three_mod_seventeen domain16 (buildDomain_pow 3 4)
      [3, 1, 4, 1, 5, 9, 2, 6, 0, 0, 0, 0, 0, 0, 0, 0]
      [14, 3, 13, 5, 7, 12, 11, 1, 14, 10, 1, 10, 14, 9, 1, 8] rfl (by decide) (by decide)
      [none, none, none, none, none, none, none, none, some 14, some 10,
        some 1, some 10, some 14, some 9, some 1, some 8] rfl (by decide) (by decide)⟩

end Recovery

end Kate
